import Mathlib

/-!
# upjet `pkg/pipeline/run.go`: the code generation pipeline `Run`

A shallow embedding of `Run` and `sortedResources` and the properties of the
resource grouping, the controller package map, the API version package list
and the fail-fast error handling.

Modelling conventions.

* A Go `map[string]V` is an association list `GoMap V`.  Reading a missing key
  gives the zero value (`mapIndex`), an assignment overwrites the entry of an
  existing key in place and appends a new entry otherwise (`mapSet`).  The order
  of the list is the order in which `range` visits the map; Go leaves it
  unspecified, so the input maps are arbitrary lists with pairwise distinct keys.
  The table of groups is ranged over a second time, by the loops of lines 162-164 in
  every iteration of the loop over the groups; each of these `range` statements draws
  an order of its own, given by the rank functions `Env.rangeGroups`,
  `Env.rangeVersions` and `Env.rangeResources` (`aggregationTable`).  A run executes
  each of them at most once for a given outer group, group and version, which are
  arguments of the ranks, and every order of a map is drawn by some ranks
  (`rangeOrder_reaches`), so the environments cover every combination of orders.
* Functions of the Go standard library (`strings.ToLower`, `filepath.Join`,
  `filepath.Clean`, the `%q` verb) and the constants of package `config` are
  fields of the environment `Env`, as are the generators that `Run` calls:
  their code is outside `run.go`.  The generators are stateful and fallible, so
  each takes and returns an abstract collaborator state `σ`.
* `panic(errors.Wrap(err, msg))` ends the run with `Except.error`, carrying the
  wrapping message, the cause and the state in which the run stopped.
* Every generator call is recorded, with its result, in `RunState.log`.
-/

namespace Pipeline

/-! ## Go maps -/

/-- A Go map with string keys, as an association list in iteration order. -/
abbrev GoMap (V : Type) := List (String × V)

/-- The entry of key `k`, if any. -/
def mapLookup {V : Type} : GoMap V → String → Option V
  | [], _ => none
  | (k', v) :: t, k => if k' = k then some v else mapLookup t k

/-- Go `m[k]` for a map whose values are maps or slices: the zero value (nil,
of length 0) when the key is missing. -/
def mapIndex {V : Type} (m : GoMap (List V)) (k : String) : List V :=
  (mapLookup m k).getD []

/-- Go `m[k] = v`. -/
def mapSet {V : Type} : GoMap V → String → V → GoMap V
  | [], k, v => [(k, v)]
  | (k', v') :: t, k, v => if k' = k then (k', v) :: t else (k', v') :: mapSet t k v

/-- The keys of a map, in iteration order. -/
def mapKeys {V : Type} (m : GoMap V) : List String := m.map Prod.fst

/-! ## Configuration -/

/-- The fields of `config.Resource` that `Run` reads; `CRDHubVersion` is the
value returned by the method of that name. -/
structure Resource where
  ShortGroup : String
  Version : String
  Kind : String
  ControllerReconcileVersion : String
  CRDHubVersion : String
deriving DecidableEq, Repr, Inhabited

/-- The base package lists `config.BasePackages`. -/
structure BasePackages where
  APIVersion : List String
  Controller : List String
  ControllerMap : GoMap String

/-- The fields of `config.Provider` that `Run` reads. -/
structure Provider where
  RootGroup : String
  ModulePath : String
  ShortName : String
  FeaturesPackage : String
  MainTemplate : String
  BasePackages : BasePackages
  Resources : GoMap Resource

/-- The table `resourcesGroups`: group, then version, then resource name. -/
abbrev GroupingTable := GoMap (GoMap (GoMap Resource))

/-- The type of `nodeVersionsMap`: `"<shortGroup>.<kind>"` to versions. -/
abbrev NodeVersionsMap := GoMap (List String)

/-! ## Generator calls -/

/-- A call of `Run` to a generator or to `goimports`. -/
inductive Call where
  | setReferenceTypes
  | insertPreviousObjects (group version : String)
  | crdGenerate (group version name : String)
  | ctrlGenerate (group version name watchVersionPkgPath featuresPkgPath : String)
  | exampleGenerate (group version name : String)
  | tfGenerate (group version : String) (tfResources : List (Resource × String))
  | versionGenerate (group version : String)
  | conversionHubGenerate (group : String)
  | conversionSpokeGenerate (group : String)
  | storeExamples
  | registerGenerate (apiVersionPkgList : List String)
  | providerGenerate (controllerPkgMap : GoMap (List String)) (mainTemplate : String)
  | goimports (dir : String)
deriving DecidableEq, Repr

/-- What a successful call returned. -/
inductive Reply where
  | done
  | path (p : String)
  | nodes (nodeVersionsMap : NodeVersionsMap)
deriving DecidableEq, Repr

/-- A call together with its result: the error, or the reply. -/
structure Event where
  call : Call
  result : Except String Reply

/-- The calls made after the loop over the groups has ended. -/
def Call.isFinal : Call → Bool
  | .storeExamples => true
  | .registerGenerate _ => true
  | .providerGenerate _ _ => true
  | .goimports _ => true
  | _ => false

/-- The event records a call that returned an error. -/
def Event.failed (e : Event) : Bool :=
  match e.result with
  | .error _ => true
  | .ok _ => false

/-- What `run.go` uses and does not define: standard library functions,
constants of package `config`, and the generators over a collaborator state. -/
structure Env (σ : Type) where
  /-- Go `strings.ToLower`. -/
  toLower : String → String
  /-- Go `filepath.Join`. -/
  filepathJoin : List String → String
  /-- Go `filepath.Clean`. -/
  filepathClean : String → String
  /-- Go formatting of a string with `%q`. -/
  fmtQ : String → String
  PackageNameConfig : String
  PackageNameMonolith : String
  /-- The path `NewVersionGenerator(rootDir, modulePath, group, version).Package().Path()`. -/
  versionPackagePath : (rootDir modulePath group version : String) → String
  setReferenceTypes : σ → GoMap Resource → Except String (Unit × σ)
  insertPreviousObjects : σ → (group version : String) → GoMap (GoMap Resource) →
    Except String (Unit × σ)
  crdGenerate : σ → (group version : String) → Resource → Except String (String × σ)
  ctrlGenerate : σ → (group : String) → Resource → (watchVersionPkgPath featuresPkgPath : String) →
    Except String (String × σ)
  exampleGenerate : σ → (group version : String) → Resource → Except String (Unit × σ)
  tfGenerate : σ → (group version : String) → List (Resource × String) → Except String (Unit × σ)
  versionGenerate : σ → (group version : String) → Except String (Unit × σ)
  /-- The method `Generate` of a conversion node generator built for a group, a file
  name and a predicate; the reply is its `nodeVersionsMap` after the call. -/
  conversionGenerate : σ → (group fileName : String) → (Resource → String → Bool) →
    GoMap (GoMap Resource) → Except String (NodeVersionsMap × σ)
  storeExamples : σ → Except String (Unit × σ)
  registerGenerate : σ → List String → Except String (Unit × σ)
  providerGenerate : σ → GoMap (List String) → (mainTemplate : String) → Except String (Unit × σ)
  /-- The command `goimports -w $(find . -iname 'zz_*')` run in a directory: on failure
  the error and the combined output. -/
  goimports : σ → (dir : String) → Except (String × String) σ
  /-- The order that the `range` of line 162 draws for the groups of the table while
  the group `outer` is processed: a group of smaller rank is visited first, groups of
  equal rank in the order of the list.  Go draws the order of every `range` over a map
  anew; the default keeps the order of the list. -/
  rangeGroups : (outer : String) → String → Nat := fun _ _ => 0
  /-- The order that the `range` of line 163 draws for the versions of `group` while
  the group `outer` is processed. -/
  rangeVersions : (outer group : String) → String → Nat := fun _ _ _ => 0
  /-- The order that the `range` of line 164 draws for the resources of `version` of
  `group` while the group `outer` is processed. -/
  rangeResources : (outer group version : String) → String → Nat := fun _ _ _ _ => 0

/-! ## State of a run -/

/-- The error built by `errors.Wrap(err, context)`. -/
structure Panic where
  context : String
  cause : String
deriving DecidableEq, Repr

/-- The text of `errors.Wrap(err, context).Error()`. -/
def Panic.message (p : Panic) : String := p.context ++ ": " ++ p.cause

/-- The variables of `Run`, the collaborator state and the log of calls. -/
structure RunState (σ : Type) where
  world : σ
  log : List Event
  apiVersionPkgList : List String
  controllerPkgMap : GoMap (List String)
  count : Nat
  /-- The number printed by `fmt.Printf("\nGenerated %d resources!\n", count)`. -/
  reported : Option Nat

/-- A step of `Run`: a value, or the panic and the state in which the run stopped. -/
abbrev Outcome (σ α : Type) := Except (Panic × RunState σ) α

/-- The state a run ended in, normally or by a panic. -/
def Outcome.state {σ : Type} : Outcome σ (RunState σ) → RunState σ
  | .ok st => st
  | .error e => e.2

/-- One generator call `if ..., err := gen(...); err != nil { panic(errors.Wrap(err, context)) }`. -/
def invoke {σ α : Type} (st : RunState σ) (c : Call) (context : String) (toReply : α → Reply)
    (res : Except String (α × σ)) : Outcome σ (α × RunState σ) :=
  match res with
  | .error e => .error (⟨context, e⟩, { st with log := st.log ++ [⟨c, .error e⟩] })
  | .ok (a, w) => .ok (a, { st with world := w, log := st.log ++ [⟨c, .ok (toReply a)⟩] })

/-! ## Grouping (lines 35-48) -/

/-- The group of a resource (lines 37-40). -/
def groupOf {σ : Type} (env : Env σ) (pc : Provider) (resource : Resource) : String :=
  if resource.ShortGroup ≠ "" then env.toLower resource.ShortGroup ++ "." ++ pc.RootGroup
  else pc.RootGroup

/-- The body of the grouping loop (lines 37-47). -/
def groupInsert {σ : Type} (env : Env σ) (pc : Provider) (resourcesGroups : GroupingTable)
    (entry : String × Resource) : GroupingTable :=
  let name := entry.1
  let resource := entry.2
  let group := groupOf env pc resource
  let t1 :=
    if (mapIndex resourcesGroups group).length = 0 then mapSet resourcesGroups group []
    else resourcesGroups
  let t2 :=
    if (mapIndex (mapIndex t1 group) resource.Version).length = 0 then
      mapSet t1 group (mapSet (mapIndex t1 group) resource.Version [])
    else t1
  mapSet t2 group (mapSet (mapIndex t2 group) resource.Version
    (mapSet (mapIndex (mapIndex t2 group) resource.Version) name resource))

/-- The grouping loop over `pc.Resources` (lines 35-48). -/
def groupResources {σ : Type} (env : Env σ) (pc : Provider) : GroupingTable :=
  pc.Resources.foldl (groupInsert env pc) []

/-- The entry of a resource name in a bucket of the table. -/
def tableLookup (t : GroupingTable) (group version name : String) : Option Resource :=
  mapLookup (mapIndex (mapIndex t group) version) name

/-! ## `sortedResources` (lines 213-222) -/

/-- Go `sort.Strings`: ascending in the byte-wise order of strings, which for
UTF-8 text is the lexicographic order of the code points. -/
def sortStrings (l : List String) : List String :=
  l.insertionSort fun a b => a.toList ≤ b.toList

/-- The function `sortedResources`: the keys of the bucket, sorted. -/
def sortedResources (m : GoMap Resource) : List String :=
  sortStrings (mapKeys m)

/-! ## Controller package map (lines 60-90) -/

/-- The statement `m[k] = append(m[k], path)`. -/
def appendPkg (m : GoMap (List String)) (k path : String) : GoMap (List String) :=
  mapSet m k (mapIndex m k ++ [path])

/-- The body of the loop over `pc.BasePackages.ControllerMap` (lines 63-65), for the
package `pg.1` and its group `pg.2`. -/
def controllerMapStep {σ : Type} (env : Env σ) (pc : Provider) (m : GoMap (List String))
    (pg : String × String) : GoMap (List String) :=
  let path := env.filepathJoin [pc.ModulePath, pg.1]
  appendPkg (appendPkg m pg.2 path) env.PackageNameMonolith path

/-- The loop over `pc.BasePackages.ControllerMap` (lines 62-66). -/
def seedControllerMap {σ : Type} (env : Env σ) (pc : Provider)
    (controllerPkgMap : GoMap (List String)) : GoMap (List String) :=
  pc.BasePackages.ControllerMap.foldl (controllerMapStep env pc) controllerPkgMap

/-- The search for `path` under key `k` and the append when it is not found
(lines 70-79 and 80-89). -/
def appendIfAbsent (m : GoMap (List String)) (k path : String) : GoMap (List String) :=
  if path ∈ mapIndex m k then m else appendPkg m k path

/-- The body of the loop over the legacy list `pc.BasePackages.Controller`
(lines 69-89). -/
def legacyStep {σ : Type} (env : Env σ) (pc : Provider) (m : GoMap (List String))
    (p : String) : GoMap (List String) :=
  let path := env.filepathJoin [pc.ModulePath, p]
  appendIfAbsent (appendIfAbsent m env.PackageNameConfig path) env.PackageNameMonolith path

/-- The loop over the legacy list `pc.BasePackages.Controller` (lines 68-90). -/
def seedLegacyControllers {σ : Type} (env : Env σ) (pc : Provider)
    (controllerPkgMap : GoMap (List String)) : GoMap (List String) :=
  pc.BasePackages.Controller.foldl (legacyStep env pc) controllerPkgMap

/-- The locations that the loop over `ControllerMap` appends under key `k`, in the
order of the appends. -/
def cmPkgs {σ : Type} (env : Env σ) (pc : Provider) (k : String) : List String :=
  pc.BasePackages.ControllerMap.flatMap fun pg =>
    (if pg.2 = k then [env.filepathJoin [pc.ModulePath, pg.1]] else []) ++
      (if env.PackageNameMonolith = k then [env.filepathJoin [pc.ModulePath, pg.1]] else [])

/-- The legacy `Controller` base packages, each joined to the module path. -/
def legacyPaths {σ : Type} (env : Env σ) (pc : Provider) : List String :=
  pc.BasePackages.Controller.map fun p => env.filepathJoin [pc.ModulePath, p]

/-! ## The loop over groups, versions and resources (lines 92-180) -/

/-- Go `strings.Split(s, ".")[0]`: the part of `s` before its first dot. -/
def splitFirst (s : String) : String :=
  String.mk (s.toList.takeWhile fun c => c != '.')

/-- The body of the loop over the sorted resource names of a bucket (lines 106-132).
The accumulator holds `tfResources` and the state. -/
def processResource {σ : Type} (env : Env σ) (pc : Provider) (rootDir group shortGroup version : String)
    (resources : GoMap Resource) (acc : List (Resource × String) × RunState σ) (name : String) :
    Outcome σ (List (Resource × String) × RunState σ) :=
  let resource := (mapLookup resources name).getD default
  match invoke acc.2 (.crdGenerate group version name)
      ("cannot generate crd for resource " ++ name) Reply.path
      (env.crdGenerate acc.2.world group version resource) with
  | .error e => .error e
  | .ok (paramTypeName, st1) =>
    let tfResources := acc.1 ++ [(resource, paramTypeName)]
    let featuresPkgPath :=
      if pc.FeaturesPackage ≠ "" then env.filepathJoin [pc.ModulePath, pc.FeaturesPackage] else ""
    let watchVersion :=
      if resource.ControllerReconcileVersion.length ≠ 0 then resource.ControllerReconcileVersion
      else version
    let watchPath := env.versionPackagePath rootDir pc.ModulePath group watchVersion
    match invoke st1 (.ctrlGenerate group version name watchPath featuresPkgPath)
        ("cannot generate controller for resource " ++ name) Reply.path
        (env.ctrlGenerate st1.world group resource watchPath featuresPkgPath) with
    | .error e => .error e
    | .ok (ctrlPkgPath, st2) =>
      let m := appendPkg (appendPkg st2.controllerPkgMap shortGroup ctrlPkgPath)
        env.PackageNameMonolith ctrlPkgPath
      let st3 := { st2 with controllerPkgMap := m }
      match invoke st3 (.exampleGenerate group version name)
          ("cannot generate example manifest for resource " ++ name) (fun _ => Reply.done)
          (env.exampleGenerate st3.world group version resource) with
      | .error e => .error e
      | .ok (_, st4) => .ok (tfResources, { st4 with count := st4.count + 1 })

/-- The body of the loop over the versions of a group (lines 95-142). -/
def processVersion {σ : Type} (env : Env σ) (pc : Provider) (rootDir group shortGroup : String)
    (versions : GoMap (GoMap Resource)) (st : RunState σ) (entry : String × GoMap Resource) :
    Outcome σ (RunState σ) :=
  let version := entry.1
  let resources := entry.2
  match invoke st (.insertPreviousObjects group version)
      ("cannot insert type definitions from the previous versions into the package scope for group "
        ++ env.fmtQ group) (fun _ => Reply.done)
      (env.insertPreviousObjects st.world group version versions) with
  | .error e => .error e
  | .ok (_, st1) =>
    match (sortedResources resources).foldlM
        (processResource env pc rootDir group shortGroup version resources) ([], st1) with
    | .error e => .error e
    | .ok (tfResources, st2) =>
      match invoke st2 (.tfGenerate group version tfResources)
          ("cannot generate terraformed for resource " ++ group) (fun _ => Reply.done)
          (env.tfGenerate st2.world group version tfResources) with
      | .error e => .error e
      | .ok (_, st3) =>
        match invoke st3 (.versionGenerate group version) "cannot generate version files"
            (fun _ => Reply.done) (env.versionGenerate st3.world group version) with
        | .error e => .error e
        | .ok (_, st4) =>
          let p := env.versionPackagePath rootDir pc.ModulePath group version
          .ok { st4 with apiVersionPkgList := st4.apiVersionPkgList ++ [p] }

/-- The key `fmt.Sprintf("%s.%s", r.ShortGroup, r.Kind)`. -/
def nodeKey (r : Resource) : String := r.ShortGroup ++ "." ++ r.Kind

/-- The appends of lines 166-176 for one resource: its spoke versions, then its
hub versions, each joined to `base`. -/
def conversionPackagesOf {σ : Type} (env : Env σ) (base : String)
    (spokeNodes hubNodes : NodeVersionsMap) (apiVersionPkgList : List String) (r : Resource) :
    List String :=
  let l := (mapIndex spokeNodes (nodeKey r)).foldl
    (fun l sv => l ++ [env.filepathJoin [base, sv]]) apiVersionPkgList
  (mapIndex hubNodes (nodeKey r)).foldl (fun l sv => l ++ [env.filepathJoin [base, sv]]) l

/-- The loops of lines 162-179 over every resource of every group and version of a
table, in the order of its lists. -/
def conversionPackages {σ : Type} (env : Env σ) (base : String)
    (spokeNodes hubNodes : NodeVersionsMap) (resourcesGroups : GroupingTable)
    (apiVersionPkgList : List String) : List String :=
  resourcesGroups.foldl (fun l gv =>
    gv.2.foldl (fun l vr =>
      vr.2.foldl (fun l nr => conversionPackagesOf env base spokeNodes hubNodes l nr.2) l) l)
    apiVersionPkgList

/-- A map in the order in which a `range` visits it, when the order drawn is given by
ranks of the keys: the entries by increasing rank, entries of equal rank in the order
of the list. -/
def rangeOrder {V : Type} (rank : String → Nat) (m : GoMap V) : GoMap V :=
  m.insertionSort fun a b => rank a.1 ≤ rank b.1

/-- The table as the loops of lines 162-164 visit it while the group `outer` is
processed: each of the three nested `range` statements draws its own order. -/
def aggregationTable {σ : Type} (env : Env σ) (outer : String) (resourcesGroups : GroupingTable) :
    GroupingTable :=
  (rangeOrder (env.rangeGroups outer) resourcesGroups).map fun gv =>
    (gv.1, (rangeOrder (env.rangeVersions outer gv.1) gv.2).map fun vr =>
      (vr.1, rangeOrder (env.rangeResources outer gv.1 vr.1) vr.2))

/-- The predicate given to the hub generator (lines 145-148). -/
def hubPredicate (c : Resource) (fileAPIVersion : String) : Bool :=
  c.CRDHubVersion == fileAPIVersion

/-- The predicate given to the spoke generator (lines 153-156). -/
def spokePredicate (c : Resource) (fileAPIVersion : String) : Bool :=
  c.CRDHubVersion != fileAPIVersion

/-- The body of the loop over the groups (lines 93-179). -/
def processGroup {σ : Type} (env : Env σ) (pc : Provider) (rootDir : String)
    (resourcesGroups : GroupingTable) (st : RunState σ)
    (entry : String × GoMap (GoMap Resource)) : Outcome σ (RunState σ) :=
  let group := entry.1
  let versions := entry.2
  let shortGroup := splitFirst group
  match versions.foldlM (processVersion env pc rootDir group shortGroup versions) st with
  | .error e => .error e
  | .ok st1 =>
    match invoke st1 (.conversionHubGenerate group)
        ("cannot generate the conversion.Hub function for the resource group " ++ env.fmtQ group)
        Reply.nodes
        (env.conversionGenerate st1.world group "zz_generated.conversion_hubs.go" hubPredicate
          versions) with
    | .error e => .error e
    | .ok (hubNodes, st2) =>
      match invoke st2 (.conversionSpokeGenerate group)
          ("cannot generate the conversion.Convertible functions for the resource group "
            ++ env.fmtQ group) Reply.nodes
          (env.conversionGenerate st2.world group "zz_generated.conversion_spokes.go"
            spokePredicate versions) with
      | .error e => .error e
      | .ok (spokeNodes, st3) =>
        let base := env.filepathJoin [pc.ModulePath, "apis", shortGroup]
        let l := conversionPackages env base spokeNodes hubNodes
          (aggregationTable env group resourcesGroups) st3.apiVersionPkgList
        .ok { st3 with apiVersionPkgList := l }

/-- One run of `goimports` in a directory below `rootDir` (lines 198-202, 204-208). -/
def runGoimports {σ : Type} (env : Env σ) (rootDir folder : String) (st : RunState σ) :
    Outcome σ (RunState σ) :=
  let dir := env.filepathClean (env.filepathJoin [rootDir, folder])
  match env.goimports st.world dir with
  | .error (err, out) =>
    .error (⟨"cannot run goimports for " ++ folder ++ " folder: " ++ out, err⟩,
      { st with log := st.log ++ [⟨.goimports dir, .error err⟩] })
  | .ok w => .ok { st with world := w, log := st.log ++ [⟨.goimports dir, .ok Reply.done⟩] }

/-- The state of `Run` when the loop over the groups starts (lines 50-91). -/
def seedState {σ : Type} (env : Env σ) (pc : Provider) (st : RunState σ) : RunState σ :=
  let l := pc.BasePackages.APIVersion.foldl
    (fun l p => l ++ [env.filepathJoin [pc.ModulePath, p]]) []
  let m := seedLegacyControllers env pc (seedControllerMap env pc [])
  { st with apiVersionPkgList := l, controllerPkgMap := m, count := 0 }

/-- The steps of `Run` after the loop over the groups (lines 182-210). -/
def finish {σ : Type} (env : Env σ) (pc : Provider) (rootDir : String) (st : RunState σ) :
    Outcome σ (RunState σ) :=
  match invoke st .storeExamples "cannot store examples" (fun _ => Reply.done)
      (env.storeExamples st.world) with
  | .error e => .error e
  | .ok (_, st1) =>
    match invoke st1 (.registerGenerate st1.apiVersionPkgList) "cannot generate register file"
        (fun _ => Reply.done) (env.registerGenerate st1.world st1.apiVersionPkgList) with
    | .error e => .error e
    | .ok (_, st2) =>
      match invoke st2 (.providerGenerate st2.controllerPkgMap pc.MainTemplate)
          "cannot generate setup file" (fun _ => Reply.done)
          (env.providerGenerate st2.world st2.controllerPkgMap pc.MainTemplate) with
      | .error e => .error e
      | .ok (_, st3) =>
        match runGoimports env rootDir "apis" st3 with
        | .error e => .error e
        | .ok st4 =>
          match runGoimports env rootDir "internal" st4 with
          | .error e => .error e
          | .ok st5 => .ok { st5 with reported := some st5.count }

/-- The function `Run`, started in collaborator state `w`. -/
def Run {σ : Type} (env : Env σ) (pc : Provider) (rootDir : String) (w : σ) :
    Outcome σ (RunState σ) :=
  let resourcesGroups := groupResources env pc
  let st0 : RunState σ := ⟨w, [], [], [], 0, none⟩
  match invoke st0 .setReferenceTypes "cannot set reference types for resources"
      (fun _ => Reply.done) (env.setReferenceTypes st0.world pc.Resources) with
  | .error e => .error e
  | .ok (_, st1) =>
    match resourcesGroups.foldlM (processGroup env pc rootDir resourcesGroups)
        (seedState env pc st1) with
    | .error e => .error e
    | .ok st2 => finish env pc rootDir st2

/-- The nested assignment `t[group][version][name] = resource` (line 47). -/
def tableSet (t : GroupingTable) (group version name : String) (resource : Resource) :
    GroupingTable :=
  mapSet t group (mapSet (mapIndex t group) version
    (mapSet (mapIndex (mapIndex t group) version) name resource))

/-- The sum of `f` over the values of a map. -/
def mapSum {V : Type} (f : V → Nat) (m : GoMap V) : Nat := (m.map fun e => f e.2).sum

/-- The number of entries of a table: the sum of the sizes of its buckets. -/
def tableSize (t : GroupingTable) : Nat := mapSum (mapSum List.length) t

/-- A table is a well-formed nest of maps without empty maps: keys are pairwise
distinct at every level, no group is empty and no bucket is empty. -/
def TableWF (t : GroupingTable) : Prop :=
  (mapKeys t).Nodup ∧ ∀ gv ∈ t, gv.2 ≠ [] ∧ (mapKeys gv.2).Nodup ∧
    ∀ vr ∈ gv.2, vr.2 ≠ [] ∧ (mapKeys vr.2).Nodup

/-! ## The hub and spoke classifier of the specification -/

/-- Modelled from the spec: one step of the HubSpokeClassifier of §4.2 (the method
`Generate` of the conversion node generator, which fills `nodeVersionsMap`, is not in
`run.go`).  The version is recorded under the key `"<shortGroup>.<kind>"` of the
resource when the predicate holds of the resource and the version as candidate file
version; the entry of a key is an ordered set, so a version is recorded once. -/
def classifyStep (isTarget : Resource → String → Bool) (version : String) (m : NodeVersionsMap)
    (nr : String × Resource) : NodeVersionsMap :=
  if isTarget nr.2 version then appendIfAbsent m (nodeKey nr.2) version else m

/-- Modelled from the spec: the HubSpokeClassifier of §4.2 (the method `Generate` of the
conversion node generator is not in `run.go`): given the version to resources mapping
of a group and a predicate, the `NodeVersionsMap` that records for every
`(shortGroup, kind)` observed the versions, in the order encountered, for which the
predicate holds. -/
def classify (isTarget : Resource → String → Bool) (versions : GoMap (GoMap Resource)) :
    NodeVersionsMap :=
  versions.foldl (fun m vr => vr.2.foldl (classifyStep isTarget vr.1) m) []

/-! ## A sample configuration

The end-to-end scenario of the specification (three resources of short group
`ec2`), with generators that always succeed; the conversion node generators of the
sample are the classifier of the specification. -/

/-- A sample `filepath.Join`: the non-empty elements separated by slashes. -/
def sampleJoin (parts : List String) : String :=
  "/".intercalate (parts.filter fun s => s ≠ "")

/-- A sample `strings.ToLower`, for ASCII letters. -/
def sampleLower (s : String) : String := String.mk (s.toList.map Char.toLower)

/-- An environment whose generators always succeed and keep no state, and whose
aggregation loops (lines 162-164) draw the order of the lists. -/
def sampleEnv : Env Unit where
  toLower := sampleLower
  filepathJoin := sampleJoin
  filepathClean := id
  fmtQ := fun s => "\"" ++ s ++ "\""
  PackageNameConfig := "config"
  PackageNameMonolith := "monolith"
  versionPackagePath := fun _ m g v => sampleJoin [m, "apis", splitFirst g, v]
  setReferenceTypes := fun w _ => .ok ((), w)
  insertPreviousObjects := fun w _ _ _ => .ok ((), w)
  crdGenerate := fun w _ _ r => .ok (r.Kind ++ "Parameters", w)
  ctrlGenerate := fun w g r _ _ =>
    .ok (sampleJoin ["internal/controller", splitFirst g, sampleLower r.Kind], w)
  exampleGenerate := fun w _ _ _ => .ok ((), w)
  tfGenerate := fun w _ _ _ => .ok ((), w)
  versionGenerate := fun w _ _ => .ok ((), w)
  conversionGenerate := fun w _ _ isTarget versions => .ok (classify isTarget versions, w)
  storeExamples := fun w => .ok ((), w)
  registerGenerate := fun w _ => .ok ((), w)
  providerGenerate := fun w _ _ => .ok ((), w)
  goimports := fun w _ => .ok w

/-- The three resources of the scenario. -/
def sampleResources : GoMap Resource :=
  [("vpc", ⟨"ec2", "v1beta1", "VPC", "", "v1beta1"⟩),
   ("subnet", ⟨"ec2", "v1beta1", "Subnet", "", "v1beta1"⟩),
   ("vpc2", ⟨"ec2", "v1beta2", "VPC", "", "v1beta1"⟩)]

/-- The provider configuration of the scenario. -/
def sampleProvider : Provider where
  RootGroup := "aws.upbound.io"
  ModulePath := "github.com/upbound/provider-aws"
  ShortName := "aws"
  FeaturesPackage := ""
  MainTemplate := ""
  BasePackages := ⟨["apis/v1beta1"], ["internal/controller/providerconfig"], []⟩
  Resources := sampleResources

/-- A property of the outcome of a step: `okP` of the value it returns, `errP` of
the panic and state it stops with. -/
def Outcome.Sat {σ α : Type} (okP : α → Prop) (errP : Panic × RunState σ → Prop) :
    Outcome σ α → Prop
  | .ok a => okP a
  | .error e => errP e

/-- The resource name of a CRD generation call. -/
def Call.crdName : Call → Option (String × String × String)
  | .crdGenerate group version name => some (group, version, name)
  | _ => none

/-- The CRD generation calls of a log, in order: group, version and resource name. -/
def crdCalls (log : List Event) : List (String × String × String) :=
  log.filterMap fun e => e.call.crdName

/-- The resource names of all buckets of a table in the order in which the loops of
`Run` visit them: groups and versions in iteration order, names sorted. -/
def processingOrder (t : GroupingTable) : List (String × String × String) :=
  t.flatMap fun gv => gv.2.flatMap fun vr => (sortedResources vr.2).map fun n => (gv.1, vr.1, n)

/-! ## The calls of a run and what the state owes to them -/

/-- A call without the arguments that depend on earlier replies. -/
def Call.skeleton : Call → Call
  | .tfGenerate group version _ => .tfGenerate group version []
  | .registerGenerate _ => .registerGenerate []
  | .providerGenerate _ _ => .providerGenerate [] ""
  | c => c

/-- The message with which `Run` wraps the error of a call (for `goimports` the part
before the output of the command). -/
def Call.wrapContext {σ : Type} (env : Env σ) : Call → String
  | .setReferenceTypes => "cannot set reference types for resources"
  | .insertPreviousObjects group _ =>
    "cannot insert type definitions from the previous versions into the package scope for group "
      ++ env.fmtQ group
  | .crdGenerate _ _ name => "cannot generate crd for resource " ++ name
  | .ctrlGenerate _ _ name _ _ => "cannot generate controller for resource " ++ name
  | .exampleGenerate _ _ name => "cannot generate example manifest for resource " ++ name
  | .tfGenerate group _ _ => "cannot generate terraformed for resource " ++ group
  | .versionGenerate _ _ => "cannot generate version files"
  | .conversionHubGenerate group =>
    "cannot generate the conversion.Hub function for the resource group " ++ env.fmtQ group
  | .conversionSpokeGenerate group =>
    "cannot generate the conversion.Convertible functions for the resource group "
      ++ env.fmtQ group
  | .storeExamples => "cannot store examples"
  | .registerGenerate _ => "cannot generate register file"
  | .providerGenerate _ _ => "cannot generate setup file"
  | .goimports _ => "cannot run goimports"

/-- The call runs `goimports`. -/
def Call.isGoimports : Call → Bool
  | .goimports _ => true
  | _ => false

/-- The package locations that a logged call adds to the sequence of key `k`
(lines 127-128): the reply of a successful controller generation, under the first
label of its group and under the monolithic key. -/
def Event.ctrlPkgs {σ : Type} (env : Env σ) (k : String) (e : Event) : List String :=
  match e.call, e.result with
  | .ctrlGenerate group _ _ _ _, .ok (.path p) =>
    (if splitFirst group = k then [p] else []) ++ (if env.PackageNameMonolith = k then [p] else [])
  | _, _ => []

/-- The package locations that the calls of a log add to the sequence of key `k`. -/
def genPkgs {σ : Type} (env : Env σ) (k : String) (evs : List Event) : List String :=
  evs.flatMap (Event.ctrlPkgs env k)

/-- A logged call after which `count` is incremented (line 132): a successful
example generation. -/
def Event.processed (e : Event) : Nat :=
  match e.call, e.result with
  | .exampleGenerate _ _ _, .ok _ => 1
  | _, _ => 0

/-- The number of resources whose processing the log completes. -/
def processedCount (evs : List Event) : Nat := (evs.map Event.processed).sum

/-- State `st'` comes from `st` by the calls `evs`. -/
structure Extends {σ : Type} (env : Env σ) (st st' : RunState σ) (evs : List Event) : Prop where
  log : st'.log = st.log ++ evs
  pkgs : ∀ k, mapIndex st'.controllerPkgMap k = mapIndex st.controllerPkgMap k ++ genPkgs env k evs
  count : st'.count = st.count + processedCount evs
  reported : st'.reported = st.reported

/-- A step ended normally: it made exactly the calls `expected`, all successful. -/
def StepOk {σ : Type} (env : Env σ) (st : RunState σ) (expected : List Call) (st' : RunState σ) :
    Prop :=
  ∃ evs, Extends env st st' evs ∧ (∀ e ∈ evs, e.failed = false) ∧
    evs.map (fun e => e.call.skeleton) = expected

/-- A step ended by a panic: its calls are an initial part of `expected`, all
successful but the last one, whose error is the cause of the panic. -/
def StepErr {σ : Type} (env : Env σ) (st : RunState σ) (expected : List Call)
    (e : Panic × RunState σ) : Prop :=
  ∃ oks c, Extends env st e.2 (oks ++ [⟨c, .error e.1.cause⟩]) ∧ (∀ ev ∈ oks, ev.failed = false) ∧
    (∃ rest, oks.map (fun ev => ev.call.skeleton) ++ [c.skeleton] ++ rest = expected) ∧
    (c.isGoimports = true ∨ e.1.context = c.wrapContext env)

/-- The calls made for one resource of a bucket (lines 106-131). -/
def resourceCalls {σ : Type} (env : Env σ) (pc : Provider) (rootDir group version : String)
    (resources : GoMap Resource) (name : String) : List Call :=
  let resource := (mapLookup resources name).getD default
  let featuresPkgPath :=
    if pc.FeaturesPackage ≠ "" then env.filepathJoin [pc.ModulePath, pc.FeaturesPackage] else ""
  let watchVersion :=
    if resource.ControllerReconcileVersion.length ≠ 0 then resource.ControllerReconcileVersion
    else version
  [.crdGenerate group version name,
   .ctrlGenerate group version name (env.versionPackagePath rootDir pc.ModulePath group watchVersion)
     featuresPkgPath,
   .exampleGenerate group version name]

/-- The calls made for one version of a group (lines 95-140), without the arguments
that depend on replies. -/
def versionCalls {σ : Type} (env : Env σ) (pc : Provider) (rootDir group : String)
    (entry : String × GoMap Resource) : List Call :=
  [.insertPreviousObjects group entry.1] ++
    (sortedResources entry.2).flatMap (resourceCalls env pc rootDir group entry.1 entry.2) ++
    [.tfGenerate group entry.1 [], .versionGenerate group entry.1]

/-- The calls made for one group (lines 93-159). -/
def groupCalls {σ : Type} (env : Env σ) (pc : Provider) (rootDir : String)
    (entry : String × GoMap (GoMap Resource)) : List Call :=
  entry.2.flatMap (versionCalls env pc rootDir entry.1) ++
    [.conversionHubGenerate entry.1, .conversionSpokeGenerate entry.1]

/-- The calls made after the loop over the groups (lines 182-208). -/
def finishCalls {σ : Type} (env : Env σ) (rootDir : String) : List Call :=
  [.storeExamples, .registerGenerate [], .providerGenerate [] "",
   .goimports (env.filepathClean (env.filepathJoin [rootDir, "apis"])),
   .goimports (env.filepathClean (env.filepathJoin [rootDir, "internal"]))]

/-- The calls of a run after `SetReferenceTypes`, when no call fails. -/
def mainCalls {σ : Type} (env : Env σ) (pc : Provider) (rootDir : String) : List Call :=
  (groupResources env pc).flatMap (groupCalls env pc rootDir) ++ finishCalls env rootDir

/-- The calls of a run on which no call fails. -/
def runCalls {σ : Type} (env : Env σ) (pc : Provider) (rootDir : String) : List Call :=
  .setReferenceTypes :: mainCalls env pc rootDir

/-- The state in which the loop over the groups starts when `SetReferenceTypes` has
succeeded and left the collaborator state `w1`. -/
def startState {σ : Type} (env : Env σ) (pc : Provider) (w1 : σ) : RunState σ :=
  seedState env pc ⟨w1, [⟨.setReferenceTypes, .ok Reply.done⟩], [], [], 0, none⟩

/-- The call is an example generation. -/
def Call.isExample : Call → Bool
  | .exampleGenerate _ _ _ => true
  | _ => false

/-- The number of example generation calls in a list of calls. -/
def exampleCount (cs : List Call) : Nat := (cs.map fun c => if c.isExample then 1 else 0).sum

/-- No generator call and no run of `goimports` ever returns an error. -/
structure Env.AllSucceed {σ : Type} (env : Env σ) : Prop where
  setReferenceTypes : ∀ w m, ∃ w', env.setReferenceTypes w m = .ok ((), w')
  insertPreviousObjects : ∀ w g v vs, ∃ w', env.insertPreviousObjects w g v vs = .ok ((), w')
  crdGenerate : ∀ w g v r, ∃ a w', env.crdGenerate w g v r = .ok (a, w')
  ctrlGenerate : ∀ w g r p f, ∃ a w', env.ctrlGenerate w g r p f = .ok (a, w')
  exampleGenerate : ∀ w g v r, ∃ w', env.exampleGenerate w g v r = .ok ((), w')
  tfGenerate : ∀ w g v l, ∃ w', env.tfGenerate w g v l = .ok ((), w')
  versionGenerate : ∀ w g v, ∃ w', env.versionGenerate w g v = .ok ((), w')
  conversionGenerate : ∀ w g f p vs, ∃ a w', env.conversionGenerate w g f p vs = .ok (a, w')
  storeExamples : ∀ w, ∃ w', env.storeExamples w = .ok ((), w')
  registerGenerate : ∀ w l, ∃ w', env.registerGenerate w l = .ok ((), w')
  providerGenerate : ∀ w m t, ∃ w', env.providerGenerate w m t = .ok ((), w')
  goimports : ∀ w d, ∃ w', env.goimports w d = .ok w'

/-- An environment whose controller generation fails for the kind `VPC`. -/
def failingEnv : Env Unit :=
  { sampleEnv with
    ctrlGenerate := fun w g r _ _ =>
      if r.Kind = "VPC" then .error "no controller template"
      else .ok (sampleJoin ["internal/controller", splitFirst g, sampleLower r.Kind], w) }

/-- A configuration whose `ControllerMap` files a base package under the monolithic key. -/
def monolithMapProvider : Provider :=
  { sampleProvider with
    BasePackages := ⟨[], [], [("internal/controller/providerconfig", "monolith")]⟩,
    Resources := [] }

/-- A configuration with two resources of different kinds and base packages in both lists. -/
def twoKindsProvider : Provider :=
  { sampleProvider with
    BasePackages := ⟨["apis/v1beta1"],
      ["internal/controller/providerconfig", "internal/controller/eks"],
      [("internal/controller/providerconfig", "config")]⟩,
    Resources := sampleResources.take 2 }

/-! ## The API version package list -/

/-- The resources of a table, group by group and version by version in the order of
its lists. -/
def tableResources (t : GroupingTable) : List Resource :=
  t.flatMap fun gv => gv.2.flatMap fun vr => vr.2.map Prod.snd

/-- The locations that lines 166-176 append for one resource. -/
def conversionPkgsOf {σ : Type} (env : Env σ) (base : String)
    (spokeNodes hubNodes : NodeVersionsMap) (r : Resource) : List String :=
  (mapIndex spokeNodes (nodeKey r)).map (fun sv => env.filepathJoin [base, sv]) ++
    (mapIndex hubNodes (nodeKey r)).map (fun sv => env.filepathJoin [base, sv])

/-- The base API version packages, each joined to the module path (lines 55-58). -/
def baseAPIVersionPkgs {σ : Type} (env : Env σ) (pc : Provider) : List String :=
  pc.BasePackages.APIVersion.map fun p => env.filepathJoin [pc.ModulePath, p]

/-- The call is a hub or spoke conversion generation. -/
def Call.isConversion : Call → Bool
  | .conversionHubGenerate _ => true
  | .conversionSpokeGenerate _ => true
  | _ => false

/-- The invariant of the loop over the groups for the API version package list, when
the groups `done` have been processed: the list begins with the base packages, holds
the package of every version of the groups done, and holds the conversion packages of
every resource of the table for every node map that a conversion generator has
returned; both conversion generators of every group done have returned one. -/
def ApiInv {σ : Type} (env : Env σ) (pc : Provider) (rootDir : String) (done : GroupingTable)
    (st : RunState σ) : Prop :=
  (∃ rest, st.apiVersionPkgList = baseAPIVersionPkgs env pc ++ rest) ∧
  (∀ gv ∈ done, ∀ vr ∈ gv.2,
    env.versionPackagePath rootDir pc.ModulePath gv.1 vr.1 ∈ st.apiVersionPkgList) ∧
  (∀ gv ∈ done, ∃ hub spoke,
    (⟨.conversionHubGenerate gv.1, .ok (.nodes hub)⟩ : Event) ∈ st.log ∧
    (⟨.conversionSpokeGenerate gv.1, .ok (.nodes spoke)⟩ : Event) ∈ st.log) ∧
  (∀ ev ∈ st.log, ∀ g nvm,
    (ev.call = .conversionHubGenerate g ∨ ev.call = .conversionSpokeGenerate g) →
    ev.result = .ok (.nodes nvm) →
    ∀ r ∈ tableResources (groupResources env pc), ∀ sv ∈ mapIndex nvm (nodeKey r),
      env.filepathJoin [env.filepathJoin [pc.ModulePath, "apis", splitFirst g], sv]
        ∈ st.apiVersionPkgList)

/-! ## Controller generations and their keys -/

/-- The group and the returned package location of a successful controller generation. -/
def Event.ctrlReply (e : Event) : Option (String × String) :=
  match e.call, e.result with
  | .ctrlGenerate group _ _ _ _, .ok (.path p) => some (group, p)
  | _, _ => none

/-- The successful controller generations of a log, in order: group and returned
package location. -/
def ctrlReplies (log : List Event) : List (String × String) :=
  log.filterMap Event.ctrlReply

/-- A configuration with a resource whose short group has upper-case letters and a
resource without short group. -/
def mixedCaseProvider : Provider :=
  { sampleProvider with
    BasePackages := ⟨[], [], []⟩,
    Resources := [("vpc", ⟨"EC2", "v1beta1", "VPC", "", "v1beta1"⟩),
                  ("providerconfig", ⟨"", "v1beta1", "ProviderConfig", "", "v1beta1"⟩)] }

/-- A configuration with a features package and a resource that overrides the version
its controller reconciles. -/
def overrideProvider : Provider :=
  { sampleProvider with
    FeaturesPackage := "internal/features",
    Resources := [("vpc", ⟨"ec2", "v1beta1", "VPC", "", "v1beta1"⟩),
                  ("vpc2", ⟨"ec2", "v1beta2", "VPC", "v1beta1", "v1beta1"⟩)] }

/-! ## The API version package list as a function of the calls made -/

/-- What a logged call adds to the API version package list; the first component
remembers the node map returned by the last hub generation.  The base packages follow
`SetReferenceTypes` (lines 55-58), the package of a version follows its version file
generation (lines 141-142), and the conversion packages of all resources of the table
follow the spoke generation of a group (lines 161-179), in the order in which the
loops of lines 162-164 visit the table in the iteration of that group. -/
def apiStep {σ : Type} (env : Env σ) (pc : Provider) (rootDir : String)
    (acc : NodeVersionsMap × List String) (e : Event) : NodeVersionsMap × List String :=
  match e.call, e.result with
  | .setReferenceTypes, .ok _ => (acc.1, acc.2 ++ baseAPIVersionPkgs env pc)
  | .versionGenerate group version, .ok _ =>
    (acc.1, acc.2 ++ [env.versionPackagePath rootDir pc.ModulePath group version])
  | .conversionHubGenerate _, .ok (.nodes hubNodes) => (hubNodes, acc.2)
  | .conversionSpokeGenerate group, .ok (.nodes spokeNodes) =>
    (acc.1, acc.2 ++
      (tableResources (aggregationTable env group (groupResources env pc))).flatMap
        (conversionPkgsOf env (env.filepathJoin [pc.ModulePath, "apis", splitFirst group])
          spokeNodes acc.1))
  | _, _ => acc

/-- The API version package list owed to the calls of a log. -/
def apiReplay {σ : Type} (env : Env σ) (pc : Provider) (rootDir : String) (log : List Event) :
    List String :=
  (log.foldl (apiStep env pc rootDir) ([], [])).2

/-- A configuration with resources in two groups. -/
def twoGroupsProvider : Provider :=
  { sampleProvider with
    Resources := [("vpc", ⟨"ec2", "v1beta1", "VPC", "", "v1beta1"⟩),
                  ("bucket", ⟨"s3", "v1beta1", "Bucket", "", "v1beta1"⟩)] }

/-- An environment whose CRD generation fails for the kind `Bucket`. -/
def bucketFailEnv : Env Unit :=
  { sampleEnv with
    crdGenerate := fun w _ _ r =>
      if r.Kind = "Bucket" then .error "no schema" else .ok (r.Kind ++ "Parameters", w) }

/-- The versions of a group in which only a spoke version of the kind `VPC` is present:
the resource `vpc2` of version `v1beta2` declares the hub version `v1beta1`. -/
def spokeOnlyVersions : GoMap (GoMap Resource) :=
  [("v1beta2", [("vpc2", ⟨"ec2", "v1beta2", "VPC", "", "v1beta1"⟩)])]

/-- A configuration whose `ControllerMap` is visited with a package of another group
before a package of the per-config group, and whose legacy list names the first. -/
def reorderProvider : Provider :=
  { sampleProvider with
    BasePackages := ⟨[], ["internal/controller/x"],
      [("internal/controller/x", "other"), ("internal/controller/a", "config")]⟩,
    Resources := [] }

/-! ## Panic messages -/

/-- The first list begins with the second. -/
def beginsWith : List Char → List Char → Bool
  | _, [] => true
  | [], _ :: _ => false
  | a :: s, b :: t => a == b && beginsWith s t

/-- The second list occurs in the first as a contiguous part. -/
def occursInChars : List Char → List Char → Bool
  | [], sub => sub.isEmpty
  | a :: s, sub => beginsWith (a :: s) sub || occursInChars s sub

/-- Go `strings.Contains(s, sub)`. -/
def stringContains (s sub : String) : Bool := occursInChars s.toList sub.toList

/-- The panic a run ended with, if any. -/
def Outcome.panic? {σ α : Type} : Outcome σ α → Option Panic
  | .ok _ => none
  | .error e => some e.1

/-- An environment whose version file generation fails. -/
def versionFailEnv : Env Unit :=
  { sampleEnv with versionGenerate := fun _ _ _ => .error "disk full" }

/-- The message names the unit that the call processes: the resource name for the
calls made for a resource, the group for the calls made for a version or a group
(for version file generation the group or the version). -/
def Call.identifiedBy (msg : String) : Call → Bool
  | .crdGenerate _ _ name => stringContains msg name
  | .ctrlGenerate _ _ name _ _ => stringContains msg name
  | .exampleGenerate _ _ name => stringContains msg name
  | .insertPreviousObjects group _ => stringContains msg group
  | .tfGenerate group _ _ => stringContains msg group
  | .versionGenerate group version => stringContains msg group || stringContains msg version
  | .conversionHubGenerate group => stringContains msg group
  | .conversionSpokeGenerate group => stringContains msg group
  | _ => true

/-- The call is a version file generation. -/
def Call.isVersionGenerate : Call → Bool
  | .versionGenerate _ _ => true
  | _ => false

/-- The environment of the scenario when every `range` of line 163 visits the version
`v1beta2` first. -/
def versionsReversedEnv : Env Unit :=
  { sampleEnv with rangeVersions := fun _ _ version => if version = "v1beta2" then 0 else 1 }

/-! ## Lemmas on Go maps -/

theorem mapLookup_mapSet {V : Type} (m : GoMap V) (k k' : String) (x : V) :
    mapLookup (mapSet m k x) k' = if k = k' then some x else mapLookup m k' := by
  induction m with
  | nil => simp [mapSet, mapLookup]
  | cons a t ih =>
    obtain ⟨ka, va⟩ := a
    by_cases h : ka = k
    · subst h
      by_cases h' : ka = k' <;> simp [mapSet, mapLookup, h']
    · by_cases h' : ka = k'
      · subst h'
        have : ¬ k = ka := fun e => h e.symm
        simp [mapSet, mapLookup, h, this]
      · simp [mapSet, mapLookup, h, h', ih]

theorem mapIndex_mapSet {V : Type} (m : GoMap (List V)) (k k' : String) (x : List V) :
    mapIndex (mapSet m k x) k' = if k = k' then x else mapIndex m k' := by
  unfold mapIndex
  rw [mapLookup_mapSet]
  split <;> rfl

theorem mapIndex_mapSet_self {V : Type} (m : GoMap (List V)) (k : String) (x : List V) :
    mapIndex (mapSet m k x) k = x := by
  simp [mapIndex_mapSet]

theorem mapSet_mapSet {V : Type} (m : GoMap V) (k : String) (x y : V) :
    mapSet (mapSet m k x) k y = mapSet m k y := by
  induction m with
  | nil => simp [mapSet]
  | cons a t ih =>
    obtain ⟨ka, va⟩ := a
    by_cases h : ka = k <;> simp [mapSet, h, ih]

theorem mapKeys_mapSet {V : Type} (m : GoMap V) (k : String) (x : V) :
    mapKeys (mapSet m k x) = if k ∈ mapKeys m then mapKeys m else mapKeys m ++ [k] := by
  induction m with
  | nil => simp [mapSet, mapKeys]
  | cons a t ih =>
    obtain ⟨ka, va⟩ := a
    by_cases h : ka = k
    · subst h
      simp [mapSet, mapKeys]
    · have h2 : ¬ k = ka := fun e => h e.symm
      simp only [mapKeys] at ih
      by_cases h3 : k ∈ List.map Prod.fst t
      · simp [mapSet, mapKeys, h, h2, ih, h3]
      · simp [mapSet, mapKeys, h, h2, ih, h3]

theorem mapKeys_mapSet_nodup {V : Type} (m : GoMap V) (k : String) (x : V)
    (h : (mapKeys m).Nodup) : (mapKeys (mapSet m k x)).Nodup := by
  rw [mapKeys_mapSet]
  split
  · exact h
  · rename_i hk
    exact List.nodup_append.2 ⟨h, List.nodup_singleton k, by
      intro a ha hb
      simp at hb
      subst hb
      exact hk ha⟩

theorem mem_mapSet {V : Type} (m : GoMap V) (k : String) (x : V) (e : String × V)
    (h : e ∈ mapSet m k x) : e ∈ m ∨ e = (k, x) := by
  induction m with
  | nil => simpa [mapSet] using h
  | cons a t ih =>
    obtain ⟨ka, va⟩ := a
    by_cases hk : ka = k
    · subst hk
      simp [mapSet] at h
      rcases h with h | h
      · right; exact h
      · left; simp [h]
    · simp [mapSet, hk] at h
      rcases h with h | h
      · left; simp [h]
      · rcases ih h with h | h
        · left; simp [h]
        · right; exact h

theorem mem_mapSet_self {V : Type} (m : GoMap V) (k : String) (x : V) :
    (k, x) ∈ mapSet m k x := by
  induction m with
  | nil => simp [mapSet]
  | cons a t ih =>
    obtain ⟨ka, va⟩ := a
    by_cases hk : ka = k
    · subst hk; simp [mapSet]
    · simp [mapSet, hk, ih]

theorem mapLookup_of_mem {V : Type} (m : GoMap V) (h : (mapKeys m).Nodup) (k : String) (x : V)
    (hm : (k, x) ∈ m) : mapLookup m k = some x := by
  induction m with
  | nil => simp at hm
  | cons a t ih =>
    obtain ⟨ka, va⟩ := a
    simp only [mapKeys, List.map_cons, List.nodup_cons] at h
    simp only [List.mem_cons, Prod.mk.injEq] at hm
    rcases hm with ⟨h1, h2⟩ | hm
    · subst h1; subst h2; simp [mapLookup]
    · have : ka ≠ k := by
        intro e
        subst e
        exact h.1 (List.mem_map.2 ⟨_, hm, rfl⟩)
      simp [mapLookup, this, ih h.2 hm]

theorem mem_of_mapLookup {V : Type} (m : GoMap V) (k : String) (x : V)
    (h : mapLookup m k = some x) : (k, x) ∈ m := by
  induction m with
  | nil => simp [mapLookup] at h
  | cons a t ih =>
    obtain ⟨ka, va⟩ := a
    by_cases hk : ka = k
    · subst hk
      simp [mapLookup] at h
      simp [h]
    · simp [mapLookup, hk] at h
      simp [ih h]

theorem mapLookup_eq_none_iff {V : Type} (m : GoMap V) (k : String) :
    mapLookup m k = none ↔ k ∉ mapKeys m := by
  induction m with
  | nil => simp [mapLookup, mapKeys]
  | cons a t ih =>
    obtain ⟨ka, va⟩ := a
    by_cases hk : ka = k
    · subst hk; simp [mapLookup, mapKeys]
    · have h2 : ¬ k = ka := fun e => hk e.symm
      simp only [mapKeys] at ih
      simp [mapLookup, mapKeys, hk, h2, ih]

theorem length_mapSet {V : Type} (m : GoMap V) (k : String) (x : V) :
    (mapSet m k x).length = if k ∈ mapKeys m then m.length else m.length + 1 := by
  have e : (mapSet m k x).length = (mapKeys (mapSet m k x)).length := by simp [mapKeys]
  rw [e, mapKeys_mapSet]
  split <;> simp [mapKeys]

/-! ## The grouping loop -/

theorem groupInsert_eq {σ : Type} (env : Env σ) (pc : Provider) (t : GroupingTable)
    (name : String) (r : Resource) :
    groupInsert env pc t (name, r) = tableSet t (groupOf env pc r) r.Version name r := by
  unfold groupInsert tableSet
  simp only []
  by_cases h1 : (mapIndex t (groupOf env pc r)).length = 0
  · have e1 : mapIndex t (groupOf env pc r) = [] := List.length_eq_zero.1 h1
    have e2 : mapIndex ([] : GoMap (GoMap Resource)) r.Version = [] := rfl
    simp [h1, e1, mapIndex_mapSet_self, mapSet_mapSet, e2]
  · by_cases h2 : (mapIndex (mapIndex t (groupOf env pc r)) r.Version).length = 0
    · have e2 : mapIndex (mapIndex t (groupOf env pc r)) r.Version = [] := List.length_eq_zero.1 h2
      simp [h1, h2, e2, mapIndex_mapSet_self, mapSet_mapSet]
    · simp [h1, h2]

theorem tableLookup_tableSet (t : GroupingTable) (g v n g' v' n' : String) (r : Resource) :
    tableLookup (tableSet t g v n r) g' v' n' =
      if g = g' ∧ v = v' ∧ n = n' then some r else tableLookup t g' v' n' := by
  unfold tableLookup tableSet
  rw [mapIndex_mapSet]
  by_cases hg : g = g'
  · subst hg
    rw [if_pos rfl, mapIndex_mapSet]
    by_cases hv : v = v'
    · subst hv
      rw [if_pos rfl, mapLookup_mapSet]
      by_cases hn : n = n' <;> simp [hn]
    · simp [hv]
  · simp [hg]

theorem mem_unique_of_nodup_keys {V : Type} (m : GoMap V) (h : (mapKeys m).Nodup) (k : String)
    (x y : V) (hx : (k, x) ∈ m) (hy : (k, y) ∈ m) : x = y := by
  have h1 := mapLookup_of_mem m h k x hx
  have h2 := mapLookup_of_mem m h k y hy
  rw [h1] at h2
  exact Option.some.inj h2

theorem tableLookup_nil (g v n : String) : tableLookup [] g v n = none := rfl

theorem tableLookup_groupFold {σ : Type} (env : Env σ) (pc : Provider) (l : GoMap Resource)
    (hl : (mapKeys l).Nodup) (g v n : String) (r : Resource) :
    tableLookup (l.foldl (groupInsert env pc) []) g v n = some r ↔
      (n, r) ∈ l ∧ g = groupOf env pc r ∧ v = r.Version := by
  induction l using List.reverseRecOn generalizing g v n r with
  | nil => simp [tableLookup_nil]
  | append_singleton l a ih =>
    obtain ⟨n0, r0⟩ := a
    have hnd : (mapKeys l).Nodup ∧ n0 ∉ mapKeys l := by
      simp only [mapKeys, List.map_append, List.map_cons, List.map_nil] at hl
      have := List.nodup_append.1 hl
      refine ⟨this.1, ?_⟩
      intro hmem
      exact this.2.2 hmem (by simp)
    rw [List.foldl_append, List.foldl_cons, List.foldl_nil, groupInsert_eq, tableLookup_tableSet]
    by_cases hm : groupOf env pc r0 = g ∧ r0.Version = v ∧ n0 = n
    · obtain ⟨hg, hv, hn⟩ := hm
      subst hg; subst hv; subst hn
      simp only [and_self, if_true, List.mem_append, List.mem_singleton, Prod.mk.injEq]
      constructor
      · intro h
        have e : r0 = r := Option.some.inj h
        subst e
        simp
      · rintro ⟨h | h, -, -⟩
        · exact absurd (List.mem_map.2 ⟨_, h, rfl⟩) hnd.2
        · rw [h.2]
    · rw [if_neg hm, ih hnd.1]
      simp only [List.mem_append, List.mem_singleton, Prod.mk.injEq]
      constructor
      · rintro ⟨h1, h2, h3⟩
        exact ⟨Or.inl h1, h2, h3⟩
      · rintro ⟨h | h, h2, h3⟩
        · exact ⟨h, h2, h3⟩
        · exfalso
          apply hm
          rw [h2, h3, h.1, h.2]
          exact ⟨rfl, rfl, rfl⟩

theorem mapIndex_nil_or_mem {V : Type} (m : GoMap (List V)) (k : String) :
    mapIndex m k = [] ∨ (k, mapIndex m k) ∈ m := by
  unfold mapIndex
  cases h : mapLookup m k with
  | none => left; rfl
  | some x => right; exact mem_of_mapLookup m k x h

theorem mapSet_ne_nil {V : Type} (m : GoMap V) (k : String) (x : V) : mapSet m k x ≠ [] := by
  intro h
  have := mem_mapSet_self m k x
  rw [h] at this
  simp at this

theorem tableSet_wf (t : GroupingTable) (h : TableWF t) (g v n : String) (r : Resource) :
    TableWF (tableSet t g v n r) := by
  obtain ⟨hk, hall⟩ := h
  have hvs : (mapKeys (mapIndex t g)).Nodup ∧
      ∀ vr ∈ mapIndex t g, vr.2 ≠ [] ∧ (mapKeys vr.2).Nodup := by
    rcases mapIndex_nil_or_mem t g with h0 | h0
    · rw [h0]; simp [mapKeys]
    · exact (hall _ h0).2
  have hrs : (mapKeys (mapIndex (mapIndex t g) v)).Nodup := by
    rcases mapIndex_nil_or_mem (mapIndex t g) v with h0 | h0
    · rw [h0]; simp [mapKeys]
    · exact (hvs.2 _ h0).2
  refine ⟨mapKeys_mapSet_nodup _ _ _ hk, ?_⟩
  intro gv hgv
  rcases mem_mapSet _ _ _ _ hgv with h1 | h1
  · exact hall gv h1
  · subst h1
    refine ⟨mapSet_ne_nil _ _ _, mapKeys_mapSet_nodup _ _ _ hvs.1, ?_⟩
    intro vr hvr
    rcases mem_mapSet _ _ _ _ hvr with h2 | h2
    · exact hvs.2 vr h2
    · subst h2
      exact ⟨mapSet_ne_nil _ _ _, mapKeys_mapSet_nodup _ _ _ hrs⟩

theorem groupFold_wf {σ : Type} (env : Env σ) (pc : Provider) (l : GoMap Resource) :
    TableWF (l.foldl (groupInsert env pc) []) := by
  induction l using List.reverseRecOn with
  | nil => simp [TableWF, mapKeys]
  | append_singleton l a ih =>
    obtain ⟨n0, r0⟩ := a
    rw [List.foldl_append, List.foldl_cons, List.foldl_nil, groupInsert_eq]
    exact tableSet_wf _ ih _ _ _ _

theorem mapSum_mapSet {V : Type} (f : List V → Nat) (hf : f [] = 0) (m : GoMap (List V))
    (k : String) (x : List V) :
    mapSum f (mapSet m k x) + f (mapIndex m k) = mapSum f m + f x := by
  induction m with
  | nil => simp [mapSet, mapSum, mapIndex, mapLookup, hf]
  | cons a t ih =>
    obtain ⟨ka, va⟩ := a
    by_cases h : ka = k
    · subst h
      simp [mapSet, mapSum, mapIndex, mapLookup]
      omega
    · simp only [mapSum, mapIndex] at ih
      simp [mapSet, mapSum, mapIndex, mapLookup, h]
      omega

theorem tableSize_tableSet (t : GroupingTable) (g v n : String) (r : Resource)
    (h : tableLookup t g v n = none) : tableSize (tableSet t g v n r) = tableSize t + 1 := by
  unfold tableSize tableSet
  have h0 : mapSum (List.length (α := String × Resource)) [] = 0 := rfl
  have h1 := mapSum_mapSet (mapSum List.length) h0 t g
    (mapSet (mapIndex t g) v (mapSet (mapIndex (mapIndex t g) v) n r))
  have h2 := mapSum_mapSet List.length rfl (mapIndex t g) v
    (mapSet (mapIndex (mapIndex t g) v) n r)
  have h3 : n ∉ mapKeys (mapIndex (mapIndex t g) v) := (mapLookup_eq_none_iff _ _).1 h
  have h4 := length_mapSet (mapIndex (mapIndex t g) v) n r
  rw [if_neg h3] at h4
  omega

theorem tableSize_groupFold {σ : Type} (env : Env σ) (pc : Provider) (l : GoMap Resource)
    (hl : (mapKeys l).Nodup) : tableSize (l.foldl (groupInsert env pc) []) = l.length := by
  induction l using List.reverseRecOn with
  | nil => rfl
  | append_singleton l a ih =>
    obtain ⟨n0, r0⟩ := a
    have hnd : (mapKeys l).Nodup ∧ n0 ∉ mapKeys l := by
      simp only [mapKeys, List.map_append, List.map_cons, List.map_nil] at hl
      have := List.nodup_append.1 hl
      refine ⟨this.1, ?_⟩
      intro hmem
      exact this.2.2 hmem (by simp)
    rw [List.foldl_append, List.foldl_cons, List.foldl_nil, groupInsert_eq,
      tableSize_tableSet, ih hnd.1]
    · simp
    · cases hlk : tableLookup (List.foldl (groupInsert env pc) [] l) (groupOf env pc r0)
          r0.Version n0 with
      | none => rfl
      | some r =>
        have := (tableLookup_groupFold env pc l hnd.1 _ _ _ _).1 hlk
        exact absurd (List.mem_map.2 ⟨_, this.1, rfl⟩) hnd.2

/-- In a well-formed table the entries of the lists are the entries found by lookup. -/
theorem tableLookup_iff_mem (t : GroupingTable) (h : TableWF t) (g v n : String) (r : Resource) :
    tableLookup t g v n = some r ↔
      ∃ vs rs, (g, vs) ∈ t ∧ (v, rs) ∈ vs ∧ (n, r) ∈ rs := by
  constructor
  · intro hl
    have hm := mem_of_mapLookup _ _ _ hl
    have h1 : mapIndex (mapIndex t g) v ≠ [] := by
      intro e; rw [e] at hm; simp at hm
    have h2 : mapIndex t g ≠ [] := by
      intro e; rw [e] at h1; exact h1 rfl
    have m1 := (mapIndex_nil_or_mem t g).resolve_left h2
    have m2 := (mapIndex_nil_or_mem (mapIndex t g) v).resolve_left h1
    exact ⟨_, _, m1, m2, hm⟩
  · rintro ⟨vs, rs, h1, h2, h3⟩
    have w := h.2 _ h1
    have e1 : mapIndex t g = vs := by
      unfold mapIndex; rw [mapLookup_of_mem t h.1 g vs h1]; rfl
    have e2 : mapIndex vs v = rs := by
      unfold mapIndex; rw [mapLookup_of_mem vs w.2.1 v rs h2]; rfl
    unfold tableLookup
    rw [e1, e2]
    exact mapLookup_of_mem rs (w.2.2 _ h2).2 n r h3

/-! ## Group keys and the grouping table -/

/-- C1: every input resource is filed by the grouping loop of `Run` under some
group, and a group under which it is filed is `rootGroup` when its `ShortGroup`
is empty and `lower(ShortGroup) + "." + rootGroup` otherwise; two resources whose
non-empty short groups have the same lower-case form are filed under the same group. -/
theorem C1_group_key {σ : Type} (env : Env σ) (pc : Provider)
    (hkeys : (mapKeys pc.Resources).Nodup) (name : String) (r : Resource)
    (hr : (name, r) ∈ pc.Resources) :
    (∃ group, tableLookup (groupResources env pc) group r.Version name = some r) ∧
    (∀ group version, (tableLookup (groupResources env pc) group version name).isSome →
      (r.ShortGroup = "" → group = pc.RootGroup) ∧
      (r.ShortGroup ≠ "" → group = env.toLower r.ShortGroup ++ "." ++ pc.RootGroup)) ∧
    (∀ name' r' group group' version version', (name', r') ∈ pc.Resources →
      r.ShortGroup ≠ "" → r'.ShortGroup ≠ "" →
      env.toLower r.ShortGroup = env.toLower r'.ShortGroup →
      (tableLookup (groupResources env pc) group version name).isSome →
      (tableLookup (groupResources env pc) group' version' name').isSome → group = group') := by
  have key : ∀ n x g v, (n, x) ∈ pc.Resources →
      (tableLookup (groupResources env pc) g v n).isSome → g = groupOf env pc x := by
    intro n x g v hx hs
    obtain ⟨y, hy⟩ := Option.isSome_iff_exists.1 hs
    have h := (tableLookup_groupFold env pc pc.Resources hkeys g v n y).1 hy
    have e : y = x := mem_unique_of_nodup_keys _ hkeys n y x h.1 hx
    rw [← e]
    exact h.2.1
  refine ⟨⟨groupOf env pc r, ?_⟩, ?_, ?_⟩
  · exact (tableLookup_groupFold env pc pc.Resources hkeys _ _ _ _).2 ⟨hr, rfl, rfl⟩
  · intro group version hs
    have e := key name r group version hr hs
    subst e
    constructor
    · intro h0; simp [groupOf, h0]
    · intro h0; simp [groupOf, h0]
  · intro name' r' group group' version version' hr' h1 h2 hlow hs hs'
    rw [key name r group version hr hs, key name' r' group' version' hr' hs']
    simp [groupOf, h1, h2, hlow]

/-- C1, at the sample configuration: `vpc` is filed under `ec2.aws.upbound.io`. -/
theorem C1_group_key_witness :
    (mapKeys sampleProvider.Resources).Nodup ∧
    ("vpc", (⟨"ec2", "v1beta1", "VPC", "", "v1beta1"⟩ : Resource)) ∈ sampleProvider.Resources ∧
    tableLookup (groupResources sampleEnv sampleProvider) "ec2.aws.upbound.io" "v1beta1" "vpc"
      = some ⟨"ec2", "v1beta1", "VPC", "", "v1beta1"⟩ ∧
    ((tableLookup (groupResources sampleEnv sampleProvider) "ec2.aws.upbound.io" "v1beta1"
        "vpc").isSome →
      "ec2.aws.upbound.io" = sampleEnv.toLower "ec2" ++ "." ++ "aws.upbound.io") :=
  ⟨by decide, by decide, by decide, fun h =>
    ((C1_group_key sampleEnv sampleProvider (by decide) "vpc" ⟨"ec2", "v1beta1", "VPC", "", "v1beta1"⟩
      (by decide)).2.1 "ec2.aws.upbound.io" "v1beta1" h).2 (by decide)⟩

/-- C2: the table built by the grouping loop is a well-formed nest of maps with
no empty group and no empty bucket; it holds every input entry `(name, r)` in the
bucket `(groupOf r, r.Version)` under its name; every entry found in it is an input
entry in that bucket of its own; and the bucket sizes sum to the number of input
resources. -/
theorem C2_grouping_partition {σ : Type} (env : Env σ) (pc : Provider)
    (hkeys : (mapKeys pc.Resources).Nodup) :
    TableWF (groupResources env pc) ∧
    (∀ name r, (name, r) ∈ pc.Resources →
      tableLookup (groupResources env pc) (groupOf env pc r) r.Version name = some r) ∧
    (∀ group version name r, tableLookup (groupResources env pc) group version name = some r →
      (name, r) ∈ pc.Resources ∧ group = groupOf env pc r ∧ version = r.Version) ∧
    (∀ group versions version resources name r, (group, versions) ∈ groupResources env pc →
      (version, resources) ∈ versions → (name, r) ∈ resources →
      (name, r) ∈ pc.Resources ∧ group = groupOf env pc r ∧ version = r.Version) ∧
    tableSize (groupResources env pc) = pc.Resources.length := by
  have wf : TableWF (groupResources env pc) := groupFold_wf env pc pc.Resources
  refine ⟨wf, ?_, ?_, ?_, tableSize_groupFold env pc pc.Resources hkeys⟩
  · intro name r hr
    exact (tableLookup_groupFold env pc pc.Resources hkeys _ _ _ _).2 ⟨hr, rfl, rfl⟩
  · intro group version name r h
    exact (tableLookup_groupFold env pc pc.Resources hkeys _ _ _ _).1 h
  · intro group versions version resources name r h1 h2 h3
    have h := (tableLookup_iff_mem _ wf group version name r).2 ⟨_, _, h1, h2, h3⟩
    exact (tableLookup_groupFold env pc pc.Resources hkeys _ _ _ _).1 h

/-- C2, at the sample configuration: the three resources fill buckets of total size 3. -/
theorem C2_grouping_partition_witness :
    (mapKeys sampleProvider.Resources).Nodup ∧
    tableSize (groupResources sampleEnv sampleProvider) = 3 :=
  ⟨by decide, (C2_grouping_partition sampleEnv sampleProvider (by decide)).2.2.2.2⟩

/-! ## Outcomes of loops -/

theorem Outcome.Sat.imp {σ α : Type} {okP okQ : α → Prop} {errP errQ : Panic × RunState σ → Prop}
    {o : Outcome σ α} (h : Outcome.Sat okP errP o) (hok : ∀ a, okP a → okQ a)
    (herr : ∀ e, errP e → errQ e) : Outcome.Sat okQ errQ o := by
  cases o with
  | ok a => exact hok a h
  | error e => exact herr e h

/-- The invariant rule for a loop: `inv done b` relates the elements already visited
to the accumulator, and a panic in any iteration satisfies `errP`. -/
theorem foldlM_sat {σ β γ : Type} (f : β → γ → Outcome σ β) (inv : List γ → β → Prop)
    (errP : Panic × RunState σ → Prop) (l : List γ) (b : β) (h0 : inv [] b)
    (step : ∀ done x rest b, l = done ++ x :: rest → inv done b →
      Outcome.Sat (inv (done ++ [x])) errP (f b x)) :
    Outcome.Sat (inv l) errP (l.foldlM f b) := by
  have gen : ∀ (todo done : List γ) (b : β), l = done ++ todo → inv done b →
      Outcome.Sat (inv l) errP (todo.foldlM f b) := by
    intro todo
    induction todo with
    | nil =>
      intro done b hl hb
      simp at hl
      subst hl
      exact hb
    | cons x rest ih =>
      intro done b hl hb
      have hs := step done x rest b hl hb
      rw [List.foldlM_cons]
      cases hfx : f b x with
      | error e =>
        rw [hfx] at hs
        exact hs
      | ok b' =>
        rw [hfx] at hs
        exact ih (done ++ [x]) b' (by simp [hl]) hs
  exact gen l [] b rfl h0

/-! ## `sortedResources` -/

theorem sortStrings_perm (l : List String) : (sortStrings l).Perm l :=
  List.perm_insertionSort _ l

theorem sortStrings_sorted (l : List String) : (sortStrings l).Sorted (· ≤ ·) := by
  have total : IsTotal String (fun a b => a.toList ≤ b.toList) :=
    ⟨fun a b => by
      rcases le_total a b with h | h
      · exact Or.inl (String.le_iff_toList_le.1 h)
      · exact Or.inr (String.le_iff_toList_le.1 h)⟩
  have trans : IsTrans String (fun a b => a.toList ≤ b.toList) :=
    ⟨fun a b c h1 h2 =>
      String.le_iff_toList_le.1
        (le_trans (String.le_iff_toList_le.2 h1) (String.le_iff_toList_le.2 h2))⟩
  have h := List.sorted_insertionSort (fun (a b : String) => a.toList ≤ b.toList) l
  exact List.Pairwise.imp (fun {a b} hab => String.le_iff_toList_le.2 hab) h

theorem sortedResources_perm (m : GoMap Resource) : (sortedResources m).Perm (mapKeys m) :=
  sortStrings_perm _

theorem sortedResources_length (m : GoMap Resource) : (sortedResources m).length = m.length := by
  rw [(sortedResources_perm m).length_eq]
  simp [mapKeys]

/-! ## Generator calls -/

theorem invoke_ok {σ α : Type} {st st' : RunState σ} {c : Call} {ctx : String}
    {toReply : α → Reply} {res : Except String (α × σ)} {a : α}
    (h : invoke st c ctx toReply res = .ok (a, st')) :
    res = .ok (a, st'.world) ∧ st'.log = st.log ++ [⟨c, .ok (toReply a)⟩] ∧
    st'.apiVersionPkgList = st.apiVersionPkgList ∧ st'.controllerPkgMap = st.controllerPkgMap ∧
    st'.count = st.count ∧ st'.reported = st.reported := by
  unfold invoke at h
  split at h
  · cases h
  · cases h
    exact ⟨rfl, rfl, rfl, rfl, rfl, rfl⟩

theorem invoke_error {σ α : Type} {st : RunState σ} {c : Call} {ctx : String}
    {toReply : α → Reply} {res : Except String (α × σ)} {e : Panic × RunState σ}
    (h : invoke st c ctx toReply res = .error e) :
    res = .error e.1.cause ∧ e.1.context = ctx ∧
    e.2.log = st.log ++ [⟨c, .error e.1.cause⟩] ∧ e.2.world = st.world ∧
    e.2.apiVersionPkgList = st.apiVersionPkgList ∧ e.2.controllerPkgMap = st.controllerPkgMap ∧
    e.2.count = st.count ∧ e.2.reported = st.reported := by
  unfold invoke at h
  split at h
  · cases h
    exact ⟨rfl, rfl, rfl, rfl, rfl, rfl, rfl, rfl⟩
  · cases h

/-! ## The order of processing -/

theorem crdCalls_append (l1 l2 : List Event) : crdCalls (l1 ++ l2) = crdCalls l1 ++ crdCalls l2 := by
  simp [crdCalls, List.filterMap_append]

/-! ## Composition of steps -/

theorem genPkgs_append {σ : Type} (env : Env σ) (k : String) (l1 l2 : List Event) :
    genPkgs env k (l1 ++ l2) = genPkgs env k l1 ++ genPkgs env k l2 := by
  simp [genPkgs, List.flatMap_append]

theorem processedCount_append (l1 l2 : List Event) :
    processedCount (l1 ++ l2) = processedCount l1 + processedCount l2 := by
  simp [processedCount]

theorem Extends.refl {σ : Type} (env : Env σ) (st : RunState σ) : Extends env st st [] :=
  ⟨by simp, by simp [genPkgs], by simp [processedCount], rfl⟩

theorem Extends.append {σ : Type} {env : Env σ} {st st1 st2 : RunState σ} {e1 e2 : List Event}
    (h1 : Extends env st st1 e1) (h2 : Extends env st1 st2 e2) : Extends env st st2 (e1 ++ e2) :=
  ⟨by rw [h2.log, h1.log, List.append_assoc],
   fun k => by rw [h2.pkgs, h1.pkgs, genPkgs_append, List.append_assoc],
   by rw [h2.count, h1.count, processedCount_append, Nat.add_assoc],
   by rw [h2.reported, h1.reported]⟩

theorem StepOk.nil {σ : Type} (env : Env σ) (st : RunState σ) : StepOk env st [] st :=
  ⟨[], Extends.refl env st, by simp, rfl⟩

theorem StepOk.andThen {σ : Type} {env : Env σ} {st st1 st2 : RunState σ} {x1 x2 : List Call}
    (h1 : StepOk env st x1 st1) (h2 : StepOk env st1 x2 st2) : StepOk env st (x1 ++ x2) st2 := by
  obtain ⟨e1, a1, b1, c1⟩ := h1
  obtain ⟨e2, a2, b2, c2⟩ := h2
  refine ⟨e1 ++ e2, a1.append a2, ?_, by simp [c1, c2]⟩
  intro e he
  rcases List.mem_append.1 he with h | h
  · exact b1 e h
  · exact b2 e h

theorem StepErr.of_ok {σ : Type} {env : Env σ} {st st1 : RunState σ} {x1 x2 : List Call}
    {e : Panic × RunState σ} (h1 : StepOk env st x1 st1) (h2 : StepErr env st1 x2 e) :
    StepErr env st (x1 ++ x2) e := by
  obtain ⟨e1, a1, b1, c1⟩ := h1
  obtain ⟨oks, c, a2, b2, ⟨rest, c2⟩, d2⟩ := h2
  refine ⟨e1 ++ oks, c, ?_, ?_, ⟨rest, ?_⟩, d2⟩
  · rw [List.append_assoc]
    exact a1.append a2
  · intro ev hev
    rcases List.mem_append.1 hev with h | h
    · exact b1 ev h
    · exact b2 ev h
  · rw [← c1, ← c2]
    simp

theorem StepErr.weaken {σ : Type} {env : Env σ} {st : RunState σ} {x : List Call}
    {e : Panic × RunState σ} (h : StepErr env st x e) (more : List Call) :
    StepErr env st (x ++ more) e := by
  obtain ⟨oks, c, a2, b2, ⟨rest, c2⟩, d2⟩ := h
  exact ⟨oks, c, a2, b2, ⟨rest ++ more, by rw [← c2]; simp⟩, d2⟩

/-- A successful call that is neither a controller nor an example generation. -/
theorem invoke_stepOk {σ α : Type} (env : Env σ) {st st' : RunState σ} {c : Call} {ctx : String}
    {toReply : α → Reply} {res : Except String (α × σ)} {a : α}
    (h : invoke st c ctx toReply res = .ok (a, st'))
    (hc : ∀ k r, Event.ctrlPkgs env k ⟨c, r⟩ = []) (hp : ∀ r, Event.processed ⟨c, r⟩ = 0) :
    StepOk env st [c.skeleton] st' := by
  have f := invoke_ok h
  refine ⟨[⟨c, .ok (toReply a)⟩], ⟨f.2.1, ?_, ?_, f.2.2.2.2.2⟩, ?_, rfl⟩
  · intro k
    simp [f.2.2.2.1, genPkgs, hc]
  · simp [f.2.2.2.2.1, processedCount, hp]
  · intro e he
    simp at he
    subst he
    rfl

theorem ctrlPkgs_error {σ : Type} (env : Env σ) (k : String) (c : Call) (err : String) :
    Event.ctrlPkgs env k ⟨c, .error err⟩ = [] := by
  cases c <;> rfl

theorem processed_error (c : Call) (err : String) : Event.processed ⟨c, .error err⟩ = 0 := by
  cases c <;> rfl

theorem invoke_stepErr {σ α : Type} (env : Env σ) {st : RunState σ} {c : Call} {ctx : String}
    {toReply : α → Reply} {res : Except String (α × σ)} {e : Panic × RunState σ}
    (h : invoke st c ctx toReply res = .error e) (hctx : ctx = c.wrapContext env) :
    StepErr env st [c.skeleton] e := by
  have f := invoke_error h
  refine ⟨[], c, ⟨by simpa using f.2.2.1, ?_, ?_, f.2.2.2.2.2.2.2⟩, by simp, ⟨[], by simp⟩,
    Or.inr (by rw [f.2.1, hctx])⟩
  · intro k
    simp [f.2.2.2.2.2.1, genPkgs, ctrlPkgs_error]
  · simp [f.2.2.2.2.2.2.1, processedCount, processed_error]

/-- The calls of a loop are the calls of its iterations, one after the other. -/
theorem foldlM_steps {σ β γ : Type} (env : Env σ) (proj : β → RunState σ)
    (f : β → γ → Outcome σ β) (calls : γ → List Call) (l : List γ) (b : β)
    (step : ∀ b x, x ∈ l → Outcome.Sat (fun b' => StepOk env (proj b) (calls x) (proj b'))
      (StepErr env (proj b) (calls x)) (f b x)) :
    Outcome.Sat (fun b' => StepOk env (proj b) (l.flatMap calls) (proj b'))
      (StepErr env (proj b) (l.flatMap calls)) (l.foldlM f b) := by
  apply foldlM_sat f (fun done b' => StepOk env (proj b) (done.flatMap calls) (proj b'))
    (StepErr env (proj b) (l.flatMap calls)) l b (StepOk.nil env (proj b))
  intro done x rest b1 hl hinv
  have hx : x ∈ l := by rw [hl]; simp
  have hs := step b1 x hx
  cases hfx : f b1 x with
  | error e =>
    rw [hfx] at hs
    simp only [Outcome.Sat] at hs ⊢
    have := (StepErr.of_ok hinv hs).weaken (rest.flatMap calls)
    rw [hl]
    simpa [List.flatMap_append] using this
  | ok b' =>
    rw [hfx] at hs
    simp only [Outcome.Sat] at hs ⊢
    have := hinv.andThen hs
    simpa [List.flatMap_append] using this

/-! ## The calls of each loop body -/

theorem mapIndex_appendPkg (m : GoMap (List String)) (k k' p : String) :
    mapIndex (appendPkg m k p) k' = mapIndex m k' ++ (if k = k' then [p] else []) := by
  unfold appendPkg
  rw [mapIndex_mapSet]
  by_cases h : k = k'
  · subst h; simp
  · simp [h]

theorem ctrl_stepOk {σ : Type} (env : Env σ) {st1 st2 : RunState σ}
    {group version name watch features ctx p : String} {res : Except String (String × σ)}
    (h : invoke st1 (.ctrlGenerate group version name watch features) ctx Reply.path res
      = .ok (p, st2)) :
    StepOk env st1 [.ctrlGenerate group version name watch features]
      { st2 with controllerPkgMap := (appendPkg
          (appendPkg st2.controllerPkgMap (splitFirst group) p) env.PackageNameMonolith p) } := by
  have f2 := invoke_ok h
  refine ⟨[⟨_, .ok (Reply.path p)⟩], ⟨f2.2.1, ?_, ?_, f2.2.2.2.2.2⟩, ?_, rfl⟩
  · intro k
    simp [mapIndex_appendPkg, f2.2.2.2.1, genPkgs, Event.ctrlPkgs]
  · simp [f2.2.2.2.2.1, processedCount, Event.processed]
  · intro e he
    simp at he
    subst he
    rfl

theorem example_stepOk {σ : Type} (env : Env σ) {st3 st4 : RunState σ}
    {group version name ctx : String} {res : Except String (Unit × σ)} {u : Unit}
    (h : invoke st3 (.exampleGenerate group version name) ctx (fun _ => Reply.done) res
      = .ok (u, st4)) :
    StepOk env st3 [.exampleGenerate group version name] { st4 with count := st4.count + 1 } := by
  have f := invoke_ok h
  refine ⟨[⟨_, .ok Reply.done⟩], ⟨f.2.1, ?_, ?_, f.2.2.2.2.2⟩, ?_, rfl⟩
  · intro k
    simp [f.2.2.2.1, genPkgs, Event.ctrlPkgs]
  · simp [f.2.2.2.2.1, processedCount, Event.processed]
  · intro e he
    simp at he
    subst he
    rfl

theorem processResource_steps {σ : Type} (env : Env σ) (pc : Provider)
    (rootDir group version : String) (resources : GoMap Resource)
    (acc : List (Resource × String) × RunState σ) (name : String) :
    Outcome.Sat
      (fun acc' => StepOk env acc.2 (resourceCalls env pc rootDir group version resources name) acc'.2)
      (StepErr env acc.2 (resourceCalls env pc rootDir group version resources name))
      (processResource env pc rootDir group (splitFirst group) version resources acc name) := by
  unfold processResource
  simp only []
  split
  · rename_i e h1
    exact (invoke_stepErr env h1 rfl).weaken _
  · rename_i a st1 h1
    have s1 : StepOk env acc.2 [Call.crdGenerate group version name] st1 :=
      invoke_stepOk env h1 (fun _ _ => rfl) (fun _ => rfl)
    split
    · rename_i e h2
      exact (StepErr.of_ok s1 (invoke_stepErr env h2 rfl)).weaken _
    · rename_i p st2 h2
      have s2 := s1.andThen (ctrl_stepOk env h2)
      split
      · rename_i e h3
        exact StepErr.of_ok s2 (invoke_stepErr env h3 rfl)
      · rename_i u st4 h3
        exact s2.andThen (example_stepOk env h3)

theorem processVersion_steps {σ : Type} (env : Env σ) (pc : Provider) (rootDir group : String)
    (versions : GoMap (GoMap Resource)) (st : RunState σ) (entry : String × GoMap Resource) :
    Outcome.Sat (StepOk env st (versionCalls env pc rootDir group entry))
      (StepErr env st (versionCalls env pc rootDir group entry))
      (processVersion env pc rootDir group (splitFirst group) versions st entry) := by
  unfold processVersion
  simp only []
  split
  · rename_i e h1
    have := ((invoke_stepErr env h1 rfl).weaken
      ((sortedResources entry.2).flatMap (resourceCalls env pc rootDir group entry.1 entry.2))).weaken
      [.tfGenerate group entry.1 [], .versionGenerate group entry.1]
    exact this
  · rename_i u st1 h1
    have s1 : StepOk env st [Call.insertPreviousObjects group entry.1] st1 :=
      invoke_stepOk env h1 (fun _ _ => rfl) (fun _ => rfl)
    have loop := foldlM_steps env (fun (b : List (Resource × String) × RunState σ) => b.2)
      (processResource env pc rootDir group (splitFirst group) entry.1 entry.2)
      (resourceCalls env pc rootDir group entry.1 entry.2) (sortedResources entry.2) ([], st1)
      (fun b x _ => processResource_steps env pc rootDir group entry.1 entry.2 b x)
    split
    · rename_i e h2
      rw [h2] at loop
      exact (StepErr.of_ok s1 loop).weaken _
    · rename_i tf st2 h2
      rw [h2] at loop
      have s2 := s1.andThen loop
      split
      · rename_i e h3
        have := (StepErr.of_ok s2 (invoke_stepErr env h3 rfl)).weaken [.versionGenerate group entry.1]
        simpa [versionCalls, Call.skeleton] using this
      · rename_i u3 st3 h3
        have s3 := s2.andThen (invoke_stepOk env h3 (fun _ _ => rfl) (fun _ => rfl))
        split
        · rename_i e h4
          have := StepErr.of_ok s3 (invoke_stepErr env h4 rfl)
          simpa [versionCalls, Call.skeleton] using this
        · rename_i u4 st4 h4
          have s4 := s3.andThen (invoke_stepOk env h4 (fun _ _ => rfl) (fun _ => rfl))
          simp only [Outcome.Sat]
          obtain ⟨evs, hE, hok, hsk⟩ := s4
          refine ⟨evs, ⟨hE.log, hE.pkgs, hE.count, hE.reported⟩, hok, ?_⟩
          simpa [versionCalls, Call.skeleton] using hsk

theorem StepOk.frame {σ : Type} {env : Env σ} {st st1 : RunState σ} {x : List Call}
    (h : StepOk env st x st1) (st2 : RunState σ) (hlog : st2.log = st1.log)
    (hpkgs : st2.controllerPkgMap = st1.controllerPkgMap) (hcount : st2.count = st1.count)
    (hrep : st2.reported = st1.reported) : StepOk env st x st2 := by
  obtain ⟨evs, hE, hok, hsk⟩ := h
  exact ⟨evs, ⟨by rw [hlog, hE.log], fun k => by rw [hpkgs, hE.pkgs], by rw [hcount, hE.count],
    by rw [hrep, hE.reported]⟩, hok, hsk⟩

theorem processGroup_steps {σ : Type} (env : Env σ) (pc : Provider) (rootDir : String)
    (resourcesGroups : GroupingTable) (st : RunState σ) (entry : String × GoMap (GoMap Resource)) :
    Outcome.Sat (StepOk env st (groupCalls env pc rootDir entry))
      (StepErr env st (groupCalls env pc rootDir entry))
      (processGroup env pc rootDir resourcesGroups st entry) := by
  unfold processGroup
  simp only []
  have loop := foldlM_steps env (fun (b : RunState σ) => b)
    (processVersion env pc rootDir entry.1 (splitFirst entry.1) entry.2)
    (versionCalls env pc rootDir entry.1) entry.2 st
    (fun b x _ => processVersion_steps env pc rootDir entry.1 entry.2 b x)
  split
  · rename_i e h1
    rw [h1] at loop
    exact StepErr.weaken loop _
  · rename_i st1 h1
    rw [h1] at loop
    have s1 : StepOk env st (entry.2.flatMap (versionCalls env pc rootDir entry.1)) st1 := loop
    split
    · rename_i e h2
      have := (StepErr.of_ok s1 (invoke_stepErr env h2 rfl)).weaken
        [.conversionSpokeGenerate entry.1]
      simpa [groupCalls, Call.skeleton] using this
    · rename_i hub st2 h2
      have s2 := s1.andThen (invoke_stepOk env h2 (fun _ _ => rfl) (fun _ => rfl))
      split
      · rename_i e h3
        have := StepErr.of_ok s2 (invoke_stepErr env h3 rfl)
        simpa [groupCalls, Call.skeleton] using this
      · rename_i spoke st3 h3
        have s3 := s2.andThen (invoke_stepOk env h3 (fun _ _ => rfl) (fun _ => rfl))
        simp only [Outcome.Sat]
        have := StepOk.frame s3 { st3 with apiVersionPkgList :=
          (conversionPackages env (env.filepathJoin [pc.ModulePath, "apis", splitFirst entry.1])
            spoke hub (aggregationTable env entry.1 resourcesGroups) st3.apiVersionPkgList) }
          rfl rfl rfl rfl
        simpa [groupCalls, Call.skeleton] using this

theorem runGoimports_steps {σ : Type} (env : Env σ) (rootDir folder : String) (st : RunState σ) :
    Outcome.Sat
      (StepOk env st [.goimports (env.filepathClean (env.filepathJoin [rootDir, folder]))])
      (StepErr env st [.goimports (env.filepathClean (env.filepathJoin [rootDir, folder]))])
      (runGoimports env rootDir folder st) := by
  unfold runGoimports
  simp only []
  split
  · rename_i err out h
    simp only [Outcome.Sat]
    refine ⟨[], .goimports (env.filepathClean (env.filepathJoin [rootDir, folder])),
      ⟨rfl, ?_, ?_, rfl⟩, by simp, ⟨[], rfl⟩, Or.inl rfl⟩
    · intro k
      simp [genPkgs, ctrlPkgs_error]
    · simp [processedCount, processed_error]
  · rename_i w h
    simp only [Outcome.Sat]
    refine ⟨[⟨_, .ok Reply.done⟩], ⟨rfl, ?_, ?_, rfl⟩, ?_, rfl⟩
    · intro k
      simp [genPkgs, Event.ctrlPkgs]
    · simp [processedCount, Event.processed]
    · intro e he
      simp at he
      subst he
      rfl

/-- The steps after the loop over the groups: on success the count is reported. -/
theorem finish_steps {σ : Type} (env : Env σ) (pc : Provider) (rootDir : String)
    (st : RunState σ) :
    Outcome.Sat
      (fun st' => ∃ st5, StepOk env st (finishCalls env rootDir) st5 ∧
        st' = { st5 with reported := some st5.count })
      (StepErr env st (finishCalls env rootDir)) (finish env pc rootDir st) := by
  unfold finish
  split
  · rename_i e h1
    exact (invoke_stepErr env h1 rfl).weaken _
  · rename_i u1 st1 h1
    have s1 : StepOk env st [Call.storeExamples] st1 :=
      invoke_stepOk env h1 (fun _ _ => rfl) (fun _ => rfl)
    split
    · rename_i e h2
      have := (StepErr.of_ok s1 (invoke_stepErr env h2 rfl)).weaken
        [.providerGenerate [] "",
         .goimports (env.filepathClean (env.filepathJoin [rootDir, "apis"])),
         .goimports (env.filepathClean (env.filepathJoin [rootDir, "internal"]))]
      simpa [finishCalls, Call.skeleton] using this
    · rename_i u2 st2 h2
      have s2 := s1.andThen (invoke_stepOk env h2 (fun _ _ => rfl) (fun _ => rfl))
      split
      · rename_i e h3
        have := (StepErr.of_ok s2 (invoke_stepErr env h3 rfl)).weaken
          [.goimports (env.filepathClean (env.filepathJoin [rootDir, "apis"])),
           .goimports (env.filepathClean (env.filepathJoin [rootDir, "internal"]))]
        simpa [finishCalls, Call.skeleton] using this
      · rename_i u3 st3 h3
        have s3 := s2.andThen (invoke_stepOk env h3 (fun _ _ => rfl) (fun _ => rfl))
        have g1 := runGoimports_steps env rootDir "apis" st3
        split
        · rename_i e h4
          rw [h4] at g1
          have := (StepErr.of_ok s3 g1).weaken
            [.goimports (env.filepathClean (env.filepathJoin [rootDir, "internal"]))]
          simpa [finishCalls, Call.skeleton] using this
        · rename_i st4 h4
          rw [h4] at g1
          have s4 := s3.andThen g1
          have g2 := runGoimports_steps env rootDir "internal" st4
          split
          · rename_i e h5
            rw [h5] at g2
            have := StepErr.of_ok s4 g2
            simpa [finishCalls, Call.skeleton] using this
          · rename_i st5 h5
            rw [h5] at g2
            have s5 := s4.andThen g2
            simp only [Outcome.Sat]
            refine ⟨st5, ?_, rfl⟩
            simpa [finishCalls, Call.skeleton] using s5

/-! ## The calls of a run -/

/-- Either `SetReferenceTypes` fails and the run stops at once, or the run continues
from `startState` with the calls `mainCalls`, stopping at the first call that fails. -/
theorem Run_steps {σ : Type} (env : Env σ) (pc : Provider) (rootDir : String) (w : σ) :
    (∃ e, Run env pc rootDir w = .error e ∧ env.setReferenceTypes w pc.Resources = .error e.1.cause ∧
      e.2.log = [⟨.setReferenceTypes, .error e.1.cause⟩] ∧
      e.1.context = Call.wrapContext env .setReferenceTypes ∧
      e.2.controllerPkgMap = [] ∧ e.2.apiVersionPkgList = [] ∧ e.2.count = 0 ∧
      e.2.reported = none) ∨
    (∃ w1, env.setReferenceTypes w pc.Resources = .ok ((), w1) ∧
      Outcome.Sat
        (fun st => ∃ st5, StepOk env (startState env pc w1) (mainCalls env pc rootDir) st5 ∧
          st = { st5 with reported := some st5.count })
        (StepErr env (startState env pc w1) (mainCalls env pc rootDir))
        (Run env pc rootDir w)) := by
  unfold Run
  simp only []
  split
  · rename_i e h1
    left
    have f := invoke_error h1
    exact ⟨e, rfl, f.1, by simpa using f.2.2.1, f.2.1, f.2.2.2.2.2.1, f.2.2.2.2.1,
      f.2.2.2.2.2.2.1, f.2.2.2.2.2.2.2⟩
  · rename_i u st1 h1
    right
    have f := invoke_ok h1
    have hst1 : st1 = ⟨st1.world, [⟨.setReferenceTypes, .ok Reply.done⟩], [], [], 0, none⟩ := by
      cases st1
      simp at f
      simp [f]
    refine ⟨st1.world, f.1, ?_⟩
    have hstart : seedState env pc st1 = startState env pc st1.world := by
      unfold startState
      rw [← hst1]
    rw [hstart]
    have loop := foldlM_steps env (fun (b : RunState σ) => b)
      (processGroup env pc rootDir (groupResources env pc)) (groupCalls env pc rootDir)
      (groupResources env pc) (startState env pc st1.world)
      (fun b x _ => processGroup_steps env pc rootDir (groupResources env pc) b x)
    split
    · rename_i e h2
      rw [h2] at loop
      exact StepErr.weaken loop _
    · rename_i st2 h2
      rw [h2] at loop
      have s2 : StepOk env (startState env pc st1.world)
          ((groupResources env pc).flatMap (groupCalls env pc rootDir)) st2 := loop
      have fin := finish_steps env pc rootDir st2
      cases hfin : finish env pc rootDir st2 with
      | error e =>
        rw [hfin] at fin
        exact StepErr.of_ok s2 fin
      | ok st3 =>
        rw [hfin] at fin
        obtain ⟨st5, h5, e5⟩ := fin
        exact ⟨st5, s2.andThen h5, e5⟩

/-! ## The order in which resources are processed -/

theorem filterMap_flatMap {α β γ : Type} (f : α → List β) (g : β → Option γ) (l : List α) :
    (l.flatMap f).filterMap g = l.flatMap fun x => (f x).filterMap g := by
  induction l with
  | nil => rfl
  | cons a t ih => simp [List.flatMap_cons, List.filterMap_append, ih]

theorem crdName_skeleton (c : Call) : c.skeleton.crdName = c.crdName := by
  cases c <;> rfl

theorem crdCalls_eq_of_skeleton (evs : List Event) :
    crdCalls evs = (evs.map fun e => e.call.skeleton).filterMap Call.crdName := by
  induction evs with
  | nil => rfl
  | cons e t ih =>
    simp only [crdCalls] at ih
    simp only [crdCalls, List.filterMap_cons, List.map_cons, crdName_skeleton, ih]

theorem crdName_resourceCalls {σ : Type} (env : Env σ) (pc : Provider)
    (rootDir group version : String) (resources : GoMap Resource) (name : String) :
    (resourceCalls env pc rootDir group version resources name).filterMap Call.crdName
      = [(group, version, name)] := rfl

theorem crdName_versionCalls {σ : Type} (env : Env σ) (pc : Provider) (rootDir group : String)
    (entry : String × GoMap Resource) :
    (versionCalls env pc rootDir group entry).filterMap Call.crdName
      = (sortedResources entry.2).map fun n => (group, entry.1, n) := by
  unfold versionCalls
  simp only [List.filterMap_append, filterMap_flatMap, crdName_resourceCalls]
  simp only [Call.crdName, List.filterMap_cons, List.filterMap_nil, List.nil_append,
    List.append_nil]
  induction sortedResources entry.2 with
  | nil => rfl
  | cons a t ih => simp [List.flatMap_cons, ih]

theorem crdName_groupCalls {σ : Type} (env : Env σ) (pc : Provider) (rootDir : String)
    (entry : String × GoMap (GoMap Resource)) :
    (groupCalls env pc rootDir entry).filterMap Call.crdName
      = entry.2.flatMap fun vr => (sortedResources vr.2).map fun n => (entry.1, vr.1, n) := by
  unfold groupCalls
  simp only [List.filterMap_append, filterMap_flatMap, crdName_versionCalls]
  simp [Call.crdName]

theorem crdName_mainCalls {σ : Type} (env : Env σ) (pc : Provider) (rootDir : String) :
    (mainCalls env pc rootDir).filterMap Call.crdName = processingOrder (groupResources env pc) := by
  unfold mainCalls processingOrder
  simp only [List.filterMap_append, filterMap_flatMap, crdName_groupCalls]
  simp [finishCalls, Call.crdName]

theorem crdCalls_startState {σ : Type} (env : Env σ) (pc : Provider) (w1 : σ) :
    crdCalls (startState env pc w1).log = [] := rfl

theorem Run_order {σ : Type} (env : Env σ) (pc : Provider) (rootDir : String) (w : σ) :
    (∃ rest, crdCalls (Run env pc rootDir w).state.log ++ rest
        = processingOrder (groupResources env pc)) ∧
    (∀ st, Run env pc rootDir w = .ok st →
      crdCalls st.log = processingOrder (groupResources env pc)) := by
  rcases Run_steps env pc rootDir w with ⟨e, he, -, hlog, -⟩ | ⟨w1, -, hsat⟩
  · rw [he]
    refine ⟨⟨processingOrder (groupResources env pc), ?_⟩, fun st h => by cases h⟩
    simp [Outcome.state, hlog, crdCalls, Call.crdName]
  · cases hrun : Run env pc rootDir w with
    | error e =>
      rw [hrun] at hsat
      obtain ⟨oks, c, hE, -, ⟨rest, hrest⟩, -⟩ := hsat
      refine ⟨⟨rest.filterMap Call.crdName, ?_⟩, fun st h => by cases h⟩
      simp only [Outcome.state]
      rw [hE.log, crdCalls_append, crdCalls_startState, List.nil_append, crdCalls_eq_of_skeleton,
        ← crdName_mainCalls env pc rootDir, ← hrest]
      simp only [List.map_append, List.filterMap_append, List.append_assoc, List.map_cons,
        List.map_nil, Call.skeleton]
    | ok st =>
      rw [hrun] at hsat
      obtain ⟨st5, ⟨evs, hE, -, hsk⟩, hst⟩ := hsat
      have : crdCalls st.log = processingOrder (groupResources env pc) := by
        rw [hst]
        simp only []
        rw [hE.log, crdCalls_append, crdCalls_startState, List.nil_append, crdCalls_eq_of_skeleton,
          hsk, crdName_mainCalls]
      refine ⟨⟨[], ?_⟩, fun st' h => ?_⟩
      · simp [Outcome.state, this]
      · cases h
        exact this

/-- C3: for a bucket with pairwise distinct keys, `sortedResources` has the length of
the bucket, holds every key of the bucket exactly once and nothing else, and is
strictly ascending in the order of strings; the CRD generation calls of a run, in
order, are an initial part of the names of the buckets in `sortedResources` order, and
all of them when the run succeeds. -/
theorem C3_sorted_resources {σ : Type} (env : Env σ) (pc : Provider) (rootDir : String) (w : σ)
    (m : GoMap Resource) (hm : (mapKeys m).Nodup) :
    (sortedResources m).length = m.length ∧
    (∀ k, (sortedResources m).count k = if k ∈ mapKeys m then 1 else 0) ∧
    (sortedResources m).Sorted (· < ·) ∧
    (∃ rest, crdCalls (Run env pc rootDir w).state.log ++ rest
        = processingOrder (groupResources env pc)) ∧
    (∀ st, Run env pc rootDir w = .ok st →
      crdCalls st.log = processingOrder (groupResources env pc)) := by
  have hperm := sortedResources_perm m
  have hnd : (sortedResources m).Nodup := hperm.nodup_iff.2 hm
  refine ⟨sortedResources_length m, ?_, (sortStrings_sorted _).lt_of_le hnd,
    Run_order env pc rootDir w⟩
  intro k
  rw [hperm.count_eq, List.count_eq_of_nodup hm]

/-- C3, at the first bucket of the sample configuration and its run. -/
theorem C3_sorted_resources_witness :
    (mapKeys (sampleResources.take 2)).Nodup ∧
    sortedResources (sampleResources.take 2) = ["subnet", "vpc"] ∧
    (sortedResources (sampleResources.take 2)).Sorted (· < ·) ∧
    crdCalls (Run sampleEnv sampleProvider "/out" ()).state.log
      = [("ec2.aws.upbound.io", "v1beta1", "subnet"), ("ec2.aws.upbound.io", "v1beta1", "vpc"),
         ("ec2.aws.upbound.io", "v1beta2", "vpc2")] :=
  ⟨by decide, by decide,
   (C3_sorted_resources sampleEnv sampleProvider "/out" () (sampleResources.take 2) (by decide)).2.2.1,
   by decide⟩

/-! ## Runs without failures -/

theorem foldlM_ok {σ β γ : Type} (f : β → γ → Outcome σ β) (l : List γ) (b : β)
    (step : ∀ b x, ∃ b', f b x = .ok b') : ∃ b', l.foldlM f b = .ok b' := by
  have h := foldlM_sat f (fun _ _ => True) (fun _ => False) l b trivial (by
    intro done x rest b1 _ _
    obtain ⟨b', hb⟩ := step b1 x
    rw [hb]
    trivial)
  cases hr : l.foldlM f b with
  | error e => rw [hr] at h; exact absurd h id
  | ok b' => exact ⟨b', rfl⟩

theorem processResource_ok {σ : Type} (env : Env σ) (hs : env.AllSucceed) (pc : Provider)
    (rootDir group shortGroup version : String) (resources : GoMap Resource)
    (acc : List (Resource × String) × RunState σ) (name : String) :
    ∃ acc', processResource env pc rootDir group shortGroup version resources acc name
      = .ok acc' := by
  unfold processResource
  simp only []
  obtain ⟨a1, w1, h1⟩ := hs.crdGenerate acc.2.world group version
    ((mapLookup resources name).getD default)
  simp only [h1, invoke]
  generalize hwatch : (env.versionPackagePath rootDir pc.ModulePath group _) = watch
  generalize hfeat : (if pc.FeaturesPackage ≠ "" then _ else "") = feat
  obtain ⟨a2, w2, h2⟩ := hs.ctrlGenerate w1 group ((mapLookup resources name).getD default)
    watch feat
  simp only [h2]
  obtain ⟨w3, h3⟩ := hs.exampleGenerate w2 group version ((mapLookup resources name).getD default)
  simp only [h3]
  exact ⟨_, rfl⟩

theorem processVersion_ok {σ : Type} (env : Env σ) (hs : env.AllSucceed) (pc : Provider)
    (rootDir group shortGroup : String) (versions : GoMap (GoMap Resource)) (st : RunState σ)
    (entry : String × GoMap Resource) :
    ∃ st', processVersion env pc rootDir group shortGroup versions st entry = .ok st' := by
  unfold processVersion
  simp only []
  obtain ⟨w1, h1⟩ := hs.insertPreviousObjects st.world group entry.1 versions
  simp only [h1, invoke]
  obtain ⟨acc, h2⟩ := foldlM_ok
    (processResource env pc rootDir group shortGroup entry.1 entry.2) (sortedResources entry.2)
    ([], { st with world := w1, log := st.log ++ [⟨.insertPreviousObjects group entry.1,
      .ok Reply.done⟩] })
    (fun b x => processResource_ok env hs pc rootDir group shortGroup entry.1 entry.2 b x)
  simp only [h2]
  obtain ⟨w3, h3⟩ := hs.tfGenerate acc.2.world group entry.1 acc.1
  simp only [h3]
  obtain ⟨w4, h4⟩ := hs.versionGenerate w3 group entry.1
  simp only [h4]
  exact ⟨_, rfl⟩

theorem processGroup_ok {σ : Type} (env : Env σ) (hs : env.AllSucceed) (pc : Provider)
    (rootDir : String) (resourcesGroups : GroupingTable) (st : RunState σ)
    (entry : String × GoMap (GoMap Resource)) :
    ∃ st', processGroup env pc rootDir resourcesGroups st entry = .ok st' := by
  unfold processGroup
  simp only []
  obtain ⟨st1, h1⟩ := foldlM_ok
    (processVersion env pc rootDir entry.1 (splitFirst entry.1) entry.2) entry.2 st
    (fun b x => processVersion_ok env hs pc rootDir entry.1 (splitFirst entry.1) entry.2 b x)
  simp only [h1]
  obtain ⟨a2, w2, h2⟩ := hs.conversionGenerate st1.world entry.1
    "zz_generated.conversion_hubs.go" hubPredicate entry.2
  simp only [h2, invoke]
  obtain ⟨a3, w3, h3⟩ := hs.conversionGenerate w2 entry.1
    "zz_generated.conversion_spokes.go" spokePredicate entry.2
  simp only [h3]
  exact ⟨_, rfl⟩

theorem finish_ok {σ : Type} (env : Env σ) (hs : env.AllSucceed) (pc : Provider)
    (rootDir : String) (st : RunState σ) : ∃ st', finish env pc rootDir st = .ok st' := by
  unfold finish
  obtain ⟨w1, h1⟩ := hs.storeExamples st.world
  simp only [h1, invoke]
  obtain ⟨w2, h2⟩ := hs.registerGenerate w1 st.apiVersionPkgList
  simp only [h2]
  obtain ⟨w3, h3⟩ := hs.providerGenerate w2 st.controllerPkgMap pc.MainTemplate
  simp only [h3, runGoimports]
  obtain ⟨w4, h4⟩ := hs.goimports w3 (env.filepathClean (env.filepathJoin [rootDir, "apis"]))
  simp only [h4]
  obtain ⟨w5, h5⟩ := hs.goimports w4 (env.filepathClean (env.filepathJoin [rootDir, "internal"]))
  simp only [h5]
  exact ⟨_, rfl⟩

theorem Run_ok {σ : Type} (env : Env σ) (hs : env.AllSucceed) (pc : Provider)
    (rootDir : String) (w : σ) : ∃ st, Run env pc rootDir w = .ok st := by
  unfold Run
  simp only []
  obtain ⟨w1, h1⟩ := hs.setReferenceTypes w pc.Resources
  simp only [h1, invoke]
  obtain ⟨st2, h2⟩ := foldlM_ok (processGroup env pc rootDir (groupResources env pc))
    (groupResources env pc)
    (seedState env pc ⟨w1, [] ++ [⟨.setReferenceTypes, .ok Reply.done⟩], [], [], 0, none⟩)
    (fun b x => processGroup_ok env hs pc rootDir (groupResources env pc) b x)
  simp only [h2]
  exact finish_ok env hs pc rootDir st2

/-! ## The count of processed resources -/

theorem exampleCount_append (l1 l2 : List Call) :
    exampleCount (l1 ++ l2) = exampleCount l1 + exampleCount l2 := by
  simp [exampleCount]

theorem exampleCount_flatMap {α : Type} (f : α → List Call) (l : List α) :
    exampleCount (l.flatMap f) = (l.map fun x => exampleCount (f x)).sum := by
  induction l with
  | nil => rfl
  | cons a t ih => simp [List.flatMap_cons, exampleCount_append, ih]

theorem processed_of_ok (e : Event) (h : e.failed = false) :
    e.processed = if e.call.skeleton.isExample then 1 else 0 := by
  obtain ⟨c, r⟩ := e
  cases r with
  | error err => simp [Event.failed] at h
  | ok a => cases c <;> rfl

theorem processedCount_of_ok (evs : List Event) (h : ∀ e ∈ evs, e.failed = false) :
    processedCount evs = exampleCount (evs.map fun e => e.call.skeleton) := by
  induction evs with
  | nil => rfl
  | cons e t ih =>
    have h1 := processed_of_ok e (h e (by simp))
    have h2 := ih (fun x hx => h x (by simp [hx]))
    simp only [processedCount, exampleCount, List.map_cons, List.sum_cons, List.map_map] at h2 ⊢
    rw [h1, h2]

theorem exampleCount_versionCalls {σ : Type} (env : Env σ) (pc : Provider) (rootDir group : String)
    (entry : String × GoMap Resource) :
    exampleCount (versionCalls env pc rootDir group entry) = entry.2.length := by
  unfold versionCalls
  rw [exampleCount_append, exampleCount_append, exampleCount_flatMap]
  have h1 : ∀ x, exampleCount (resourceCalls env pc rootDir group entry.1 entry.2 x) = 1 :=
    fun _ => rfl
  simp only [h1]
  have h2 : exampleCount [Call.insertPreviousObjects group entry.1] = 0 := rfl
  have h3 : exampleCount [Call.tfGenerate group entry.1 [], Call.versionGenerate group entry.1]
      = 0 := rfl
  rw [h2, h3]
  simp [sortedResources_length]

theorem exampleCount_groupCalls {σ : Type} (env : Env σ) (pc : Provider) (rootDir : String)
    (entry : String × GoMap (GoMap Resource)) :
    exampleCount (groupCalls env pc rootDir entry) = mapSum List.length entry.2 := by
  unfold groupCalls
  rw [exampleCount_append, exampleCount_flatMap]
  simp only [exampleCount_versionCalls]
  have h : exampleCount [Call.conversionHubGenerate entry.1,
      Call.conversionSpokeGenerate entry.1] = 0 := rfl
  rw [h]
  rfl

theorem exampleCount_mainCalls {σ : Type} (env : Env σ) (pc : Provider) (rootDir : String) :
    exampleCount (mainCalls env pc rootDir) = tableSize (groupResources env pc) := by
  unfold mainCalls
  rw [exampleCount_append, exampleCount_flatMap]
  simp only [exampleCount_groupCalls]
  have h : exampleCount (finishCalls env rootDir) = 0 := rfl
  rw [h]
  rfl

theorem length_processingOrder (t : GroupingTable) :
    (processingOrder t).length = tableSize t := by
  unfold processingOrder tableSize mapSum
  induction t with
  | nil => rfl
  | cons gv t ih =>
    simp only [List.flatMap_cons, List.length_append, List.map_cons, List.sum_cons, ih]
    congr 1
    induction gv.2 with
    | nil => rfl
    | cons vr vs ih2 =>
      simp only [List.flatMap_cons, List.length_append, List.map_cons, List.sum_cons, ih2,
        List.length_map, sortedResources_length]

/-- The names in processing order are the input names, each once. -/
theorem processingOrder_perm {σ : Type} (env : Env σ) (pc : Provider)
    (hkeys : (mapKeys pc.Resources).Nodup) :
    ((processingOrder (groupResources env pc)).map fun x => x.2.2).Perm (mapKeys pc.Resources) := by
  have hsub : ∀ n ∈ mapKeys pc.Resources,
      n ∈ (processingOrder (groupResources env pc)).map fun x => x.2.2 := by
    intro n hn
    obtain ⟨⟨n', r⟩, hr, rfl⟩ := List.mem_map.1 hn
    have hl := (tableLookup_groupFold env pc pc.Resources hkeys _ _ _ _).2 ⟨hr, rfl, rfl⟩
    obtain ⟨vs, rs, m1, m2, m3⟩ :=
      (tableLookup_iff_mem _ (groupFold_wf env pc pc.Resources) _ _ _ _).1 hl
    have hs : n' ∈ sortedResources rs :=
      (sortedResources_perm rs).mem_iff.2 (List.mem_map.2 ⟨_, m3, rfl⟩)
    refine List.mem_map.2 ⟨(groupOf env pc r, r.Version, n'), ?_, rfl⟩
    unfold processingOrder
    exact List.mem_flatMap.2 ⟨_, m1, List.mem_flatMap.2 ⟨_, m2, List.mem_map.2 ⟨_, hs, rfl⟩⟩⟩
  have hlen : ((processingOrder (groupResources env pc)).map fun x => x.2.2).length
      = (mapKeys pc.Resources).length := by
    have hsize : tableSize (groupResources env pc) = pc.Resources.length :=
      tableSize_groupFold env pc pc.Resources hkeys
    rw [List.length_map, length_processingOrder, hsize]
    simp [mapKeys]
  exact ((List.subperm_of_subset hkeys hsub).perm_of_length_le (le_of_eq hlen)).symm

/-- C7: when the keys of `pc.Resources` are pairwise distinct, a run that ends
normally reports a count equal to the number of entries of `pc.Resources`, and the
resource names of its CRD generation calls are the keys of `pc.Resources`, each once;
and a run on which no generator call fails does end normally. -/
theorem C7_count {σ : Type} (env : Env σ) (pc : Provider) (rootDir : String) (w : σ)
    (hkeys : (mapKeys pc.Resources).Nodup) :
    (∀ st, Run env pc rootDir w = .ok st →
      st.count = pc.Resources.length ∧ st.reported = some pc.Resources.length ∧
      ((crdCalls st.log).map fun x => x.2.2).Perm (mapKeys pc.Resources)) ∧
    (env.AllSucceed → ∃ st, Run env pc rootDir w = .ok st) := by
  refine ⟨?_, fun hs => Run_ok env hs pc rootDir w⟩
  intro st hrun
  have hperm : ((crdCalls st.log).map fun x => x.2.2).Perm (mapKeys pc.Resources) := by
    rw [(Run_order env pc rootDir w).2 st hrun]
    exact processingOrder_perm env pc hkeys
  rcases Run_steps env pc rootDir w with ⟨e, he, -⟩ | ⟨w1, -, hsat⟩
  · rw [he] at hrun
    cases hrun
  · rw [hrun] at hsat
    obtain ⟨st5, ⟨evs, hE, hok, hsk⟩, hst⟩ := hsat
    have hc : st5.count = pc.Resources.length := by
      have hsize : tableSize (groupResources env pc) = pc.Resources.length :=
        tableSize_groupFold env pc pc.Resources hkeys
      rw [hE.count, processedCount_of_ok evs hok, hsk, exampleCount_mainCalls, hsize]
      simp [startState, seedState]
    refine ⟨?_, ?_, hperm⟩
    · rw [hst]
      exact hc
    · rw [hst]
      simp [hc]

/-- C7, at the sample configuration: the run reports 3. -/
theorem C7_count_witness :
    (mapKeys sampleProvider.Resources).Nodup ∧
    (Run sampleEnv sampleProvider "/out" ()).state.reported = some 3 ∧
    ∀ st, Run sampleEnv sampleProvider "/out" () = .ok st → st.count = 3 :=
  ⟨by decide, by decide, fun st h =>
    ((C7_count sampleEnv sampleProvider "/out" () (by decide)).1 st h).1⟩

/-! ## Fail-fast -/

theorem isFinal_skeleton (c : Call) : c.skeleton.isFinal = c.isFinal := by
  cases c <;> rfl

theorem groupCalls_not_final {σ : Type} (env : Env σ) (pc : Provider) (rootDir : String)
    (t : GroupingTable) : ∀ c ∈ t.flatMap (groupCalls env pc rootDir), c.isFinal = false := by
  intro c hc
  simp only [List.mem_flatMap, groupCalls, versionCalls, resourceCalls, List.mem_append,
    List.mem_cons, List.mem_singleton] at hc
  obtain ⟨gv, -, h⟩ := hc
  rcases h with ⟨vr, -, h⟩ | h
  · rcases h with (h | ⟨n, -, h⟩) | h
    · simp at h
      subst h; rfl
    · simp at h
      rcases h with h | h | h <;> (subst h; rfl)
    · simp at h
      rcases h with h | h <;> (subst h; rfl)
  · simp at h
    rcases h with h | h <;> (subst h; rfl)

/-- When the failing call is not one of the final calls, no final call was made. -/
theorem no_final_before {σ : Type} (env : Env σ) (pc : Provider) (rootDir : String)
    (done : List Call) (c : Call) (rest : List Call)
    (h : done ++ [c] ++ rest = mainCalls env pc rootDir) (hc : c.isFinal = false) :
    ∀ x ∈ done, x.isFinal = false := by
  unfold mainCalls at h
  have hfin : ∀ x ∈ finishCalls env rootDir, x.isFinal = true := by
    intro x hx
    simp [finishCalls] at hx
    rcases hx with h | h | h | h | h <;> (subst h; rfl)
  rcases List.append_eq_append_iff.1 h with ⟨a', h1, h2⟩ | ⟨c', h1, h2⟩
  · -- the groups' calls are `done ++ [c] ++ a'`
    intro x hx
    apply groupCalls_not_final env pc rootDir (groupResources env pc)
    rw [h1]
    simp [hx]
  · -- `done ++ [c]` reaches into the final calls
    rcases List.eq_nil_or_concat c' with hnil | ⟨c'', y, hy⟩
    · subst hnil
      intro x hx
      apply groupCalls_not_final env pc rootDir (groupResources env pc)
      have : (groupResources env pc).flatMap (groupCalls env pc rootDir) = done ++ [c] := by
        simpa using h1.symm
      rw [this]
      simp [hx]
    · exfalso
      rw [hy, List.concat_eq_append, ← List.append_assoc] at h1
      have := List.append_inj_right' h1 rfl
      simp at this
      subst this
      have hyfin := hfin c (by rw [h2, hy]; simp)
      rw [hc] at hyfin
      cases hyfin

/-- C8: a run that ends normally has made no failing call and has reported its count.
A run that panics has made a failing call `c` last: all earlier calls succeeded, the
cause of the panic is the error of `c`, the calls made are an initial part of the calls
of a run without failures, the count is not reported, and unless `c` is itself one of
the final calls (storing examples, registration, provider generation, `goimports`) none
of these was made. -/
theorem C8_fail_fast {σ : Type} (env : Env σ) (pc : Provider) (rootDir : String) (w : σ) :
    Outcome.Sat
      (fun st => (∀ ev ∈ st.log, ev.failed = false) ∧ st.reported = some st.count ∧
        st.log.map (fun ev => ev.call.skeleton) = runCalls env pc rootDir)
      (fun e => ∃ oks c, e.2.log = oks ++ [⟨c, .error e.1.cause⟩] ∧
        (∀ ev ∈ oks, ev.failed = false) ∧
        (∃ rest, oks.map (fun ev => ev.call.skeleton) ++ [c.skeleton] ++ rest
          = runCalls env pc rootDir) ∧
        e.2.reported = none ∧
        (c.isFinal = false → ∀ ev ∈ e.2.log, ev.call.isFinal = false))
      (Run env pc rootDir w) := by
  rcases Run_steps env pc rootDir w with ⟨e, he, -, hlog, -, -, -, -, hrep⟩ | ⟨w1, -, hsat⟩
  · rw [he]
    refine ⟨[], .setReferenceTypes, by simpa using hlog, by simp, ⟨mainCalls env pc rootDir, rfl⟩,
      hrep, ?_⟩
    intro _ ev hev
    rw [hlog] at hev
    simp at hev
    subst hev
    rfl
  · cases hrun : Run env pc rootDir w with
    | error e =>
      rw [hrun] at hsat
      obtain ⟨oks, c, hE, hok, ⟨rest, hrest⟩, -⟩ := hsat
      have hl : e.2.log = ([⟨.setReferenceTypes, .ok Reply.done⟩] ++ oks) ++
          [⟨c, .error e.1.cause⟩] := by
        rw [hE.log]
        simp [startState, seedState]
      refine ⟨[⟨.setReferenceTypes, .ok Reply.done⟩] ++ oks, c, hl, ?_, ⟨rest, ?_⟩, ?_, ?_⟩
      · intro ev hev
        rcases List.mem_append.1 hev with h | h
        · simp at h; subst h; rfl
        · exact hok ev h
      · simp only [runCalls, ← hrest]
        simp [Call.skeleton]
      · rw [hE.reported]
        rfl
      · intro hc ev hev
        rw [hl] at hev
        simp only [List.mem_append, List.mem_singleton] at hev
        rcases hev with (h | h) | h
        · subst h; rfl
        · have := no_final_before env pc rootDir _ c.skeleton rest hrest
            (by rw [isFinal_skeleton]; exact hc) ev.call.skeleton (List.mem_map.2 ⟨ev, h, rfl⟩)
          rw [isFinal_skeleton] at this
          exact this
        · subst h; exact hc
    | ok st =>
      rw [hrun] at hsat
      obtain ⟨st5, ⟨evs, hE, hok, hsk⟩, hst⟩ := hsat
      have hl : st.log = [⟨.setReferenceTypes, .ok Reply.done⟩] ++ evs := by
        rw [hst]
        simp only []
        rw [hE.log]
        rfl
      refine ⟨?_, ?_, ?_⟩
      · intro ev hev
        rw [hl] at hev
        rcases List.mem_append.1 hev with h | h
        · simp at h; subst h; rfl
        · exact hok ev h
      · rw [hst]
      · rw [hl]
        simp only [runCalls, ← hsk]
        simp [Call.skeleton]

/-! ## Seeding the controller package map -/

theorem mapIndex_appendIfAbsent (m : GoMap (List String)) (k k' p : String) :
    mapIndex (appendIfAbsent m k p) k' =
      mapIndex m k' ++ (if k = k' ∧ p ∉ mapIndex m k then [p] else []) := by
  unfold appendIfAbsent
  by_cases h : p ∈ mapIndex m k
  · simp [h]
  · rw [if_neg h, mapIndex_appendPkg]
    by_cases hk : k = k'
    · subst hk; simp [h]
    · simp [hk]

theorem mapIndex_controllerMapStep {σ : Type} (env : Env σ) (pc : Provider)
    (m : GoMap (List String)) (pg : String × String) (k : String) :
    mapIndex (controllerMapStep env pc m pg) k = mapIndex m k ++
      ((if pg.2 = k then [env.filepathJoin [pc.ModulePath, pg.1]] else []) ++
        (if env.PackageNameMonolith = k then [env.filepathJoin [pc.ModulePath, pg.1]] else [])) := by
  unfold controllerMapStep
  simp only [mapIndex_appendPkg, List.append_assoc]

theorem mapIndex_foldl_controllerMapStep {σ : Type} (env : Env σ) (pc : Provider)
    (l : GoMap String) (m : GoMap (List String)) (k : String) :
    mapIndex (l.foldl (controllerMapStep env pc) m) k = mapIndex m k ++ l.flatMap fun pg =>
      (if pg.2 = k then [env.filepathJoin [pc.ModulePath, pg.1]] else []) ++
        (if env.PackageNameMonolith = k then [env.filepathJoin [pc.ModulePath, pg.1]] else []) := by
  induction l generalizing m with
  | nil => simp
  | cons a t ih =>
    rw [List.foldl_cons, ih, mapIndex_controllerMapStep, List.flatMap_cons, List.append_assoc]

theorem mapIndex_seedControllerMap {σ : Type} (env : Env σ) (pc : Provider) (k : String) :
    mapIndex (seedControllerMap env pc []) k = cmPkgs env pc k := by
  unfold seedControllerMap cmPkgs
  rw [mapIndex_foldl_controllerMapStep]
  rfl

/-- What one iteration of the legacy loop adds under key `k`: the path, when `k` is the
per-config key or the monolithic key and the path is not yet present under `k`. -/
theorem mapIndex_legacyStep {σ : Type} (env : Env σ) (pc : Provider) (m : GoMap (List String))
    (p k : String) :
    mapIndex (legacyStep env pc m p) k = mapIndex m k ++
      (if (k = env.PackageNameConfig ∨ k = env.PackageNameMonolith) ∧
          env.filepathJoin [pc.ModulePath, p] ∉ mapIndex m k
        then [env.filepathJoin [pc.ModulePath, p]] else []) := by
  unfold legacyStep
  simp only [mapIndex_appendIfAbsent, List.append_assoc]
  generalize env.filepathJoin [pc.ModulePath, p] = path
  by_cases h1 : env.PackageNameConfig = k
  · subst h1
    by_cases h2 : env.PackageNameMonolith = env.PackageNameConfig
    · by_cases h3 : path ∈ mapIndex m env.PackageNameConfig
      · simp [h2, h3]
      · simp [h2, h3]
    · have h2' : ¬ env.PackageNameConfig = env.PackageNameMonolith := fun e => h2 e.symm
      by_cases h3 : path ∈ mapIndex m env.PackageNameConfig <;> simp [h2, h2', h3]
  · have h1' : ¬ k = env.PackageNameConfig := fun e => h1 e.symm
    by_cases h2 : env.PackageNameMonolith = k
    · subst h2
      by_cases h3 : path ∈ mapIndex m env.PackageNameMonolith <;> simp [h1, h1', h3]
    · have h2' : ¬ k = env.PackageNameMonolith := fun e => h2 e.symm
      simp [h1, h1', h2, h2']

/-- The legacy loop extends the sequence of a key by legacy paths that were not
present, each once and in the order of the list, and only under the two reserved keys. -/
theorem mapIndex_foldl_legacyStep {σ : Type} (env : Env σ) (pc : Provider) (l : List String)
    (m : GoMap (List String)) (k : String) :
    ∃ added, mapIndex (l.foldl (legacyStep env pc) m) k = mapIndex m k ++ added ∧
      added.Nodup ∧ (∀ x ∈ added, x ∉ mapIndex m k) ∧
      added.Sublist (l.map fun p => env.filepathJoin [pc.ModulePath, p]) ∧
      (added ≠ [] → k = env.PackageNameConfig ∨ k = env.PackageNameMonolith) := by
  induction l generalizing m with
  | nil => exact ⟨[], by simp, List.nodup_nil, by simp, by simp, by simp⟩
  | cons p t ih =>
    obtain ⟨added, h1, h2, h3, h4, h5⟩ := ih (legacyStep env pc m p)
    rw [List.foldl_cons, h1, mapIndex_legacyStep]
    rw [mapIndex_legacyStep] at h3
    by_cases hc : (k = env.PackageNameConfig ∨ k = env.PackageNameMonolith) ∧
        env.filepathJoin [pc.ModulePath, p] ∉ mapIndex m k
    · rw [if_pos hc] at h3 ⊢
      refine ⟨env.filepathJoin [pc.ModulePath, p] :: added, by simp, ?_, ?_, ?_, fun _ => hc.1⟩
      · refine List.nodup_cons.2 ⟨?_, h2⟩
        intro hx
        exact h3 _ hx (by simp)
      · intro x hx
        rcases List.mem_cons.1 hx with h | h
        · rw [h]; exact hc.2
        · intro hm
          exact h3 x h (by simp [hm])
      · simpa using List.Sublist.cons₂ (env.filepathJoin [pc.ModulePath, p]) h4
    · rw [if_neg hc] at h3 ⊢
      refine ⟨added, by simp, h2, ?_, ?_, h5⟩
      · intro x hx
        simpa using h3 x hx
      · simpa using List.Sublist.cons (env.filepathJoin [pc.ModulePath, p]) h4

theorem mem_foldl_legacyStep {σ : Type} (env : Env σ) (pc : Provider) (l : List String)
    (m : GoMap (List String)) (p : String) (hp : p ∈ l) :
    env.filepathJoin [pc.ModulePath, p] ∈ mapIndex (l.foldl (legacyStep env pc) m)
        env.PackageNameConfig ∧
    env.filepathJoin [pc.ModulePath, p] ∈ mapIndex (l.foldl (legacyStep env pc) m)
        env.PackageNameMonolith := by
  induction l generalizing m with
  | nil => simp at hp
  | cons a t ih =>
    rw [List.foldl_cons]
    rcases List.mem_cons.1 hp with h | h
    · subst h
      have key : ∀ k, (k = env.PackageNameConfig ∨ k = env.PackageNameMonolith) →
          env.filepathJoin [pc.ModulePath, p] ∈
            mapIndex (t.foldl (legacyStep env pc) (legacyStep env pc m p)) k := by
        intro k hk
        obtain ⟨added, h1, -⟩ := mapIndex_foldl_legacyStep env pc t (legacyStep env pc m p) k
        rw [h1, mapIndex_legacyStep]
        by_cases hm : env.filepathJoin [pc.ModulePath, p] ∈ mapIndex m k
        · simp [hm]
        · simp [hm, hk]
      exact ⟨key _ (Or.inl rfl), key _ (Or.inr rfl)⟩
    · exact ih _ h

/-! ## The controller package map of a run -/

theorem ctrlPkgs_monolith {σ : Type} (env : Env σ) (k p : String) (e : Event)
    (h : p ∈ Event.ctrlPkgs env k e) : p ∈ Event.ctrlPkgs env env.PackageNameMonolith e := by
  obtain ⟨c, r⟩ := e
  cases c with
  | ctrlGenerate g v n wp fp =>
    cases r with
    | error err => simp [Event.ctrlPkgs] at h
    | ok a =>
      cases a with
      | path q =>
        simp only [Event.ctrlPkgs, List.mem_append] at h ⊢
        have hp : p = q := by
          rcases h with h | h <;> (split at h <;> simp at h; exact h)
        subst hp
        simp
      | _ => simp [Event.ctrlPkgs] at h
  | _ => simp [Event.ctrlPkgs] at h

theorem genPkgs_monolith {σ : Type} (env : Env σ) (k p : String) (evs : List Event)
    (h : p ∈ genPkgs env k evs) : p ∈ genPkgs env env.PackageNameMonolith evs := by
  simp only [genPkgs, List.mem_flatMap] at h ⊢
  obtain ⟨e, he, hp⟩ := h
  exact ⟨e, he, ctrlPkgs_monolith env k p e hp⟩

/-- The controller package map of the state a run ends in: empty when
`SetReferenceTypes` failed, and otherwise, under every key, the seeded sequence
followed by the locations owed to the controller generations of the log. -/
theorem Run_pkgs {σ : Type} (env : Env σ) (pc : Provider) (rootDir : String) (w : σ) :
    ((Run env pc rootDir w).state.controllerPkgMap = [] ∧
      (∃ err, env.setReferenceTypes w pc.Resources = .error err)) ∨
    (∃ w1, env.setReferenceTypes w pc.Resources = .ok ((), w1) ∧
      ∀ k, mapIndex (Run env pc rootDir w).state.controllerPkgMap k =
        mapIndex (seedLegacyControllers env pc (seedControllerMap env pc [])) k ++
          genPkgs env k (Run env pc rootDir w).state.log) := by
  rcases Run_steps env pc rootDir w with ⟨e, he, hset, -, -, hcpm, -⟩ | ⟨w1, hw1, hsat⟩
  · left
    rw [he]
    exact ⟨hcpm, _, hset⟩
  · right
    refine ⟨w1, hw1, ?_⟩
    have hstart : ∀ k, genPkgs env k (startState env pc w1).log = [] := fun k => rfl
    cases hrun : Run env pc rootDir w with
    | error e =>
      rw [hrun] at hsat
      obtain ⟨oks, c, hE, -⟩ := hsat
      intro k
      simp only [Outcome.state]
      have hl : genPkgs env k e.2.log = genPkgs env k (oks ++ [⟨c, .error e.1.cause⟩]) := by
        rw [hE.log, genPkgs_append, hstart, List.nil_append]
      rw [hl, hE.pkgs]
      rfl
    | ok st =>
      rw [hrun] at hsat
      obtain ⟨st5, ⟨evs, hE, -, -⟩, hst⟩ := hsat
      intro k
      simp only [Outcome.state]
      rw [hst]
      simp only []
      have hl : genPkgs env k st5.log = genPkgs env k evs := by
        rw [hE.log, genPkgs_append, hstart, List.nil_append]
      rw [hl, hE.pkgs]
      rfl

theorem covers_controllerMapStep {σ : Type} (env : Env σ) (pc : Provider)
    (m : GoMap (List String)) (pg : String × String)
    (h : ∀ k p, p ∈ mapIndex m k → p ∈ mapIndex m env.PackageNameMonolith) :
    ∀ k p, p ∈ mapIndex (controllerMapStep env pc m pg) k →
      p ∈ mapIndex (controllerMapStep env pc m pg) env.PackageNameMonolith := by
  intro k p hp
  rw [mapIndex_controllerMapStep] at hp ⊢
  simp only [List.mem_append] at hp ⊢
  rcases hp with hp | hp | hp
  · exact Or.inl (h k p hp)
  · split at hp
    · simp at hp; subst hp; simp
    · simp at hp
  · split at hp
    · simp at hp; subst hp; simp
    · simp at hp

theorem covers_legacyStep {σ : Type} (env : Env σ) (pc : Provider)
    (m : GoMap (List String)) (q : String)
    (h : ∀ k p, p ∈ mapIndex m k → p ∈ mapIndex m env.PackageNameMonolith) :
    ∀ k p, p ∈ mapIndex (legacyStep env pc m q) k →
      p ∈ mapIndex (legacyStep env pc m q) env.PackageNameMonolith := by
  intro k p hp
  rw [mapIndex_legacyStep] at hp
  simp only [List.mem_append] at hp
  rcases hp with hp | hp
  · rw [mapIndex_legacyStep]
    exact List.mem_append.2 (Or.inl (h k p hp))
  · split at hp
    · simp at hp
      subst hp
      have := (mem_foldl_legacyStep env pc [q] m q (by simp)).2
      simpa using this
    · simp at hp

theorem covers_foldl {α : Type} {σ : Type} (env : Env σ)
    (step : GoMap (List String) → α → GoMap (List String))
    (hstep : ∀ m a, (∀ k p, p ∈ mapIndex m k → p ∈ mapIndex m env.PackageNameMonolith) →
      ∀ k p, p ∈ mapIndex (step m a) k → p ∈ mapIndex (step m a) env.PackageNameMonolith)
    (l : List α) (m : GoMap (List String))
    (h : ∀ k p, p ∈ mapIndex m k → p ∈ mapIndex m env.PackageNameMonolith) :
    ∀ k p, p ∈ mapIndex (l.foldl step m) k → p ∈ mapIndex (l.foldl step m) env.PackageNameMonolith := by
  induction l generalizing m with
  | nil => exact h
  | cons a t ih => exact ih (step m a) (hstep m a h)

theorem covers_seeded {σ : Type} (env : Env σ) (pc : Provider) :
    (∀ k p, p ∈ mapIndex (seedControllerMap env pc []) k →
      p ∈ mapIndex (seedControllerMap env pc []) env.PackageNameMonolith) ∧
    (∀ k p, p ∈ mapIndex (seedLegacyControllers env pc (seedControllerMap env pc [])) k →
      p ∈ mapIndex (seedLegacyControllers env pc (seedControllerMap env pc []))
        env.PackageNameMonolith) := by
  have h0 : ∀ k p, p ∈ mapIndex ([] : GoMap (List String)) k →
      p ∈ mapIndex ([] : GoMap (List String)) env.PackageNameMonolith := by
    intro k p hp
    simp [mapIndex, mapLookup] at hp
  have h1 := covers_foldl env (controllerMapStep env pc) (covers_controllerMapStep env pc)
    pc.BasePackages.ControllerMap [] h0
  exact ⟨h1, covers_foldl env (legacyStep env pc) (covers_legacyStep env pc)
    pc.BasePackages.Controller _ h1⟩

/-- C5: every package location under any key of the controller package map is also
under the monolithic key: after the loop over `ControllerMap`, after the loop over the
legacy `Controller` list, and in the state in which a run ends, normally or by a panic
at any generator call.  (A state reached in the middle of one of the two seeding loops
is the state after the loop for the configuration with the shortened list.) -/
theorem C5_monolith_superset {σ : Type} (env : Env σ) (pc : Provider) (rootDir : String) (w : σ) :
    (∀ k p, p ∈ mapIndex (seedControllerMap env pc []) k →
      p ∈ mapIndex (seedControllerMap env pc []) env.PackageNameMonolith) ∧
    (∀ k p, p ∈ mapIndex (seedLegacyControllers env pc (seedControllerMap env pc [])) k →
      p ∈ mapIndex (seedLegacyControllers env pc (seedControllerMap env pc []))
        env.PackageNameMonolith) ∧
    (∀ k p, p ∈ mapIndex (Run env pc rootDir w).state.controllerPkgMap k →
      p ∈ mapIndex (Run env pc rootDir w).state.controllerPkgMap env.PackageNameMonolith) := by
  refine ⟨(covers_seeded env pc).1, (covers_seeded env pc).2, ?_⟩
  intro k p hp
  rcases Run_pkgs env pc rootDir w with ⟨h, -⟩ | ⟨w1, -, h⟩
  · rw [h] at hp
    simp [mapIndex, mapLookup] at hp
  · rw [h] at hp ⊢
    rcases List.mem_append.1 hp with h1 | h1
    · exact List.mem_append.2 (Or.inl ((covers_seeded env pc).2 k p h1))
    · exact List.mem_append.2 (Or.inr (genPkgs_monolith env k p _ h1))

/-- C4, refuted as stated: with a `ControllerMap` entry filed under the monolithic key
the sequence of that key handed to provider generation holds the package twice, and in
the scenario of the specification, where two resources have the kind `VPC`, the
sequences of the keys `ec2` and `monolith` hold the generated controller package twice. -/
theorem C4_dedup_counterexample :
    ((Run sampleEnv monolithMapProvider "/out" ()).state.log.any fun e =>
      e.call == .providerGenerate [("monolith",
        ["github.com/upbound/provider-aws/internal/controller/providerconfig",
         "github.com/upbound/provider-aws/internal/controller/providerconfig"])] "") = true ∧
    ¬ (mapIndex (Run sampleEnv monolithMapProvider "/out" ()).state.controllerPkgMap
      "monolith").Nodup ∧
    ¬ (mapIndex (Run sampleEnv sampleProvider "/out" ()).state.controllerPkgMap "ec2").Nodup ∧
    ¬ (mapIndex (Run sampleEnv sampleProvider "/out" ()).state.controllerPkgMap
      "monolith").Nodup := by
  decide

/-- C4, amended: when `SetReferenceTypes` has succeeded, the sequence of every key in
the state a run ends in is, in this order, the locations appended by the loop over
`ControllerMap`, then legacy `Controller` paths that were not yet present under the key
(each once, in the order of the legacy list, and only under the per-config and the
monolithic key), then the controller packages generated for the key, in the order of
generation.  Hence the sequence has no duplicate whenever the `ControllerMap` appends
and the generated packages of the key are pairwise distinct and no generated package
is one of the legacy paths added. -/
theorem C4_dedup_amended {σ : Type} (env : Env σ) (pc : Provider) (rootDir : String) (w w1 : σ)
    (k : String) (hset : env.setReferenceTypes w pc.Resources = .ok ((), w1)) :
    ∃ legacy,
      mapIndex (Run env pc rootDir w).state.controllerPkgMap k =
        cmPkgs env pc k ++ legacy ++ genPkgs env k (Run env pc rootDir w).state.log ∧
      legacy.Nodup ∧ legacy.Sublist (legacyPaths env pc) ∧
      (∀ x ∈ legacy, x ∉ cmPkgs env pc k) ∧
      (legacy ≠ [] → k = env.PackageNameConfig ∨ k = env.PackageNameMonolith) ∧
      ((cmPkgs env pc k ++ genPkgs env k (Run env pc rootDir w).state.log).Nodup →
        (∀ x ∈ genPkgs env k (Run env pc rootDir w).state.log, x ∉ legacy) →
        (mapIndex (Run env pc rootDir w).state.controllerPkgMap k).Nodup) := by
  obtain ⟨legacy, h1, h2, h3, h4, h5⟩ := mapIndex_foldl_legacyStep env pc
    pc.BasePackages.Controller (seedControllerMap env pc []) k
  rw [mapIndex_seedControllerMap] at h1 h3
  have hpk : mapIndex (Run env pc rootDir w).state.controllerPkgMap k =
      cmPkgs env pc k ++ legacy ++ genPkgs env k (Run env pc rootDir w).state.log := by
    rcases Run_pkgs env pc rootDir w with ⟨-, err, herr⟩ | ⟨w2, -, h⟩
    · rw [hset] at herr
      cases herr
    · rw [h k]
      unfold seedLegacyControllers
      rw [h1]
  refine ⟨legacy, hpk, h2, h4, h3, h5, ?_⟩
  intro hnd hdisj
  rw [hpk]
  have hnd' := List.nodup_append.1 hnd
  refine List.nodup_append.2 ⟨List.nodup_append.2 ⟨hnd'.1, h2, ?_⟩, hnd'.2.1, ?_⟩
  · intro x hx hy
    exact h3 x hy hx
  · intro x hx hy
    rcases List.mem_append.1 hx with h | h
    · exact hnd'.2.2 h hy
    · exact hdisj x hy h

/-- C4 amended, at a configuration with two kinds: the monolithic sequence is the
`ControllerMap` package, the legacy package not yet present, and the two generated
controller packages, without duplicate. -/
theorem C4_dedup_amended_witness :
    sampleEnv.setReferenceTypes () twoKindsProvider.Resources = .ok ((), ()) ∧
    mapIndex (Run sampleEnv twoKindsProvider "/out" ()).state.controllerPkgMap "monolith" =
      ["github.com/upbound/provider-aws/internal/controller/providerconfig",
       "github.com/upbound/provider-aws/internal/controller/eks",
       "internal/controller/ec2/subnet", "internal/controller/ec2/vpc"] ∧
    ∃ legacy,
      mapIndex (Run sampleEnv twoKindsProvider "/out" ()).state.controllerPkgMap "monolith" =
        cmPkgs sampleEnv twoKindsProvider "monolith" ++ legacy ++
          genPkgs sampleEnv "monolith" (Run sampleEnv twoKindsProvider "/out" ()).state.log ∧
      legacy.Nodup :=
  ⟨rfl, by decide,
    (C4_dedup_amended sampleEnv twoKindsProvider "/out" () () "monolith" rfl).imp
      fun _ h => ⟨h.1, h.2.1⟩⟩

/-- C10: after the seeding of the controller package map and before any resource is
processed, every legacy `Controller` package, joined to the module path, is under the
per-config key and under the monolithic key; under every key the sequence is the one
seeded from `ControllerMap` followed by what the legacy loop added, which are legacy
paths absent from the seeded sequence, each once and in the order of the legacy list;
the number of occurrences of a path already seeded under a key is unchanged; and an
iteration of the legacy loop whose path is already present under a key leaves the
sequence of that key as it is. -/
theorem C10_legacy_seeding {σ : Type} (env : Env σ) (pc : Provider) :
    (∀ p ∈ pc.BasePackages.Controller,
      env.filepathJoin [pc.ModulePath, p] ∈
        mapIndex (seedLegacyControllers env pc (seedControllerMap env pc []))
          env.PackageNameConfig ∧
      env.filepathJoin [pc.ModulePath, p] ∈
        mapIndex (seedLegacyControllers env pc (seedControllerMap env pc []))
          env.PackageNameMonolith) ∧
    (∀ k, ∃ added,
      mapIndex (seedLegacyControllers env pc (seedControllerMap env pc [])) k =
        mapIndex (seedControllerMap env pc []) k ++ added ∧
      mapIndex (seedControllerMap env pc []) k = cmPkgs env pc k ∧
      added.Sublist (legacyPaths env pc) ∧ added.Nodup ∧
      (∀ x ∈ added, x ∉ mapIndex (seedControllerMap env pc []) k)) ∧
    (∀ k path, path ∈ mapIndex (seedControllerMap env pc []) k →
      (mapIndex (seedLegacyControllers env pc (seedControllerMap env pc [])) k).count path =
        (mapIndex (seedControllerMap env pc []) k).count path) ∧
    (∀ (m : GoMap (List String)) p k, env.filepathJoin [pc.ModulePath, p] ∈ mapIndex m k →
      mapIndex (legacyStep env pc m p) k = mapIndex m k) := by
  refine ⟨?_, ?_, ?_, ?_⟩
  · intro p hp
    exact mem_foldl_legacyStep env pc pc.BasePackages.Controller _ p hp
  · intro k
    obtain ⟨added, h1, h2, h3, h4, -⟩ := mapIndex_foldl_legacyStep env pc
      pc.BasePackages.Controller (seedControllerMap env pc []) k
    exact ⟨added, h1, mapIndex_seedControllerMap env pc k, h4, h2, h3⟩
  · intro k path hpath
    obtain ⟨added, h1, -, h3, -, -⟩ := mapIndex_foldl_legacyStep env pc
      pc.BasePackages.Controller (seedControllerMap env pc []) k
    unfold seedLegacyControllers
    rw [h1, List.count_append]
    have : added.count path = 0 := List.count_eq_zero.2 fun hx => h3 path hx hpath
    omega
  · intro m p k hmem
    rw [mapIndex_legacyStep]
    simp [hmem]

/-- C8, at a run whose controller generation fails for `vpc`: the run stops there. -/
theorem C8_fail_fast_witness :
    (Run failingEnv sampleProvider "/out" ()).state.reported = none ∧
    ((Run failingEnv sampleProvider "/out" ()).state.log.map fun e => e.call.isFinal)
      = [false, false, false, false, false, false, false] ∧
    Outcome.Sat (fun _ => False)
      (fun e => ∃ oks c, e.2.log = oks ++ [⟨c, .error e.1.cause⟩] ∧
        (∀ ev ∈ oks, ev.failed = false))
      (Run failingEnv sampleProvider "/out" ()) := by
  refine ⟨by decide, by decide, ?_⟩
  have h := C8_fail_fast failingEnv sampleProvider "/out" ()
  cases hrun : Run failingEnv sampleProvider "/out" () with
  | ok st =>
    have : (Run failingEnv sampleProvider "/out" ()).state.reported = none := by decide
    rw [hrun] at h this
    simp only [Outcome.state] at this
    rw [h.2.1] at this
    cases this
  | error e =>
    rw [hrun] at h
    obtain ⟨oks, c, h1, h2, -⟩ := h
    exact ⟨oks, c, h1, h2⟩

/-! ## Hub and spoke classification -/

theorem mem_mapIndex_appendIfAbsent (m : GoMap (List String)) (k k' p x : String) :
    x ∈ mapIndex (appendIfAbsent m k p) k' ↔ x ∈ mapIndex m k' ∨ (k = k' ∧ x = p) := by
  rw [mapIndex_appendIfAbsent]
  by_cases hk : k = k'
  · subst hk
    by_cases hp : p ∈ mapIndex m k
    · simp only [hp, not_true_eq_false, and_false, if_false, List.append_nil, true_and]
      constructor
      · exact Or.inl
      · rintro (h | h)
        · exact h
        · rw [h]; exact hp
    · simp [hp]
  · simp [hk]

theorem mem_classify_bucket (isTarget : Resource → String → Bool) (version : String)
    (rs : GoMap Resource) (m : NodeVersionsMap) (key v : String) :
    v ∈ mapIndex (rs.foldl (classifyStep isTarget version) m) key ↔
      v ∈ mapIndex m key ∨
        (v = version ∧ ∃ nr ∈ rs, nodeKey nr.2 = key ∧ isTarget nr.2 version = true) := by
  induction rs generalizing m with
  | nil => simp
  | cons a t ih =>
    rw [List.foldl_cons, ih]
    unfold classifyStep
    by_cases ha : isTarget a.2 version = true
    · rw [if_pos ha, mem_mapIndex_appendIfAbsent]
      constructor
      · rintro ((h | ⟨h1, h2⟩) | ⟨h1, nr, h2, h3⟩)
        · exact Or.inl h
        · exact Or.inr ⟨h2, a, by simp, h1, ha⟩
        · exact Or.inr ⟨h1, nr, by simp [h2], h3⟩
      · rintro (h | ⟨h1, nr, h2, h3, h4⟩)
        · exact Or.inl (Or.inl h)
        · rcases List.mem_cons.1 h2 with h | h
          · subst h
            exact Or.inl (Or.inr ⟨h3, h1⟩)
          · exact Or.inr ⟨h1, nr, h, h3, h4⟩
    · rw [if_neg ha]
      constructor
      · rintro (h | ⟨h1, nr, h2, h3⟩)
        · exact Or.inl h
        · exact Or.inr ⟨h1, nr, by simp [h2], h3⟩
      · rintro (h | ⟨h1, nr, h2, h3, h4⟩)
        · exact Or.inl h
        · rcases List.mem_cons.1 h2 with h | h
          · subst h
            exact absurd h4 ha
          · exact Or.inr ⟨h1, nr, h, h3, h4⟩

theorem mem_classify_foldl (isTarget : Resource → String → Bool)
    (versions : GoMap (GoMap Resource)) (m : NodeVersionsMap) (key v : String) :
    v ∈ mapIndex (versions.foldl (fun m vr => vr.2.foldl (classifyStep isTarget vr.1) m) m) key ↔
      v ∈ mapIndex m key ∨
        ∃ rs nr, (v, rs) ∈ versions ∧ nr ∈ rs ∧ nodeKey nr.2 = key ∧ isTarget nr.2 v = true := by
  induction versions generalizing m with
  | nil => simp
  | cons a t ih =>
    rw [List.foldl_cons, ih, mem_classify_bucket]
    constructor
    · rintro ((h | ⟨h1, nr, h2, h3, h4⟩) | ⟨rs, nr, h1, h2⟩)
      · exact Or.inl h
      · subst h1
        exact Or.inr ⟨a.2, nr, by simp, h2, h3, h4⟩
      · exact Or.inr ⟨rs, nr, by simp [h1], h2⟩
    · rintro (h | ⟨rs, nr, h1, h2, h3, h4⟩)
      · exact Or.inl (Or.inl h)
      · rcases List.mem_cons.1 h1 with h | h
        · subst h
          exact Or.inl (Or.inr ⟨rfl, nr, h2, h3, h4⟩)
        · exact Or.inr ⟨rs, nr, h, h2, h3, h4⟩

/-- The versions recorded under a key are those of the buckets that hold a resource
with that key of which the predicate holds. -/
theorem mem_classify (isTarget : Resource → String → Bool) (versions : GoMap (GoMap Resource))
    (key v : String) :
    v ∈ mapIndex (classify isTarget versions) key ↔
      ∃ rs nr, (v, rs) ∈ versions ∧ nr ∈ rs ∧ nodeKey nr.2 = key ∧ isTarget nr.2 v = true := by
  unfold classify
  rw [mem_classify_foldl]
  simp [mapIndex, mapLookup]

/-- C6: of the hub predicate and the spoke predicate that `Run` gives to the two
conversion node generators exactly one holds of a resource and a file version.  For
the classifier of the specification run with both over a group, a version is in the
hub entry or in the spoke entry of a key `"<shortGroup>.<kind>"` exactly when a
resource with that key is present in the bucket of that version, and the two entries
share no version when all resources with that key declare the same hub version. -/
theorem C6_hub_spoke_partition (versions : GoMap (GoMap Resource)) (key : String) :
    (∀ c v, spokePredicate c v = !hubPredicate c v) ∧
    (∀ v, (v ∈ mapIndex (classify hubPredicate versions) key ∨
        v ∈ mapIndex (classify spokePredicate versions) key) ↔
      ∃ rs nr, (v, rs) ∈ versions ∧ nr ∈ rs ∧ nodeKey nr.2 = key) ∧
    (∀ hub, (∀ vr ∈ versions, ∀ nr ∈ vr.2, nodeKey nr.2 = key → nr.2.CRDHubVersion = hub) →
      ∀ v, ¬ (v ∈ mapIndex (classify hubPredicate versions) key ∧
        v ∈ mapIndex (classify spokePredicate versions) key)) := by
  have hcompl : ∀ c v, spokePredicate c v = !hubPredicate c v := by
    intro c v
    simp [spokePredicate, hubPredicate, bne]
  refine ⟨hcompl, ?_, ?_⟩
  · intro v
    rw [mem_classify, mem_classify]
    constructor
    · rintro (⟨rs, nr, h1, h2, h3, -⟩ | ⟨rs, nr, h1, h2, h3, -⟩)
      · exact ⟨rs, nr, h1, h2, h3⟩
      · exact ⟨rs, nr, h1, h2, h3⟩
    · rintro ⟨rs, nr, h1, h2, h3⟩
      by_cases hh : hubPredicate nr.2 v = true
      · exact Or.inl ⟨rs, nr, h1, h2, h3, hh⟩
      · exact Or.inr ⟨rs, nr, h1, h2, h3, by rw [hcompl]; simpa using hh⟩
  · intro hub hsame v ⟨hh, hs⟩
    rw [mem_classify] at hh hs
    obtain ⟨rs, nr, h1, h2, h3, h4⟩ := hh
    obtain ⟨rs', nr', h1', h2', h3', h4'⟩ := hs
    have e1 := hsame (v, rs) h1 nr h2 h3
    have e2 := hsame (v, rs') h1' nr' h2' h3'
    simp only [hubPredicate, beq_iff_eq] at h4
    simp only [spokePredicate, bne_iff_ne, ne_eq] at h4'
    exact h4' (by rw [e2, ← e1, h4])

/-- C6, at the group of the sample configuration: `ec2.VPC` has hub `v1beta1` and spoke
`v1beta2`, and `ec2.Subnet` has no spoke entry. -/
theorem C6_hub_spoke_partition_witness :
    mapIndex (classify hubPredicate
      (mapIndex (groupResources sampleEnv sampleProvider) "ec2.aws.upbound.io")) "ec2.VPC"
      = ["v1beta1"] ∧
    mapIndex (classify spokePredicate
      (mapIndex (groupResources sampleEnv sampleProvider) "ec2.aws.upbound.io")) "ec2.VPC"
      = ["v1beta2"] ∧
    mapLookup (classify spokePredicate
      (mapIndex (groupResources sampleEnv sampleProvider) "ec2.aws.upbound.io")) "ec2.Subnet"
      = none ∧
    ∀ v, ¬ (v ∈ mapIndex (classify hubPredicate
        (mapIndex (groupResources sampleEnv sampleProvider) "ec2.aws.upbound.io")) "ec2.VPC" ∧
      v ∈ mapIndex (classify spokePredicate
        (mapIndex (groupResources sampleEnv sampleProvider) "ec2.aws.upbound.io")) "ec2.VPC") :=
  ⟨by decide, by decide, by decide,
    (C6_hub_spoke_partition
      (mapIndex (groupResources sampleEnv sampleProvider) "ec2.aws.upbound.io") "ec2.VPC").2.2
      "v1beta1" (by decide)⟩

/-! ## The API version package list -/

theorem foldl_append_eq {α β : Type} (f : α → List β) (l : List α) (init : List β) :
    l.foldl (fun acc x => acc ++ f x) init = init ++ l.flatMap f := by
  induction l generalizing init with
  | nil => simp
  | cons a t ih => rw [List.foldl_cons, ih, List.flatMap_cons, List.append_assoc]

theorem foldl_append_singleton {α β : Type} (f : α → β) (l : List α) (init : List β) :
    l.foldl (fun acc x => acc ++ [f x]) init = init ++ l.map f := by
  induction l generalizing init with
  | nil => simp
  | cons a t ih => rw [List.foldl_cons, ih, List.map_cons, List.append_assoc]; rfl

theorem conversionPackagesOf_eq {σ : Type} (env : Env σ) (base : String)
    (spokeNodes hubNodes : NodeVersionsMap) (l : List String) (r : Resource) :
    conversionPackagesOf env base spokeNodes hubNodes l r =
      l ++ conversionPkgsOf env base spokeNodes hubNodes r := by
  unfold conversionPackagesOf conversionPkgsOf
  simp only [foldl_append_singleton, List.append_assoc]

theorem conversionPackages_eq {σ : Type} (env : Env σ) (base : String)
    (spokeNodes hubNodes : NodeVersionsMap) (t : GroupingTable) (l : List String) :
    conversionPackages env base spokeNodes hubNodes t l =
      l ++ (tableResources t).flatMap (conversionPkgsOf env base spokeNodes hubNodes) := by
  unfold conversionPackages tableResources
  simp only [conversionPackagesOf_eq]
  have h3 : ∀ (rs : GoMap Resource) (l : List String),
      rs.foldl (fun l nr => l ++ conversionPkgsOf env base spokeNodes hubNodes nr.2) l =
        l ++ (rs.map Prod.snd).flatMap (conversionPkgsOf env base spokeNodes hubNodes) := by
    intro rs l
    rw [foldl_append_eq]
    simp [List.flatMap_map]
  simp only [h3]
  have h2 : ∀ (vs : GoMap (GoMap Resource)) (l : List String),
      vs.foldl (fun l vr =>
        l ++ (vr.2.map Prod.snd).flatMap (conversionPkgsOf env base spokeNodes hubNodes)) l =
        l ++ (vs.flatMap fun vr => vr.2.map Prod.snd).flatMap
          (conversionPkgsOf env base spokeNodes hubNodes) := by
    intro vs l
    rw [foldl_append_eq]
    simp [List.flatMap_assoc]
  simp only [h2]
  rw [foldl_append_eq]
  simp [List.flatMap_assoc]

/-! ## The order of the aggregation loops -/

/-- A `range` visits every entry of the map once, whatever order it draws. -/
theorem rangeOrder_perm {V : Type} (rank : String → Nat) (m : GoMap V) :
    (rangeOrder rank m).Perm m :=
  List.perm_insertionSort _ m

theorem mem_rangeOrder {V : Type} (rank : String → Nat) (m : GoMap V) (x : String × V) :
    x ∈ rangeOrder rank m ↔ x ∈ m :=
  (rangeOrder_perm rank m).mem_iff

/-- With equal ranks a `range` visits the map in the order of its list. -/
theorem rangeOrder_const {V : Type} (n : Nat) (m : GoMap V) :
    rangeOrder (fun _ => n) m = m := by
  unfold rangeOrder
  induction m with
  | nil => rfl
  | cons a t ih =>
    show List.orderedInsert _ a (List.insertionSort _ t) = a :: t
    rw [ih]
    cases t with
    | nil => rfl
    | cons b t => simp [List.orderedInsert]

theorem exists_rank {V : Type} (l : GoMap V) (hk : (l.map Prod.fst).Nodup) :
    ∃ rank : String → Nat, l.Pairwise fun a b => rank a.1 < rank b.1 := by
  induction l with
  | nil => exact ⟨fun _ => 0, List.Pairwise.nil⟩
  | cons a t ih =>
    rw [List.map_cons, List.nodup_cons] at hk
    obtain ⟨rank, hr⟩ := ih hk.2
    have hne : ∀ b ∈ t, b.1 ≠ a.1 := fun b hb h =>
      hk.1 (List.mem_map.2 ⟨b, hb, h⟩)
    refine ⟨fun k => if k = a.1 then 0 else rank k + 1, List.pairwise_cons.2 ⟨?_, ?_⟩⟩
    · intro b hb
      simp [hne b hb]
    · refine hr.imp_of_mem ?_
      intro x y hx hy hxy
      simp [hne x hx, hne y hy, hxy]

/-- Every order of a map with pairwise distinct keys is the order that some ranks
draw: `rangeOrder` leaves the order of a `range` as free as Go does. -/
theorem rangeOrder_reaches {V : Type} (m m' : GoMap V) (hp : m'.Perm m)
    (hk : (m.map Prod.fst).Nodup) : ∃ rank, rangeOrder rank m = m' := by
  have hk' : (m'.map Prod.fst).Nodup := ((hp.map Prod.fst).nodup_iff).2 hk
  obtain ⟨rank, hr⟩ := exists_rank m' hk'
  refine ⟨rank, ?_⟩
  have hs : (rangeOrder rank m).Pairwise fun a b => rank a.1 ≤ rank b.1 := by
    haveI : IsTotal (String × V) (fun a b => rank a.1 ≤ rank b.1) :=
      ⟨fun a b => Nat.le_total _ _⟩
    haveI : IsTrans (String × V) (fun a b => rank a.1 ≤ rank b.1) :=
      ⟨fun a b c h1 h2 => Nat.le_trans h1 h2⟩
    exact List.sorted_insertionSort _ m
  have hs' : m'.Pairwise fun a b => rank a.1 ≤ rank b.1 := hr.imp Nat.le_of_lt
  have hne : m'.Pairwise fun a b => rank a.1 ≠ rank b.1 := hr.imp Nat.ne_of_lt
  refine List.Perm.eq_of_sorted ?_ hs hs' ((rangeOrder_perm rank m).trans hp.symm)
  intro a b ha hb hab hba
  by_contra hne'
  have ha' : a ∈ m' := hp.symm.subset ((mem_rangeOrder rank m a).1 ha)
  exact List.Pairwise.forall (fun x y h => Ne.symm h) hne ha' hb hne' (Nat.le_antisymm hab hba)

/-- The loops of lines 162-164 visit every resource of the table once, whatever
orders they draw. -/
theorem tableResources_aggregationTable {σ : Type} (env : Env σ) (outer : String)
    (t : GroupingTable) :
    (tableResources (aggregationTable env outer t)).Perm (tableResources t) := by
  unfold tableResources aggregationTable
  rw [List.flatMap_map]
  refine (List.Perm.flatMap_left _ ?_).trans (List.Perm.flatMap_right _ (rangeOrder_perm _ _))
  intro gv _
  rw [List.flatMap_map]
  refine (List.Perm.flatMap_left _ ?_).trans (List.Perm.flatMap_right _ (rangeOrder_perm _ _))
  intro vr _
  exact (rangeOrder_perm _ _).map _

theorem mem_tableResources_aggregationTable {σ : Type} (env : Env σ) (outer : String)
    (t : GroupingTable) (r : Resource) :
    r ∈ tableResources (aggregationTable env outer t) ↔ r ∈ tableResources t :=
  (tableResources_aggregationTable env outer t).mem_iff

/-- When the loops of lines 162-164 draw the order of the lists, they visit the table
as it is. -/
theorem aggregationTable_default {σ : Type} (env : Env σ) (outer : String) (t : GroupingTable)
    (hg : env.rangeGroups = fun _ _ => 0) (hv : env.rangeVersions = fun _ _ _ => 0)
    (hr : env.rangeResources = fun _ _ _ _ => 0) : aggregationTable env outer t = t := by
  unfold aggregationTable
  rw [hg, hv, hr]
  simp only [rangeOrder_const]
  simp

theorem processResource_api {σ : Type} (env : Env σ) (pc : Provider)
    (rootDir group shortGroup version : String) (resources : GoMap Resource)
    (acc : List (Resource × String) × RunState σ) (name : String) :
    Outcome.Sat (fun acc' => acc'.2.apiVersionPkgList = acc.2.apiVersionPkgList) (fun _ => True)
      (processResource env pc rootDir group shortGroup version resources acc name) := by
  unfold processResource
  simp only []
  split
  · trivial
  · rename_i a st1 h1
    have f1 := invoke_ok h1
    split
    · trivial
    · rename_i p st2 h2
      have f2 := invoke_ok h2
      split
      · trivial
      · rename_i u st4 h3
        have f3 := invoke_ok h3
        simp only [Outcome.Sat]
        rw [f3.2.2.1]
        simp only []
        rw [f2.2.2.1, f1.2.2.1]

theorem processVersion_api {σ : Type} (env : Env σ) (pc : Provider)
    (rootDir group shortGroup : String) (versions : GoMap (GoMap Resource)) (st : RunState σ)
    (entry : String × GoMap Resource) :
    Outcome.Sat
      (fun st' => st'.apiVersionPkgList =
        st.apiVersionPkgList ++ [env.versionPackagePath rootDir pc.ModulePath group entry.1])
      (fun _ => True)
      (processVersion env pc rootDir group shortGroup versions st entry) := by
  unfold processVersion
  simp only []
  split
  · trivial
  · rename_i u st1 h1
    have f1 := invoke_ok h1
    have loop := foldlM_sat
      (processResource env pc rootDir group shortGroup entry.1 entry.2)
      (fun _ (b : List (Resource × String) × RunState σ) =>
        b.2.apiVersionPkgList = st1.apiVersionPkgList) (fun _ => True)
      (sortedResources entry.2) ([], st1) rfl (by
        intro done x rest b _ hb
        exact (processResource_api env pc rootDir group shortGroup entry.1 entry.2 b x).imp
          (fun a ha => by show a.2.apiVersionPkgList = _; rw [ha, hb]) (fun _ _ => trivial))
    split
    · trivial
    · rename_i tf st2 h2
      rw [h2] at loop
      simp only [Outcome.Sat] at loop
      split
      · trivial
      · rename_i u3 st3 h3
        have f3 := invoke_ok h3
        split
        · trivial
        · rename_i u4 st4 h4
          have f4 := invoke_ok h4
          simp only [Outcome.Sat]
          rw [f4.2.2.1, f3.2.2.1, loop, f1.2.2.1]

theorem isConversion_skeleton (c : Call) : c.skeleton.isConversion = c.isConversion := by
  cases c <;> rfl

theorem versionCalls_not_conversion {σ : Type} (env : Env σ) (pc : Provider)
    (rootDir group : String) (versions : GoMap (GoMap Resource)) :
    ∀ c ∈ versions.flatMap (versionCalls env pc rootDir group), c.isConversion = false := by
  intro c hc
  simp only [List.mem_flatMap, versionCalls, resourceCalls, List.mem_append,
    List.mem_cons, List.mem_singleton] at hc
  obtain ⟨vr, -, h⟩ := hc
  rcases h with (h | ⟨n, -, h⟩) | h
  · simp at h
    subst h; rfl
  · simp at h
    rcases h with h | h | h <;> (subst h; rfl)
  · simp at h
    rcases h with h | h <;> (subst h; rfl)

/-- What a successful iteration of the loop over the groups adds to the list and to
the log: the package of every version of the group, then the conversion packages of
every resource of the table, in the order in which the loops of lines 162-164 visit
it, for the node maps that the two conversion generators of the group returned. -/
theorem processGroup_api {σ : Type} (env : Env σ) (pc : Provider) (rootDir : String)
    (resourcesGroups : GroupingTable) (st : RunState σ) (entry : String × GoMap (GoMap Resource)) :
    Outcome.Sat
      (fun st' => ∃ hub spoke evs,
        st'.log = st.log ++ evs ++
          [⟨.conversionHubGenerate entry.1, .ok (.nodes hub)⟩,
           ⟨.conversionSpokeGenerate entry.1, .ok (.nodes spoke)⟩] ∧
        (∀ e ∈ evs, e.call.isConversion = false) ∧
        st'.apiVersionPkgList = st.apiVersionPkgList ++
          entry.2.map (fun vr => env.versionPackagePath rootDir pc.ModulePath entry.1 vr.1) ++
          (tableResources (aggregationTable env entry.1 resourcesGroups)).flatMap
            (conversionPkgsOf env
              (env.filepathJoin [pc.ModulePath, "apis", splitFirst entry.1]) spoke hub))
      (fun _ => True)
      (processGroup env pc rootDir resourcesGroups st entry) := by
  unfold processGroup
  simp only []
  have steps := foldlM_steps env (fun (b : RunState σ) => b)
    (processVersion env pc rootDir entry.1 (splitFirst entry.1) entry.2)
    (versionCalls env pc rootDir entry.1) entry.2 st
    (fun b x _ => processVersion_steps env pc rootDir entry.1 entry.2 b x)
  have api := foldlM_sat
    (processVersion env pc rootDir entry.1 (splitFirst entry.1) entry.2)
    (fun done (b : RunState σ) => b.apiVersionPkgList = st.apiVersionPkgList ++
      done.map (fun vr => env.versionPackagePath rootDir pc.ModulePath entry.1 vr.1))
    (fun _ => True) entry.2 st (by simp) (by
      intro done x rest b _ hb
      exact (processVersion_api env pc rootDir entry.1 (splitFirst entry.1) entry.2 b x).imp
        (fun a ha => by show a.apiVersionPkgList = _; rw [ha, hb]; simp) (fun _ _ => trivial))
  split
  · trivial
  · rename_i st1 h1
    rw [h1] at steps api
    simp only [Outcome.Sat] at steps api
    obtain ⟨evs, hE, -, hsk⟩ := steps
    split
    · trivial
    · rename_i hub st2 h2
      have f2 := invoke_ok h2
      split
      · trivial
      · rename_i spoke st3 h3
        have f3 := invoke_ok h3
        simp only [Outcome.Sat]
        refine ⟨hub, spoke, evs, ?_, ?_, ?_⟩
        · rw [f3.2.1, f2.2.1, hE.log]
          simp
        · intro e he
          have := versionCalls_not_conversion env pc rootDir entry.1 entry.2 e.call.skeleton
            (by rw [← hsk]; exact List.mem_map.2 ⟨e, he, rfl⟩)
          rw [isConversion_skeleton] at this
          exact this
        · rw [conversionPackages_eq, f3.2.2.1, f2.2.2.1, api]

theorem runGoimports_api {σ : Type} (env : Env σ) (rootDir folder : String) (st : RunState σ) :
    Outcome.Sat
      (fun st' => st'.apiVersionPkgList = st.apiVersionPkgList ∧
        ∃ e, st'.log = st.log ++ [e] ∧ e.call.isFinal = true)
      (fun _ => True) (runGoimports env rootDir folder st) := by
  unfold runGoimports
  simp only []
  split
  · trivial
  · exact ⟨rfl, _, rfl, rfl⟩

/-- The final steps leave the list as it is and hand it to registration generation. -/
theorem finish_api {σ : Type} (env : Env σ) (pc : Provider) (rootDir : String)
    (st : RunState σ) :
    Outcome.Sat
      (fun st' => st'.apiVersionPkgList = st.apiVersionPkgList ∧
        ∃ evs, st'.log = st.log ++ evs ∧ (∀ e ∈ evs, e.call.isFinal = true) ∧
          ∃ e ∈ evs, e.call = .registerGenerate st.apiVersionPkgList ∧ e.failed = false)
      (fun _ => True) (finish env pc rootDir st) := by
  unfold finish
  split
  · trivial
  · rename_i u1 st1 h1
    have f1 := invoke_ok h1
    split
    · trivial
    · rename_i u2 st2 h2
      have f2 := invoke_ok h2
      split
      · trivial
      · rename_i u3 st3 h3
        have f3 := invoke_ok h3
        have g1 := runGoimports_api env rootDir "apis" st3
        split
        · trivial
        · rename_i st4 h4
          rw [h4] at g1
          obtain ⟨a4, e4, l4, fin4⟩ := g1
          have g2 := runGoimports_api env rootDir "internal" st4
          split
          · trivial
          · rename_i st5 h5
            rw [h5] at g2
            obtain ⟨a5, e5, l5, fin5⟩ := g2
            simp only [Outcome.Sat]
            refine ⟨by rw [a5, a4, f3.2.2.1, f2.2.2.1, f1.2.2.1], ?_⟩
            refine ⟨[⟨.storeExamples, .ok Reply.done⟩,
              ⟨.registerGenerate st1.apiVersionPkgList, .ok Reply.done⟩,
              ⟨.providerGenerate st2.controllerPkgMap pc.MainTemplate, .ok Reply.done⟩, e4, e5],
              ?_, ?_, ?_⟩
            · rw [l5, l4, f3.2.1, f2.2.1, f1.2.1]
              simp
            · intro e he
              simp only [List.mem_cons, List.mem_singleton, List.not_mem_nil, or_false] at he
              rcases he with h | h | h | h | h
              · subst h; rfl
              · subst h; rfl
              · subst h; rfl
              · subst h; exact fin4
              · subst h; exact fin5
            · refine ⟨⟨.registerGenerate st1.apiVersionPkgList, .ok Reply.done⟩, by simp, ?_, rfl⟩
              rw [f1.2.2.1]

theorem apiInv_start {σ : Type} (env : Env σ) (pc : Provider) (rootDir : String) (w1 : σ) :
    ApiInv env pc rootDir [] (startState env pc w1) := by
  refine ⟨⟨[], ?_⟩, by simp, by simp, ?_⟩
  · simp only [startState, seedState, baseAPIVersionPkgs, List.append_nil]
    rw [foldl_append_singleton]
    rfl
  · intro ev hev g nvm hcall
    simp only [startState, seedState, List.mem_singleton] at hev
    subst hev
    rcases hcall with h | h <;> cases h

theorem apiInv_step {σ : Type} (env : Env σ) (pc : Provider) (rootDir : String)
    (done : GroupingTable) (st : RunState σ) (entry : String × GoMap (GoMap Resource))
    (h : ApiInv env pc rootDir done st) :
    Outcome.Sat (ApiInv env pc rootDir (done ++ [entry])) (fun _ => True)
      (processGroup env pc rootDir (groupResources env pc) st entry) := by
  refine (processGroup_api env pc rootDir (groupResources env pc) st entry).imp ?_
    (fun _ _ => trivial)
  rintro st' ⟨hub, spoke, evs, hlog, hconv, hapi⟩
  obtain ⟨⟨rest, h1⟩, h2, h3, h4⟩ := h
  have hmono : ∀ x, x ∈ st.apiVersionPkgList → x ∈ st'.apiVersionPkgList := by
    intro x hx
    rw [hapi]
    simp [hx]
  refine ⟨⟨?_, ?_⟩, ?_, ?_, ?_⟩
  · exact rest ++ entry.2.map
      (fun vr => env.versionPackagePath rootDir pc.ModulePath entry.1 vr.1) ++
      (tableResources (aggregationTable env entry.1 (groupResources env pc))).flatMap
        (conversionPkgsOf env
          (env.filepathJoin [pc.ModulePath, "apis", splitFirst entry.1]) spoke hub)
  · rw [hapi, h1]
    simp
  · intro gv hgv vr hvr
    rcases List.mem_append.1 hgv with hg | hg
    · exact hmono _ (h2 gv hg vr hvr)
    · simp only [List.mem_singleton] at hg
      subst hg
      rw [hapi]
      apply List.mem_append_left
      apply List.mem_append_right
      exact List.mem_map.2 ⟨vr, hvr, rfl⟩
  · intro gv hgv
    rcases List.mem_append.1 hgv with hg | hg
    · obtain ⟨a, b, ha, hb⟩ := h3 gv hg
      exact ⟨a, b, by rw [hlog]; simp [ha], by rw [hlog]; simp [hb]⟩
    · simp only [List.mem_singleton] at hg
      subst hg
      exact ⟨hub, spoke, by rw [hlog]; simp, by rw [hlog]; simp⟩
  · intro ev hev g nvm hcall hres r hr sv hsv
    rw [hlog] at hev
    simp only [List.mem_append, List.mem_cons, List.mem_singleton, List.not_mem_nil,
      or_false] at hev
    rcases hev with (hev | hev) | hev | hev
    · exact hmono _ (h4 ev hev g nvm hcall hres r hr sv hsv)
    · have := hconv ev hev
      rcases hcall with hc | hc <;> (rw [hc] at this; cases this)
    · subst hev
      simp only [Event.mk.injEq, Call.conversionHubGenerate.injEq, Except.ok.injEq,
        Reply.nodes.injEq] at hcall hres
      rcases hcall with hc | hc
      · subst hc
        subst hres
        rw [hapi]
        apply List.mem_append_right
        refine List.mem_flatMap.2
          ⟨r, (mem_tableResources_aggregationTable env entry.1 _ r).2 hr, ?_⟩
        unfold conversionPkgsOf
        apply List.mem_append_right
        exact List.mem_map.2 ⟨sv, hsv, rfl⟩
      · cases hc
    · subst hev
      simp only [Except.ok.injEq, Reply.nodes.injEq] at hres
      rcases hcall with hc | hc
      · cases hc
      · simp only [Call.conversionSpokeGenerate.injEq] at hc
        subst hc
        subst hres
        rw [hapi]
        apply List.mem_append_right
        refine List.mem_flatMap.2
          ⟨r, (mem_tableResources_aggregationTable env entry.1 _ r).2 hr, ?_⟩
        unfold conversionPkgsOf
        apply List.mem_append_left
        exact List.mem_map.2 ⟨sv, hsv, rfl⟩

theorem isConversion_of_isFinal (c : Call) (h : c.isFinal = true) : c.isConversion = false := by
  cases c <;> first | rfl | cases h

/-- On a successful run the invariant holds of the final state for all groups of the
table, and the final list is the one handed to registration generation. -/
theorem Run_api {σ : Type} (env : Env σ) (pc : Provider) (rootDir : String) (w : σ)
    (st : RunState σ) (hrun : Run env pc rootDir w = .ok st) :
    ApiInv env pc rootDir (groupResources env pc) st ∧
    ∃ e ∈ st.log, e.call = .registerGenerate st.apiVersionPkgList ∧ e.failed = false := by
  unfold Run at hrun
  simp only [] at hrun
  split at hrun
  · cases hrun
  · rename_i u st1 h1
    have f := invoke_ok h1
    have hst1 : st1 = ⟨st1.world, [⟨.setReferenceTypes, .ok Reply.done⟩], [], [], 0, none⟩ := by
      cases st1
      simp at f
      simp [f]
    have hstart : seedState env pc st1 = startState env pc st1.world := by
      unfold startState
      rw [← hst1]
    rw [hstart] at hrun
    have loop := foldlM_sat (processGroup env pc rootDir (groupResources env pc))
      (ApiInv env pc rootDir) (fun _ => True) (groupResources env pc)
      (startState env pc st1.world) (apiInv_start env pc rootDir st1.world)
      (fun done x rest b _ hb => apiInv_step env pc rootDir done b x hb)
    split at hrun
    · cases hrun
    · rename_i st2 h2
      rw [h2] at loop
      simp only [Outcome.Sat] at loop
      have fin := finish_api env pc rootDir st2
      rw [hrun] at fin
      obtain ⟨hapi, evs, hlog, hfinal, e, he, hcall, hok⟩ := fin
      obtain ⟨⟨rest, i1⟩, i2, i3, i4⟩ := loop
      refine ⟨⟨⟨rest, by rw [hapi, i1]⟩, ?_, ?_, ?_⟩, e, by rw [hlog]; simp [he], ?_, hok⟩
      · intro gv hgv vr hvr
        rw [hapi]
        exact i2 gv hgv vr hvr
      · intro gv hgv
        obtain ⟨a, b, ha, hb⟩ := i3 gv hgv
        exact ⟨a, b, by rw [hlog]; simp [ha], by rw [hlog]; simp [hb]⟩
      · intro ev hev g nvm hcall' hres r hr sv hsv
        rw [hapi]
        rw [hlog] at hev
        rcases List.mem_append.1 hev with hev | hev
        · exact i4 ev hev g nvm hcall' hres r hr sv hsv
        · have := isConversion_of_isFinal _ (hfinal ev hev)
          rcases hcall' with hc | hc <;> (rw [hc] at this; cases this)
      · rw [hcall, hapi]

theorem mem_tableResources (t : GroupingTable) (g v n : String) (vs : GoMap (GoMap Resource))
    (rs : GoMap Resource) (r : Resource) (h1 : (g, vs) ∈ t) (h2 : (v, rs) ∈ vs)
    (h3 : (n, r) ∈ rs) : r ∈ tableResources t := by
  unfold tableResources
  refine List.mem_flatMap.2 ⟨_, h1, List.mem_flatMap.2 ⟨_, h2, List.mem_map.2 ⟨_, h3, rfl⟩⟩⟩

/-- C9: on a successful run the API version package list, which is the list handed
to registration generation, begins with the base API version packages joined to the
module path, in their order; holds the package path of the version generator of every
bucket of the grouping table; and holds, for every node map returned by the hub or the
spoke generator of a group (each group has both) and every version that the map
records under the key `"<shortGroup>.<kind>"` of a resource of the run, the join of
`<modulePath>/apis/<first label of the group>` with that version. -/
theorem C9_api_version_packages {σ : Type} (env : Env σ) (pc : Provider) (rootDir : String)
    (w : σ) (st : RunState σ) (hkeys : (mapKeys pc.Resources).Nodup)
    (hrun : Run env pc rootDir w = .ok st) :
    (∃ rest, st.apiVersionPkgList = baseAPIVersionPkgs env pc ++ rest) ∧
    (∃ e ∈ st.log, e.call = .registerGenerate st.apiVersionPkgList ∧ e.failed = false) ∧
    (∀ gv ∈ groupResources env pc, ∀ vr ∈ gv.2,
      env.versionPackagePath rootDir pc.ModulePath gv.1 vr.1 ∈ st.apiVersionPkgList) ∧
    (∀ gv ∈ groupResources env pc, ∃ hub spoke,
      (⟨.conversionHubGenerate gv.1, .ok (.nodes hub)⟩ : Event) ∈ st.log ∧
      (⟨.conversionSpokeGenerate gv.1, .ok (.nodes spoke)⟩ : Event) ∈ st.log) ∧
    (∀ ev ∈ st.log, ∀ g nvm,
      (ev.call = .conversionHubGenerate g ∨ ev.call = .conversionSpokeGenerate g) →
      ev.result = .ok (.nodes nvm) →
      ∀ name r, (name, r) ∈ pc.Resources → ∀ sv ∈ mapIndex nvm (nodeKey r),
        env.filepathJoin [env.filepathJoin [pc.ModulePath, "apis", splitFirst g], sv]
          ∈ st.apiVersionPkgList) := by
  obtain ⟨⟨h1, h2, h3, h4⟩, h5⟩ := Run_api env pc rootDir w st hrun
  refine ⟨h1, h5, h2, h3, ?_⟩
  intro ev hev g nvm hcall hres name r hr sv hsv
  have hl := (tableLookup_groupFold env pc pc.Resources hkeys _ _ _ _).2 ⟨hr, rfl, rfl⟩
  obtain ⟨vs, rs, m1, m2, m3⟩ :=
    (tableLookup_iff_mem _ (groupFold_wf env pc pc.Resources) _ _ _ _).1 hl
  exact h4 ev hev g nvm hcall hres r (mem_tableResources _ _ _ _ _ _ _ m1 m2 m3) sv hsv

/-- C9, at the sample configuration: the list handed to registration generation. -/
theorem C9_api_version_packages_witness :
    (mapKeys sampleProvider.Resources).Nodup ∧
    (Run sampleEnv sampleProvider "/out" ()).state.apiVersionPkgList =
      ["github.com/upbound/provider-aws/apis/v1beta1",
       "github.com/upbound/provider-aws/apis/ec2/v1beta1",
       "github.com/upbound/provider-aws/apis/ec2/v1beta2",
       "github.com/upbound/provider-aws/apis/ec2/v1beta2",
       "github.com/upbound/provider-aws/apis/ec2/v1beta1",
       "github.com/upbound/provider-aws/apis/ec2/v1beta1",
       "github.com/upbound/provider-aws/apis/ec2/v1beta2",
       "github.com/upbound/provider-aws/apis/ec2/v1beta1"] ∧
    ∃ rest, (Run sampleEnv sampleProvider "/out" ()).state.apiVersionPkgList =
      baseAPIVersionPkgs sampleEnv sampleProvider ++ rest :=
  ⟨by decide, by decide,
    (C9_api_version_packages sampleEnv sampleProvider "/out" ()
      (Run sampleEnv sampleProvider "/out" ()).state (by decide) rfl).1⟩

/-! ## The keys of the generated controller packages -/

theorem ctrlPkgs_eq_ctrlReply {σ : Type} (env : Env σ) (k : String) (e : Event) :
    Event.ctrlPkgs env k e = (e.ctrlReply.toList).flatMap fun gp =>
      (if splitFirst gp.1 = k then [gp.2] else []) ++
        (if env.PackageNameMonolith = k then [gp.2] else []) := by
  obtain ⟨c, r⟩ := e
  cases c with
  | ctrlGenerate g v n wp fp =>
    cases r with
    | error err => rfl
    | ok a => cases a <;> simp [Event.ctrlPkgs, Event.ctrlReply]
  | _ => rfl

theorem genPkgs_eq_ctrlReplies {σ : Type} (env : Env σ) (k : String) (log : List Event) :
    genPkgs env k log = (ctrlReplies log).flatMap fun gp =>
      (if splitFirst gp.1 = k then [gp.2] else []) ++
        (if env.PackageNameMonolith = k then [gp.2] else []) := by
  induction log with
  | nil => rfl
  | cons e t ih =>
    have h := ctrlPkgs_eq_ctrlReply env k e
    simp only [genPkgs, ctrlReplies] at ih ⊢
    rw [List.flatMap_cons, ih, h]
    cases hr : e.ctrlReply with
    | none => simp [List.filterMap_cons, hr]
    | some gp => simp [List.filterMap_cons, hr]

theorem flatMap_key_filter (k mono : String) (hk : ¬ mono = k) (l : List (String × String)) :
    (l.flatMap fun gp => (if splitFirst gp.1 = k then [gp.2] else []) ++
        (if mono = k then [gp.2] else [])) =
      (l.filter fun gp => decide (splitFirst gp.1 = k)).map Prod.snd := by
  induction l with
  | nil => rfl
  | cons a t ih =>
    rw [List.flatMap_cons, ih]
    by_cases h : splitFirst a.1 = k <;> simp [h, hk, List.filter_cons]

theorem flatMap_monolith (mono : String) (l : List (String × String))
    (h : ∀ gp ∈ l, splitFirst gp.1 ≠ mono) :
    (l.flatMap fun gp => (if splitFirst gp.1 = mono then [gp.2] else []) ++
        (if mono = mono then [gp.2] else [])) = l.map Prod.snd := by
  induction l with
  | nil => rfl
  | cons a t ih =>
    rw [List.flatMap_cons, ih (fun gp hgp => h gp (by simp [hgp]))]
    have := h a (by simp)
    simp [this]

/-- C11, refuted as stated: for a resource with short group `EC2` the generated
controller package is filed under the key `ec2` and nothing is filed under `EC2`; for a
resource without short group it is filed under `aws`, the first label of the root
group, and nothing is filed under the empty key. -/
theorem C11_controller_key_counterexample :
    mapIndex (Run sampleEnv mixedCaseProvider "/out" ()).state.controllerPkgMap "EC2" = [] ∧
    mapIndex (Run sampleEnv mixedCaseProvider "/out" ()).state.controllerPkgMap "ec2"
      = ["internal/controller/ec2/vpc"] ∧
    mapIndex (Run sampleEnv mixedCaseProvider "/out" ()).state.controllerPkgMap "" = [] ∧
    mapIndex (Run sampleEnv mixedCaseProvider "/out" ()).state.controllerPkgMap "aws"
      = ["internal/controller/aws/providerconfig"] ∧
    ctrlReplies (Run sampleEnv mixedCaseProvider "/out" ()).state.log
      = [("ec2.aws.upbound.io", "internal/controller/ec2/vpc"),
         ("aws.upbound.io", "internal/controller/aws/providerconfig")] ∧
    (Run sampleEnv mixedCaseProvider "/out" ()).state.reported = some 2 := by
  decide

/-- C11, amended: when `SetReferenceTypes` has succeeded, in the state a run ends in
the sequence of a key other than the monolithic key is the seeded sequence followed by
the locations returned by the successful controller generations whose group has that
key as its first label `strings.Split(group, ".")[0]`, each once and in the order of
generation; and the sequence of the monolithic key is the seeded sequence followed by
the location returned by every successful controller generation, each once, when no
group has the monolithic key as its first label. -/
theorem C11_controller_key_amended {σ : Type} (env : Env σ) (pc : Provider) (rootDir : String)
    (w w1 : σ) (hset : env.setReferenceTypes w pc.Resources = .ok ((), w1)) :
    (∀ k, k ≠ env.PackageNameMonolith →
      mapIndex (Run env pc rootDir w).state.controllerPkgMap k =
        mapIndex (seedLegacyControllers env pc (seedControllerMap env pc [])) k ++
          ((ctrlReplies (Run env pc rootDir w).state.log).filter fun gp =>
            decide (splitFirst gp.1 = k)).map Prod.snd) ∧
    ((∀ gp ∈ ctrlReplies (Run env pc rootDir w).state.log,
        splitFirst gp.1 ≠ env.PackageNameMonolith) →
      mapIndex (Run env pc rootDir w).state.controllerPkgMap env.PackageNameMonolith =
        mapIndex (seedLegacyControllers env pc (seedControllerMap env pc []))
          env.PackageNameMonolith ++
          (ctrlReplies (Run env pc rootDir w).state.log).map Prod.snd) := by
  have hp : ∀ k, mapIndex (Run env pc rootDir w).state.controllerPkgMap k =
      mapIndex (seedLegacyControllers env pc (seedControllerMap env pc [])) k ++
        genPkgs env k (Run env pc rootDir w).state.log := by
    rcases Run_pkgs env pc rootDir w with ⟨-, err, herr⟩ | ⟨w2, -, h⟩
    · rw [hset] at herr
      cases herr
    · exact h
  constructor
  · intro k hk
    rw [hp k, genPkgs_eq_ctrlReplies, flatMap_key_filter k _ (fun e => hk e.symm)]
  · intro hne
    rw [hp, genPkgs_eq_ctrlReplies, flatMap_monolith _ _ hne]

/-- C11 amended, at the configuration with the short groups `EC2` and empty. -/
theorem C11_controller_key_amended_witness :
    sampleEnv.setReferenceTypes () mixedCaseProvider.Resources = .ok ((), ()) ∧
    mapIndex (Run sampleEnv mixedCaseProvider "/out" ()).state.controllerPkgMap "monolith" =
      mapIndex (seedLegacyControllers sampleEnv mixedCaseProvider
          (seedControllerMap sampleEnv mixedCaseProvider [])) "monolith" ++
        (ctrlReplies (Run sampleEnv mixedCaseProvider "/out" ()).state.log).map Prod.snd :=
  ⟨rfl, (C11_controller_key_amended sampleEnv mixedCaseProvider "/out" () () rfl).2
    (by decide)⟩

/-! ## The arguments of controller generation -/

/-- The calls of a run, without the arguments that depend on replies, are an initial
part of the calls of a run without failures, and all of them when the run succeeds. -/
theorem Run_calls_initial {σ : Type} (env : Env σ) (pc : Provider) (rootDir : String) (w : σ) :
    (∃ rest, (Run env pc rootDir w).state.log.map (fun e => e.call.skeleton) ++ rest
      = runCalls env pc rootDir) ∧
    (∀ st, Run env pc rootDir w = .ok st →
      st.log.map (fun e => e.call.skeleton) = runCalls env pc rootDir) := by
  rcases Run_steps env pc rootDir w with ⟨e, he, -, hlog, -⟩ | ⟨w1, -, hsat⟩
  · rw [he]
    refine ⟨⟨mainCalls env pc rootDir, ?_⟩, fun st h => by cases h⟩
    simp [Outcome.state, hlog, runCalls, Call.skeleton]
  · cases hrun : Run env pc rootDir w with
    | error e =>
      rw [hrun] at hsat
      obtain ⟨oks, c, hE, -, ⟨rest, hrest⟩, -⟩ := hsat
      refine ⟨⟨rest, ?_⟩, fun st h => by cases h⟩
      simp only [Outcome.state]
      rw [hE.log]
      simp only [runCalls, ← hrest]
      simp [startState, seedState, Call.skeleton]
    | ok st =>
      rw [hrun] at hsat
      obtain ⟨st5, ⟨evs, hE, -, hsk⟩, hst⟩ := hsat
      have hl : st.log.map (fun e => e.call.skeleton) = runCalls env pc rootDir := by
        rw [hst]
        simp only []
        rw [hE.log]
        simp only [runCalls, ← hsk]
        simp [startState, seedState, Call.skeleton]
      refine ⟨⟨[], ?_⟩, fun st' h => ?_⟩
      · simp [Outcome.state, hl]
      · cases h
        exact hl

theorem skeleton_eq_ctrl (c : Call) (g v n wp fp : String)
    (h : c.skeleton = .ctrlGenerate g v n wp fp) : c = .ctrlGenerate g v n wp fp := by
  cases c <;> first | exact h | cases h

/-- A controller generation call of a run without failures is the call made for a
resource name of a bucket of the table. -/
theorem mem_runCalls_ctrl {σ : Type} (env : Env σ) (pc : Provider) (rootDir : String)
    (g v n wp fp : String) :
    Call.ctrlGenerate g v n wp fp ∈ runCalls env pc rootDir ↔
      ∃ vs rs, (g, vs) ∈ groupResources env pc ∧ (v, rs) ∈ vs ∧ n ∈ sortedResources rs ∧
        wp = env.versionPackagePath rootDir pc.ModulePath g
          (if ((mapLookup rs n).getD default).ControllerReconcileVersion.length ≠ 0
            then ((mapLookup rs n).getD default).ControllerReconcileVersion else v) ∧
        fp = (if pc.FeaturesPackage ≠ "" then env.filepathJoin [pc.ModulePath, pc.FeaturesPackage]
          else "") := by
  simp only [runCalls, mainCalls, finishCalls, groupCalls, versionCalls, resourceCalls,
    List.mem_cons, List.mem_append, List.mem_flatMap, List.mem_singleton, List.not_mem_nil,
    or_false, false_or, Call.ctrlGenerate.injEq, Prod.exists]
  simp only [reduceCtorEq, false_or, or_false, exists_false, and_false]
  constructor
  · rintro ⟨g', vs, hg, (⟨v', rs, hv, n', hn, h1, h2, h3, h4, h5⟩)⟩
    subst h1; subst h2; subst h3
    exact ⟨vs, rs, hg, hv, hn, h4, h5⟩
  · rintro ⟨vs, rs, hg, hv, hn, h4, h5⟩
    exact ⟨g, vs, hg, v, rs, hv, n, hn, rfl, rfl, rfl, h4, h5⟩

theorem string_length_ne_zero (s : String) : s.length ≠ 0 ↔ s ≠ "" := by
  constructor
  · intro h e
    subst e
    exact h rfl
  · intro h e
    apply h
    have : s.data = [] := List.length_eq_zero.1 e
    exact String.ext this

/-- On a successful run no logged call has failed. -/
theorem Run_ok_events {σ : Type} (env : Env σ) (pc : Provider) (rootDir : String) (w : σ)
    (st : RunState σ) (hrun : Run env pc rootDir w = .ok st) : ∀ e ∈ st.log, e.failed = false := by
  rcases Run_steps env pc rootDir w with ⟨e, he, -⟩ | ⟨w1, -, hsat⟩
  · rw [he] at hrun
    cases hrun
  · rw [hrun] at hsat
    obtain ⟨st5, ⟨evs, hE, hok, -⟩, hst⟩ := hsat
    intro e he
    rw [hst] at he
    simp only [] at he
    rw [hE.log] at he
    rcases List.mem_append.1 he with h | h
    · simp [startState, seedState] at h
      subst h
      rfl
    · exact hok e h

/-- The resource behind a name of a bucket of the grouping table. -/
theorem bucket_resource {σ : Type} (env : Env σ) (pc : Provider)
    (hkeys : (mapKeys pc.Resources).Nodup) (g v n : String) (vs : GoMap (GoMap Resource))
    (rs : GoMap Resource) (hg : (g, vs) ∈ groupResources env pc) (hv : (v, rs) ∈ vs)
    (hn : n ∈ sortedResources rs) :
    ∃ r, mapLookup rs n = some r ∧ (n, r) ∈ pc.Resources ∧ g = groupOf env pc r ∧
      v = r.Version := by
  have wf : TableWF (groupResources env pc) := groupFold_wf env pc pc.Resources
  have hn' : n ∈ mapKeys rs := (sortedResources_perm rs).mem_iff.1 hn
  obtain ⟨⟨n', r⟩, hr, rfl⟩ := List.mem_map.1 hn'
  have hl : mapLookup rs n' = some r :=
    mapLookup_of_mem rs ((wf.2 _ hg).2.2 _ hv).2 n' r hr
  have ht := (tableLookup_iff_mem _ wf g v n' r).2 ⟨vs, rs, hg, hv, hr⟩
  have := (tableLookup_groupFold env pc pc.Resources hkeys g v n' r).1 ht
  exact ⟨r, hl, this⟩

/-- C17: every controller generation call of a run is made for an input resource `r`
with its name, group and version; the watched-version package path it passes is the
package path of the version generator for `r.ControllerReconcileVersion` when that is
non-empty and for the version of the bucket otherwise, and the features package path
is empty when `pc.FeaturesPackage` is empty and the join of the module path with it
otherwise.  On a successful run such a call is made for every input resource. -/
theorem C17_watch_and_features {σ : Type} (env : Env σ) (pc : Provider) (rootDir : String)
    (w : σ) (hkeys : (mapKeys pc.Resources).Nodup) :
    (∀ e ∈ (Run env pc rootDir w).state.log, ∀ g v n wp fp,
      e.call = .ctrlGenerate g v n wp fp →
      ∃ r, (n, r) ∈ pc.Resources ∧ g = groupOf env pc r ∧ v = r.Version ∧
        wp = (if r.ControllerReconcileVersion ≠ ""
          then env.versionPackagePath rootDir pc.ModulePath g r.ControllerReconcileVersion
          else env.versionPackagePath rootDir pc.ModulePath g v) ∧
        fp = (if pc.FeaturesPackage = "" then ""
          else env.filepathJoin [pc.ModulePath, pc.FeaturesPackage])) ∧
    (∀ st, Run env pc rootDir w = .ok st → ∀ n r, (n, r) ∈ pc.Resources →
      ∃ e ∈ st.log, e.failed = false ∧
        e.call = .ctrlGenerate (groupOf env pc r) r.Version n
          (if r.ControllerReconcileVersion ≠ ""
            then env.versionPackagePath rootDir pc.ModulePath (groupOf env pc r)
              r.ControllerReconcileVersion
            else env.versionPackagePath rootDir pc.ModulePath (groupOf env pc r) r.Version)
          (if pc.FeaturesPackage = "" then ""
            else env.filepathJoin [pc.ModulePath, pc.FeaturesPackage])) := by
  have hwatch : ∀ (r : Resource) (g v : String),
      env.versionPackagePath rootDir pc.ModulePath g
        (if r.ControllerReconcileVersion.length ≠ 0 then r.ControllerReconcileVersion else v) =
      (if r.ControllerReconcileVersion ≠ ""
        then env.versionPackagePath rootDir pc.ModulePath g r.ControllerReconcileVersion
        else env.versionPackagePath rootDir pc.ModulePath g v) := by
    intro r g v
    by_cases h : r.ControllerReconcileVersion ≠ ""
    · rw [if_pos h, if_pos ((string_length_ne_zero _).2 h)]
    · rw [if_neg h, if_neg (fun h' => h ((string_length_ne_zero _).1 h'))]
  have hfeat : (if pc.FeaturesPackage ≠ "" then env.filepathJoin [pc.ModulePath, pc.FeaturesPackage]
      else "") = (if pc.FeaturesPackage = "" then ""
        else env.filepathJoin [pc.ModulePath, pc.FeaturesPackage]) := by
    by_cases h : pc.FeaturesPackage = "" <;> simp [h]
  constructor
  · intro e he g v n wp fp hcall
    obtain ⟨rest, hrest⟩ := (Run_calls_initial env pc rootDir w).1
    have hmem : Call.ctrlGenerate g v n wp fp ∈ runCalls env pc rootDir := by
      rw [← hrest]
      apply List.mem_append_left
      refine List.mem_map.2 ⟨e, he, ?_⟩
      rw [hcall]
      rfl
    obtain ⟨vs, rs, hg, hv, hn, h4, h5⟩ := (mem_runCalls_ctrl env pc rootDir g v n wp fp).1 hmem
    obtain ⟨r, hl, hr, hgr, hvr⟩ := bucket_resource env pc hkeys g v n vs rs hg hv hn
    refine ⟨r, hr, hgr, hvr, ?_, ?_⟩
    · rw [h4, hl]
      exact hwatch r g v
    · rw [h5, hfeat]
  · intro st hrun n r hr
    have hcalls := (Run_calls_initial env pc rootDir w).2 st hrun
    have wf : TableWF (groupResources env pc) := groupFold_wf env pc pc.Resources
    have ht := (tableLookup_groupFold env pc pc.Resources hkeys _ _ n r).2 ⟨hr, rfl, rfl⟩
    obtain ⟨vs, rs, hg, hv, hnr⟩ := (tableLookup_iff_mem _ wf _ _ n r).1 ht
    have hl : mapLookup rs n = some r := mapLookup_of_mem rs ((wf.2 _ hg).2.2 _ hv).2 n r hnr
    have hn : n ∈ sortedResources rs :=
      (sortedResources_perm rs).mem_iff.2 (List.mem_map.2 ⟨_, hnr, rfl⟩)
    have hmem := (mem_runCalls_ctrl env pc rootDir (groupOf env pc r) r.Version n _ _).2
      ⟨vs, rs, hg, hv, hn, rfl, rfl⟩
    rw [← hcalls] at hmem
    obtain ⟨e, he, hsk⟩ := List.mem_map.1 hmem
    have hc := skeleton_eq_ctrl _ _ _ _ _ _ hsk
    rw [hl] at hc
    simp only [Option.getD_some] at hc
    rw [hwatch, hfeat] at hc
    exact ⟨e, he, Run_ok_events env pc rootDir w st hrun e he, hc⟩

/-- C17, at a run of the sample configuration with a resource that overrides its
reconcile version: the controller of `vpc2` watches the package of `v1beta1`. -/
theorem C17_watch_and_features_witness :
    (mapKeys overrideProvider.Resources).Nodup ∧
    ((Run sampleEnv overrideProvider "/out" ()).state.log.filterMap fun e =>
      match e.call with
      | .ctrlGenerate _ _ n wp fp => some (n, wp, fp)
      | _ => none) =
      [("vpc", "github.com/upbound/provider-aws/apis/ec2/v1beta1",
        "github.com/upbound/provider-aws/internal/features"),
       ("vpc2", "github.com/upbound/provider-aws/apis/ec2/v1beta1",
        "github.com/upbound/provider-aws/internal/features")] ∧
    ∃ e ∈ (Run sampleEnv overrideProvider "/out" ()).state.log, e.failed = false ∧
      e.call = .ctrlGenerate "ec2.aws.upbound.io" "v1beta2" "vpc2"
        "github.com/upbound/provider-aws/apis/ec2/v1beta1"
        "github.com/upbound/provider-aws/internal/features" :=
  ⟨by decide, by decide,
    (C17_watch_and_features sampleEnv overrideProvider "/out" () (by decide)).2
      (Run sampleEnv overrideProvider "/out" ()).state rfl "vpc2"
      ⟨"ec2", "v1beta2", "VPC", "v1beta1", "v1beta1"⟩ (by decide)⟩

/-! ## The API version package list follows the calls -/

theorem apiStep_error {σ : Type} (env : Env σ) (pc : Provider) (rootDir : String)
    (acc : NodeVersionsMap × List String) (c : Call) (err : String) :
    apiStep env pc rootDir acc ⟨c, .error err⟩ = acc := by
  cases c <;> rfl

theorem invoke_error_api {σ α : Type} (env : Env σ) (pc : Provider) (rootDir : String)
    {st : RunState σ} {c : Call} {ctx : String} {toReply : α → Reply}
    {res : Except String (α × σ)} {e : Panic × RunState σ}
    (h : invoke st c ctx toReply res = .error e)
    (hinv : st.apiVersionPkgList = apiReplay env pc rootDir st.log) :
    e.2.apiVersionPkgList = apiReplay env pc rootDir e.2.log := by
  have f := invoke_error h
  rw [f.2.2.2.2.1, f.2.2.1, hinv]
  simp [apiReplay, List.foldl_append, apiStep_error]

/-- A successful call that adds nothing to the list. -/
theorem invoke_ok_api {σ α : Type} (env : Env σ) (pc : Provider) (rootDir : String)
    {st st' : RunState σ} {c : Call} {ctx : String} {toReply : α → Reply}
    {res : Except String (α × σ)} {a : α}
    (h : invoke st c ctx toReply res = .ok (a, st'))
    (hinv : st.apiVersionPkgList = apiReplay env pc rootDir st.log)
    (hc : ∀ acc r, apiStep env pc rootDir acc ⟨c, r⟩ = acc) :
    st'.apiVersionPkgList = apiReplay env pc rootDir st'.log := by
  have f := invoke_ok h
  rw [f.2.2.1, f.2.1, hinv]
  simp [apiReplay, List.foldl_append, hc]

theorem processResource_replay {σ : Type} (env : Env σ) (pc : Provider)
    (rootDir group shortGroup version : String) (resources : GoMap Resource)
    (acc : List (Resource × String) × RunState σ) (name : String)
    (hinv : acc.2.apiVersionPkgList = apiReplay env pc rootDir acc.2.log) :
    Outcome.Sat (fun acc' => acc'.2.apiVersionPkgList = apiReplay env pc rootDir acc'.2.log)
      (fun e => e.2.apiVersionPkgList = apiReplay env pc rootDir e.2.log)
      (processResource env pc rootDir group shortGroup version resources acc name) := by
  unfold processResource
  simp only []
  split
  · rename_i e h1
    exact invoke_error_api env pc rootDir h1 hinv
  · rename_i a st1 h1
    have i1 := invoke_ok_api env pc rootDir h1 hinv (fun _ _ => rfl)
    split
    · rename_i e h2
      exact invoke_error_api env pc rootDir h2 i1
    · rename_i p st2 h2
      have i2 := invoke_ok_api env pc rootDir h2 i1 (fun _ _ => rfl)
      split
      · rename_i e h3
        exact invoke_error_api env pc rootDir h3 i2
      · rename_i u st4 h3
        have i3 := invoke_ok_api env pc rootDir h3 i2 (fun _ _ => rfl)
        exact i3

theorem processVersion_replay {σ : Type} (env : Env σ) (pc : Provider)
    (rootDir group shortGroup : String) (versions : GoMap (GoMap Resource)) (st : RunState σ)
    (entry : String × GoMap Resource)
    (hinv : st.apiVersionPkgList = apiReplay env pc rootDir st.log) :
    Outcome.Sat (fun st' => st'.apiVersionPkgList = apiReplay env pc rootDir st'.log)
      (fun e => e.2.apiVersionPkgList = apiReplay env pc rootDir e.2.log)
      (processVersion env pc rootDir group shortGroup versions st entry) := by
  unfold processVersion
  simp only []
  split
  · rename_i e h1
    exact invoke_error_api env pc rootDir h1 hinv
  · rename_i u st1 h1
    have i1 := invoke_ok_api env pc rootDir h1 hinv (fun _ _ => rfl)
    have loop := foldlM_sat
      (processResource env pc rootDir group shortGroup entry.1 entry.2)
      (fun _ (b : List (Resource × String) × RunState σ) =>
        b.2.apiVersionPkgList = apiReplay env pc rootDir b.2.log)
      (fun e => e.2.apiVersionPkgList = apiReplay env pc rootDir e.2.log)
      (sortedResources entry.2) ([], st1) i1
      (fun _ x _ b _ hb =>
        processResource_replay env pc rootDir group shortGroup entry.1 entry.2 b x hb)
    split
    · rename_i e h2
      rw [h2] at loop
      exact loop
    · rename_i tf st2 h2
      rw [h2] at loop
      have i2 : st2.apiVersionPkgList = apiReplay env pc rootDir st2.log := loop
      split
      · rename_i e h3
        exact invoke_error_api env pc rootDir h3 i2
      · rename_i u3 st3 h3
        have i3 := invoke_ok_api env pc rootDir h3 i2 (fun _ _ => rfl)
        split
        · rename_i e h4
          exact invoke_error_api env pc rootDir h4 i3
        · rename_i u4 st4 h4
          have f4 := invoke_ok h4
          simp only [Outcome.Sat]
          rw [f4.2.2.1, f4.2.1, i3]
          simp [apiReplay, List.foldl_append, apiStep]

theorem processGroup_replay {σ : Type} (env : Env σ) (pc : Provider) (rootDir : String)
    (st : RunState σ) (entry : String × GoMap (GoMap Resource))
    (hinv : st.apiVersionPkgList = apiReplay env pc rootDir st.log) :
    Outcome.Sat (fun st' => st'.apiVersionPkgList = apiReplay env pc rootDir st'.log)
      (fun e => e.2.apiVersionPkgList = apiReplay env pc rootDir e.2.log)
      (processGroup env pc rootDir (groupResources env pc) st entry) := by
  unfold processGroup
  simp only []
  have loop := foldlM_sat
    (processVersion env pc rootDir entry.1 (splitFirst entry.1) entry.2)
    (fun _ (b : RunState σ) => b.apiVersionPkgList = apiReplay env pc rootDir b.log)
    (fun e => e.2.apiVersionPkgList = apiReplay env pc rootDir e.2.log)
    entry.2 st hinv
    (fun _ x _ b _ hb =>
      processVersion_replay env pc rootDir entry.1 (splitFirst entry.1) entry.2 b x hb)
  split
  · rename_i e h1
    rw [h1] at loop
    exact loop
  · rename_i st1 h1
    rw [h1] at loop
    have i1 : st1.apiVersionPkgList = apiReplay env pc rootDir st1.log := loop
    split
    · rename_i e h2
      exact invoke_error_api env pc rootDir h2 i1
    · rename_i hub st2 h2
      have f2 := invoke_ok h2
      split
      · rename_i e h3
        have f3 := invoke_error h3
        simp only [Outcome.Sat]
        rw [f3.2.2.2.2.1, f3.2.2.1, f2.2.2.1, f2.2.1, i1]
        simp [apiReplay, List.foldl_append, apiStep_error, apiStep]
      · rename_i spoke st3 h3
        have f3 := invoke_ok h3
        simp only [Outcome.Sat]
        rw [conversionPackages_eq, f3.2.2.1, f3.2.1, f2.2.2.1, f2.2.1, i1]
        simp [apiReplay, List.foldl_append, apiStep]

theorem runGoimports_replay {σ : Type} (env : Env σ) (pc : Provider) (rootDir folder : String)
    (st : RunState σ) (hinv : st.apiVersionPkgList = apiReplay env pc rootDir st.log) :
    Outcome.Sat (fun st' => st'.apiVersionPkgList = apiReplay env pc rootDir st'.log)
      (fun e => e.2.apiVersionPkgList = apiReplay env pc rootDir e.2.log)
      (runGoimports env rootDir folder st) := by
  unfold runGoimports
  simp only []
  split
  · simp only [Outcome.Sat]
    rw [hinv]
    simp [apiReplay, List.foldl_append, apiStep_error]
  · simp only [Outcome.Sat]
    rw [hinv]
    simp [apiReplay, List.foldl_append, apiStep]

theorem finish_replay {σ : Type} (env : Env σ) (pc : Provider) (rootDir : String)
    (st : RunState σ) (hinv : st.apiVersionPkgList = apiReplay env pc rootDir st.log) :
    Outcome.Sat (fun st' => st'.apiVersionPkgList = apiReplay env pc rootDir st'.log)
      (fun e => e.2.apiVersionPkgList = apiReplay env pc rootDir e.2.log)
      (finish env pc rootDir st) := by
  unfold finish
  split
  · rename_i e h1
    exact invoke_error_api env pc rootDir h1 hinv
  · rename_i u1 st1 h1
    have i1 := invoke_ok_api env pc rootDir h1 hinv (fun _ _ => rfl)
    split
    · rename_i e h2
      exact invoke_error_api env pc rootDir h2 i1
    · rename_i u2 st2 h2
      have i2 := invoke_ok_api env pc rootDir h2 i1 (fun _ _ => rfl)
      split
      · rename_i e h3
        exact invoke_error_api env pc rootDir h3 i2
      · rename_i u3 st3 h3
        have i3 := invoke_ok_api env pc rootDir h3 i2 (fun _ _ => rfl)
        have g1 := runGoimports_replay env pc rootDir "apis" st3 i3
        split
        · rename_i e h4
          rw [h4] at g1
          exact g1
        · rename_i st4 h4
          rw [h4] at g1
          have g2 := runGoimports_replay env pc rootDir "internal" st4 g1
          split
          · rename_i e h5
            rw [h5] at g2
            exact g2
          · rename_i st5 h5
            rw [h5] at g2
            exact g2

/-- In the state a run ends in, normally or by a panic at any call, the API version
package list is the list owed to the calls made so far. -/
theorem Run_replay {σ : Type} (env : Env σ) (pc : Provider) (rootDir : String) (w : σ) :
    (Run env pc rootDir w).state.apiVersionPkgList =
      apiReplay env pc rootDir (Run env pc rootDir w).state.log := by
  unfold Run
  simp only []
  split
  · rename_i e h1
    have f := invoke_error h1
    simp only [Outcome.state]
    rw [f.2.2.2.2.1, f.2.2.1]
    simp [apiReplay, apiStep_error]
  · rename_i u st1 h1
    have f := invoke_ok h1
    have i0 : (seedState env pc st1).apiVersionPkgList =
        apiReplay env pc rootDir (seedState env pc st1).log := by
      simp only [seedState]
      rw [foldl_append_singleton, f.2.1]
      simp [apiReplay, apiStep, baseAPIVersionPkgs]
    have loop := foldlM_sat (processGroup env pc rootDir (groupResources env pc))
      (fun _ (b : RunState σ) => b.apiVersionPkgList = apiReplay env pc rootDir b.log)
      (fun e => e.2.apiVersionPkgList = apiReplay env pc rootDir e.2.log)
      (groupResources env pc) (seedState env pc st1) i0
      (fun _ x _ b _ hb => processGroup_replay env pc rootDir b x hb)
    split
    · rename_i e h2
      rw [h2] at loop
      exact loop
    · rename_i st2 h2
      rw [h2] at loop
      have fin := finish_replay env pc rootDir st2 loop
      cases hfin : finish env pc rootDir st2 with
      | error e =>
        rw [hfin] at fin
        exact fin
      | ok st3 =>
        rw [hfin] at fin
        exact fin

/-- C12, refuted as stated: with resources in the groups `ec2` and `s3` and a CRD
generation that fails for the resource of `s3`, the run stops in the type generation
of `s3` with a list that already holds, after the base package and the version package
of `ec2`, the location derived from the hub node map of `ec2`. -/
theorem C12_aggregation_counterexample :
    ((Run bucketFailEnv twoGroupsProvider "/out" ()).state.log.map fun e =>
      (e.call, e.failed)) =
      [(.setReferenceTypes, false),
       (.insertPreviousObjects "ec2.aws.upbound.io" "v1beta1", false),
       (.crdGenerate "ec2.aws.upbound.io" "v1beta1" "vpc", false),
       (.ctrlGenerate "ec2.aws.upbound.io" "v1beta1" "vpc"
          "github.com/upbound/provider-aws/apis/ec2/v1beta1" "", false),
       (.exampleGenerate "ec2.aws.upbound.io" "v1beta1" "vpc", false),
       (.tfGenerate "ec2.aws.upbound.io" "v1beta1"
          [(⟨"ec2", "v1beta1", "VPC", "", "v1beta1"⟩, "VPCParameters")], false),
       (.versionGenerate "ec2.aws.upbound.io" "v1beta1", false),
       (.conversionHubGenerate "ec2.aws.upbound.io", false),
       (.conversionSpokeGenerate "ec2.aws.upbound.io", false),
       (.insertPreviousObjects "s3.aws.upbound.io" "v1beta1", false),
       (.crdGenerate "s3.aws.upbound.io" "v1beta1" "bucket", true)] ∧
    (Run bucketFailEnv twoGroupsProvider "/out" ()).state.apiVersionPkgList =
      baseAPIVersionPkgs bucketFailEnv twoGroupsProvider ++
        [bucketFailEnv.versionPackagePath "/out" twoGroupsProvider.ModulePath
          "ec2.aws.upbound.io" "v1beta1"] ++
        conversionPkgsOf bucketFailEnv
          (bucketFailEnv.filepathJoin [twoGroupsProvider.ModulePath, "apis", "ec2"])
          [] [("ec2.VPC", ["v1beta1"])] ⟨"ec2", "v1beta1", "VPC", "", "v1beta1"⟩ ∧
    (Run bucketFailEnv twoGroupsProvider "/out" ()).state.apiVersionPkgList =
      ["github.com/upbound/provider-aws/apis/v1beta1",
       "github.com/upbound/provider-aws/apis/ec2/v1beta1",
       "github.com/upbound/provider-aws/apis/ec2/v1beta1"] := by
  decide

/-- C12, amended: in the state in which a run ends, normally or by a panic at any
call, the API version package list is the list owed to the calls made so far, in their
order: the base packages once `SetReferenceTypes` has succeeded, the package of a
version once its version file generation has succeeded, and, once the spoke generation
of a group has succeeded, the locations derived from the spoke and hub node maps of
that group for every resource of the table, resource by resource in the order in which
the loops of lines 162-164 visit the table in the iteration of that group.  That order
is drawn anew in every iteration and is any order of the groups, of the versions of
each group and of the resources of each version: the loops visit every resource of
the table once.  The calls made are an initial part of the calls of a run without
failures, in which the hub and spoke generation of a group follow the calls for all
versions of that group and precede the calls for the next group. -/
theorem C12_aggregation_amended {σ : Type} (env : Env σ) (pc : Provider) (rootDir : String)
    (w : σ) :
    (Run env pc rootDir w).state.apiVersionPkgList =
      apiReplay env pc rootDir (Run env pc rootDir w).state.log ∧
    (∀ group, (tableResources (aggregationTable env group (groupResources env pc))).Perm
      (tableResources (groupResources env pc))) ∧
    (∃ rest, (Run env pc rootDir w).state.log.map (fun e => e.call.skeleton) ++ rest
      = .setReferenceTypes ::
        ((groupResources env pc).flatMap fun gv =>
          gv.2.flatMap (versionCalls env pc rootDir gv.1) ++
            [.conversionHubGenerate gv.1, .conversionSpokeGenerate gv.1]) ++
        finishCalls env rootDir) :=
  ⟨Run_replay env pc rootDir w,
    fun group => tableResources_aggregationTable env group (groupResources env pc),
    (Run_calls_initial env pc rootDir w).1⟩

/-- C12, amended, in the scenario of the specification when the loops of lines 162-164
visit the version `v1beta2` before `v1beta1`: the locations of `vpc2` precede those of
`vpc` and `subnet`, and the list is the one owed to the calls made. -/
theorem C12_aggregation_amended_witness :
    (Run versionsReversedEnv sampleProvider "/out" ()).state.apiVersionPkgList =
      ["github.com/upbound/provider-aws/apis/v1beta1",
       "github.com/upbound/provider-aws/apis/ec2/v1beta1",
       "github.com/upbound/provider-aws/apis/ec2/v1beta2",
       "github.com/upbound/provider-aws/apis/ec2/v1beta2",
       "github.com/upbound/provider-aws/apis/ec2/v1beta1",
       "github.com/upbound/provider-aws/apis/ec2/v1beta2",
       "github.com/upbound/provider-aws/apis/ec2/v1beta1",
       "github.com/upbound/provider-aws/apis/ec2/v1beta1"] ∧
    apiReplay versionsReversedEnv sampleProvider "/out"
        (Run versionsReversedEnv sampleProvider "/out" ()).state.log =
      ["github.com/upbound/provider-aws/apis/v1beta1",
       "github.com/upbound/provider-aws/apis/ec2/v1beta1",
       "github.com/upbound/provider-aws/apis/ec2/v1beta2",
       "github.com/upbound/provider-aws/apis/ec2/v1beta2",
       "github.com/upbound/provider-aws/apis/ec2/v1beta1",
       "github.com/upbound/provider-aws/apis/ec2/v1beta2",
       "github.com/upbound/provider-aws/apis/ec2/v1beta1",
       "github.com/upbound/provider-aws/apis/ec2/v1beta1"] :=
  ⟨by decide,
    (C12_aggregation_amended versionsReversedEnv sampleProvider "/out" ()).1.symm.trans
      (by decide)⟩

/-! ## Uniqueness of the hub version -/

theorem nodup_classify_bucket (isTarget : Resource → String → Bool) (version : String)
    (rs : GoMap Resource) (m : NodeVersionsMap) (hm : ∀ key, (mapIndex m key).Nodup) :
    ∀ key, (mapIndex (rs.foldl (classifyStep isTarget version) m) key).Nodup := by
  induction rs generalizing m with
  | nil => exact hm
  | cons a t ih =>
    rw [List.foldl_cons]
    apply ih
    intro key
    unfold classifyStep
    split
    · rw [mapIndex_appendIfAbsent]
      split
      · rename_i h
        obtain ⟨h1, h2⟩ := h
        subst h1
        exact List.nodup_append.2 ⟨hm _, List.nodup_singleton _, by
          intro x hx hy
          simp at hy
          subst hy
          exact h2 hx⟩
      · simpa using hm key
    · exact hm key

theorem nodup_classify (isTarget : Resource → String → Bool) (versions : GoMap (GoMap Resource))
    (key : String) : (mapIndex (classify isTarget versions) key).Nodup := by
  unfold classify
  have gen : ∀ (vs : GoMap (GoMap Resource)) (m : NodeVersionsMap),
      (∀ key, (mapIndex m key).Nodup) →
      ∀ key, (mapIndex (vs.foldl (fun m vr => vr.2.foldl (classifyStep isTarget vr.1) m) m)
        key).Nodup := by
    intro vs
    induction vs with
    | nil => intro m hm; exact hm
    | cons a t ih =>
      intro m hm
      rw [List.foldl_cons]
      exact ih _ (nodup_classify_bucket isTarget a.1 a.2 m hm)
  exact gen versions [] (fun k => by simp [mapIndex, mapLookup]) key

/-- C13, refuted as stated: for a group in which the kind `VPC` is present only in
`v1beta2` and declares the hub version `v1beta1`, every version of the kind declares
the same hub version and the hub pass yields no version for `ec2.VPC`. -/
theorem C13_hub_unique_counterexample :
    (∀ vr ∈ spokeOnlyVersions, ∀ nr ∈ vr.2, nodeKey nr.2 = "ec2.VPC" →
      nr.2.CRDHubVersion = "v1beta1") ∧
    (∃ vr ∈ spokeOnlyVersions, ∃ nr ∈ vr.2, nodeKey nr.2 = "ec2.VPC") ∧
    mapIndex (classify hubPredicate spokeOnlyVersions) "ec2.VPC" = [] ∧
    (mapIndex (classify hubPredicate spokeOnlyVersions) "ec2.VPC").length ≠ 1 := by
  decide

/-- C13, amended: when all resources with the key `"<shortGroup>.<kind>"` in a group
declare the same hub version, the hub pass of the classifier of the specification
yields at most one version for that key: exactly the declared hub version when a
resource with that key is present in the bucket of the hub version, and none
otherwise. -/
theorem C13_hub_unique_amended (versions : GoMap (GoMap Resource)) (key hub : String)
    (hsame : ∀ vr ∈ versions, ∀ nr ∈ vr.2, nodeKey nr.2 = key → nr.2.CRDHubVersion = hub) :
    (mapIndex (classify hubPredicate versions) key).length ≤ 1 ∧
    ((∃ rs nr, (hub, rs) ∈ versions ∧ nr ∈ rs ∧ nodeKey nr.2 = key) →
      mapIndex (classify hubPredicate versions) key = [hub]) ∧
    ((¬ ∃ rs nr, (hub, rs) ∈ versions ∧ nr ∈ rs ∧ nodeKey nr.2 = key) →
      mapIndex (classify hubPredicate versions) key = []) := by
  have hnd := nodup_classify hubPredicate versions key
  have hall : ∀ v ∈ mapIndex (classify hubPredicate versions) key, v = hub := by
    intro v hv
    obtain ⟨rs, nr, h1, h2, h3, h4⟩ := (mem_classify _ _ _ _).1 hv
    have := hsame (v, rs) h1 nr h2 h3
    simp only [hubPredicate, beq_iff_eq] at h4
    rw [← h4, this]
  have hshape : mapIndex (classify hubPredicate versions) key = [] ∨
      mapIndex (classify hubPredicate versions) key = [hub] := by
    cases hE : mapIndex (classify hubPredicate versions) key with
    | nil => exact Or.inl rfl
    | cons a t =>
      rw [hE] at hnd hall
      have ha : a = hub := hall a (by simp)
      cases t with
      | nil => right; rw [ha]
      | cons b t' =>
        have hb : b = hub := hall b (by simp)
        rw [ha, hb] at hnd
        simp at hnd
  refine ⟨?_, ?_, ?_⟩
  · rcases hshape with h | h <;> simp [h]
  · rintro ⟨rs, nr, h1, h2, h3⟩
    have hin : hub ∈ mapIndex (classify hubPredicate versions) key := by
      refine (mem_classify _ _ _ _).2 ⟨rs, nr, h1, h2, h3, ?_⟩
      have := hsame (hub, rs) h1 nr h2 h3
      simp [hubPredicate, this]
    rcases hshape with h | h
    · rw [h] at hin
      simp at hin
    · exact h
  · intro hno
    rcases hshape with h | h
    · exact h
    · exfalso
      apply hno
      have hin : hub ∈ mapIndex (classify hubPredicate versions) key := by rw [h]; simp
      obtain ⟨rs, nr, h1, h2, h3, -⟩ := (mem_classify _ _ _ _).1 hin
      exact ⟨rs, nr, h1, h2, h3⟩

/-- C13 amended, at the group of the sample configuration: the hub entry of `ec2.VPC`
is the declared hub version `v1beta1`. -/
theorem C13_hub_unique_amended_witness :
    (∀ vr ∈ mapIndex (groupResources sampleEnv sampleProvider) "ec2.aws.upbound.io",
      ∀ nr ∈ vr.2, nodeKey nr.2 = "ec2.VPC" → nr.2.CRDHubVersion = "v1beta1") ∧
    mapIndex (classify hubPredicate
      (mapIndex (groupResources sampleEnv sampleProvider) "ec2.aws.upbound.io")) "ec2.VPC"
      = ["v1beta1"] :=
  ⟨by decide,
    (C13_hub_unique_amended
      (mapIndex (groupResources sampleEnv sampleProvider) "ec2.aws.upbound.io") "ec2.VPC"
      "v1beta1" (by decide)).2.1
      ⟨[("vpc", ⟨"ec2", "v1beta1", "VPC", "", "v1beta1"⟩),
        ("subnet", ⟨"ec2", "v1beta1", "Subnet", "", "v1beta1"⟩)],
       ("vpc", ⟨"ec2", "v1beta1", "VPC", "", "v1beta1"⟩), by decide, by decide, by decide⟩⟩

/-! ## The monolithic sequence and the sequences of the other keys -/

theorem flatMap_sublist {α β : Type} (f g : α → List β) (l : List α)
    (h : ∀ x, (f x).Sublist (g x)) : (l.flatMap f).Sublist (l.flatMap g) := by
  induction l with
  | nil => exact List.Sublist.refl _
  | cons a t ih =>
    rw [List.flatMap_cons, List.flatMap_cons]
    exact List.Sublist.append (h a) ih

theorem cmPkgs_sublist {σ : Type} (env : Env σ) (pc : Provider) (k : String)
    (hk : k ≠ env.PackageNameMonolith) :
    (cmPkgs env pc k).Sublist (cmPkgs env pc env.PackageNameMonolith) := by
  unfold cmPkgs
  apply flatMap_sublist
  intro pg
  have h2 : ¬ env.PackageNameMonolith = k := fun e => hk e.symm
  rw [if_neg h2, List.append_nil, if_pos rfl]
  split
  · exact List.sublist_append_right _ _
  · exact List.nil_sublist _

theorem ctrlPkgs_sublist {σ : Type} (env : Env σ) (k : String)
    (hk : k ≠ env.PackageNameMonolith) (e : Event) :
    (Event.ctrlPkgs env k e).Sublist (Event.ctrlPkgs env env.PackageNameMonolith e) := by
  rw [ctrlPkgs_eq_ctrlReply, ctrlPkgs_eq_ctrlReply]
  apply flatMap_sublist
  intro gp
  have h2 : ¬ env.PackageNameMonolith = k := fun e => hk e.symm
  rw [if_neg h2, List.append_nil, if_pos rfl]
  split
  · exact List.sublist_append_right _ _
  · exact List.nil_sublist _

theorem genPkgs_sublist {σ : Type} (env : Env σ) (k : String)
    (hk : k ≠ env.PackageNameMonolith) (log : List Event) :
    (genPkgs env k log).Sublist (genPkgs env env.PackageNameMonolith log) :=
  flatMap_sublist _ _ log (ctrlPkgs_sublist env k hk)

/-- C14, refuted as stated: when the `ControllerMap` seeds a package `x` of another
group before a package `a` of the per-config group and the legacy list names `x`, the
sequence of the per-config key is `a, x` and the monolithic sequence is `x, a`. -/
theorem C14_subsequence_counterexample :
    mapIndex (Run sampleEnv reorderProvider "/out" ()).state.controllerPkgMap "config" =
      ["github.com/upbound/provider-aws/internal/controller/a",
       "github.com/upbound/provider-aws/internal/controller/x"] ∧
    mapIndex (Run sampleEnv reorderProvider "/out" ()).state.controllerPkgMap "monolith" =
      ["github.com/upbound/provider-aws/internal/controller/x",
       "github.com/upbound/provider-aws/internal/controller/a"] ∧
    ¬ (mapIndex (Run sampleEnv reorderProvider "/out" ()).state.controllerPkgMap "config").Sublist
      (mapIndex (Run sampleEnv reorderProvider "/out" ()).state.controllerPkgMap "monolith") ∧
    (Run sampleEnv reorderProvider "/out" ()).state.reported = some 0 := by
  decide

/-- C14, amended: when `SetReferenceTypes` has succeeded, in the state a run ends in
and for every key `k` other than the monolithic key, the sequence under `k` without
the entries added by the legacy loop (the locations appended by the `ControllerMap`
loop followed by the generated controller packages of `k`) is a subsequence of the
monolithic sequence; the whole sequence under `k` is one when `k` is not the
per-config key; and every location under `k` occurs in the monolithic sequence. -/
theorem C14_subsequence_amended {σ : Type} (env : Env σ) (pc : Provider) (rootDir : String)
    (w w1 : σ) (k : String) (hset : env.setReferenceTypes w pc.Resources = .ok ((), w1))
    (hk : k ≠ env.PackageNameMonolith) :
    (cmPkgs env pc k ++ genPkgs env k (Run env pc rootDir w).state.log).Sublist
      (mapIndex (Run env pc rootDir w).state.controllerPkgMap env.PackageNameMonolith) ∧
    (k ≠ env.PackageNameConfig →
      (mapIndex (Run env pc rootDir w).state.controllerPkgMap k).Sublist
        (mapIndex (Run env pc rootDir w).state.controllerPkgMap env.PackageNameMonolith)) ∧
    (∀ p ∈ mapIndex (Run env pc rootDir w).state.controllerPkgMap k,
      p ∈ mapIndex (Run env pc rootDir w).state.controllerPkgMap env.PackageNameMonolith) := by
  have hp : ∀ k, mapIndex (Run env pc rootDir w).state.controllerPkgMap k =
      mapIndex (seedLegacyControllers env pc (seedControllerMap env pc [])) k ++
        genPkgs env k (Run env pc rootDir w).state.log := by
    rcases Run_pkgs env pc rootDir w with ⟨-, err, herr⟩ | ⟨w2, -, h⟩
    · rw [hset] at herr
      cases herr
    · exact h
  obtain ⟨lm, hm1, -⟩ := mapIndex_foldl_legacyStep env pc
    pc.BasePackages.Controller (seedControllerMap env pc []) env.PackageNameMonolith
  obtain ⟨lk, hk1, -, -, -, hk5⟩ := mapIndex_foldl_legacyStep env pc
    pc.BasePackages.Controller (seedControllerMap env pc []) k
  rw [mapIndex_seedControllerMap] at hm1 hk1
  have hmono : mapIndex (Run env pc rootDir w).state.controllerPkgMap env.PackageNameMonolith =
      cmPkgs env pc env.PackageNameMonolith ++ lm ++
        genPkgs env env.PackageNameMonolith (Run env pc rootDir w).state.log := by
    rw [hp]
    unfold seedLegacyControllers
    rw [hm1]
  have hkey : mapIndex (Run env pc rootDir w).state.controllerPkgMap k =
      cmPkgs env pc k ++ lk ++ genPkgs env k (Run env pc rootDir w).state.log := by
    rw [hp]
    unfold seedLegacyControllers
    rw [hk1]
  have hsub : (cmPkgs env pc k ++ genPkgs env k (Run env pc rootDir w).state.log).Sublist
      (mapIndex (Run env pc rootDir w).state.controllerPkgMap env.PackageNameMonolith) := by
    rw [hmono, List.append_assoc]
    exact List.Sublist.append (cmPkgs_sublist env pc k hk)
      ((genPkgs_sublist env k hk _).trans (List.sublist_append_right _ _))
  refine ⟨hsub, ?_, ?_⟩
  · intro hcfg
    have hnil : lk = [] := by
      by_contra hne
      rcases hk5 hne with h | h
      · exact hcfg h
      · exact hk h
    rw [hkey, hnil, List.append_nil]
    exact hsub
  · intro p hpk
    rw [hp] at hpk ⊢
    rcases List.mem_append.1 hpk with h1 | h1
    · exact List.mem_append.2 (Or.inl ((covers_seeded env pc).2 k p h1))
    · exact List.mem_append.2 (Or.inr (genPkgs_monolith env k p _ h1))

/-- C14 amended, at the sample configuration: the sequence of `ec2` is a subsequence
of the monolithic sequence. -/
theorem C14_subsequence_amended_witness :
    sampleEnv.setReferenceTypes () sampleProvider.Resources = .ok ((), ()) ∧
    "ec2" ≠ sampleEnv.PackageNameMonolith ∧
    (mapIndex (Run sampleEnv sampleProvider "/out" ()).state.controllerPkgMap "ec2").Sublist
      (mapIndex (Run sampleEnv sampleProvider "/out" ()).state.controllerPkgMap
        sampleEnv.PackageNameMonolith) :=
  ⟨rfl, by decide,
    (C14_subsequence_amended sampleEnv sampleProvider "/out" () () "ec2" rfl (by decide)).2.1
      (by decide)⟩

/-! ## The grouping table does not depend on the order of the input -/

theorem bucket_keys_nodup (t : GroupingTable) (h : TableWF t) (g v : String) :
    (mapKeys (mapIndex (mapIndex t g) v)).Nodup := by
  have hvs : ∀ vr ∈ mapIndex t g, (mapKeys vr.2).Nodup := by
    rcases mapIndex_nil_or_mem t g with h0 | h0
    · rw [h0]; simp
    · intro vr hvr
      exact ((h.2 _ h0).2.2 vr hvr).2
  rcases mapIndex_nil_or_mem (mapIndex t g) v with h0 | h0
  · rw [h0]; simp [mapKeys]
  · exact hvs _ h0

theorem mem_bucket_keys (t : GroupingTable) (g v n : String) :
    n ∈ mapKeys (mapIndex (mapIndex t g) v) ↔ ∃ r, tableLookup t g v n = some r := by
  unfold tableLookup
  constructor
  · intro h
    cases hl : mapLookup (mapIndex (mapIndex t g) v) n with
    | none => exact absurd h ((mapLookup_eq_none_iff _ _).1 hl)
    | some r => exact ⟨r, rfl⟩
  · rintro ⟨r, hr⟩
    by_contra hn
    rw [(mapLookup_eq_none_iff _ _).2 hn] at hr
    cases hr

theorem mem_group_keys (t : GroupingTable) (h : TableWF t) (g : String) :
    g ∈ mapKeys t ↔ ∃ v n r, tableLookup t g v n = some r := by
  constructor
  · intro hg
    obtain ⟨⟨g', vs⟩, hvs, rfl⟩ := List.mem_map.1 hg
    have w := h.2 _ hvs
    obtain ⟨⟨v, rs⟩, hrs⟩ := List.exists_mem_of_ne_nil _ w.1
    obtain ⟨⟨n, r⟩, hr⟩ := List.exists_mem_of_ne_nil _ (w.2.2 _ hrs).1
    exact ⟨v, n, r, (tableLookup_iff_mem t h _ _ _ _).2 ⟨vs, rs, hvs, hrs, hr⟩⟩
  · rintro ⟨v, n, r, hl⟩
    obtain ⟨vs, rs, h1, -, -⟩ := (tableLookup_iff_mem t h _ _ _ _).1 hl
    exact List.mem_map.2 ⟨_, h1, rfl⟩

theorem mem_version_keys (t : GroupingTable) (h : TableWF t) (g v : String) :
    v ∈ mapKeys (mapIndex t g) ↔ ∃ n r, tableLookup t g v n = some r := by
  constructor
  · intro hv
    obtain ⟨⟨v', rs⟩, hrs, rfl⟩ := List.mem_map.1 hv
    have hne : mapIndex t g ≠ [] := by
      intro e
      rw [e] at hrs
      simp at hrs
    have hg := (mapIndex_nil_or_mem t g).resolve_left hne
    obtain ⟨⟨n, r⟩, hr⟩ := List.exists_mem_of_ne_nil _ ((h.2 _ hg).2.2 _ hrs).1
    exact ⟨n, r, (tableLookup_iff_mem t h _ _ _ _).2 ⟨_, rs, hg, hrs, hr⟩⟩
  · rintro ⟨n, r, hl⟩
    obtain ⟨vs, rs, h1, h2, -⟩ := (tableLookup_iff_mem t h _ _ _ _).1 hl
    have e1 : mapIndex t g = vs := by
      unfold mapIndex
      rw [mapLookup_of_mem t h.1 g vs h1]
      rfl
    rw [e1]
    exact List.mem_map.2 ⟨_, h2, rfl⟩

theorem sortStrings_eq_of_perm (l1 l2 : List String) (h : l1.Perm l2) :
    sortStrings l1 = sortStrings l2 :=
  List.eq_of_perm_of_sorted
    (((sortStrings_perm l1).trans h).trans (sortStrings_perm l2).symm)
    (sortStrings_sorted l1) (sortStrings_sorted l2)

/-- C15: for two orders `pc.Resources` and `l` of the same resource set, the grouping
loop builds tables with the same contents: the same entry under every group, version
and name, the same groups and the same versions of every group; and `sortedResources`
gives the same list for every bucket. -/
theorem C15_grouping_deterministic {σ : Type} (env : Env σ) (pc : Provider)
    (l : GoMap Resource) (hkeys : (mapKeys pc.Resources).Nodup) (hperm : pc.Resources.Perm l) :
    (∀ g v n, tableLookup (groupResources env pc) g v n =
      tableLookup (groupResources env { pc with Resources := l }) g v n) ∧
    (∀ g, g ∈ mapKeys (groupResources env pc) ↔
      g ∈ mapKeys (groupResources env { pc with Resources := l })) ∧
    (∀ g v, v ∈ mapKeys (mapIndex (groupResources env pc) g) ↔
      v ∈ mapKeys (mapIndex (groupResources env { pc with Resources := l }) g)) ∧
    (∀ g v, sortedResources (mapIndex (mapIndex (groupResources env pc) g) v) =
      sortedResources
        (mapIndex (mapIndex (groupResources env { pc with Resources := l }) g) v)) := by
  have hkeys2 : (mapKeys l).Nodup := (hperm.map Prod.fst).nodup_iff.1 hkeys
  have e2 : groupResources env { pc with Resources := l } = l.foldl (groupInsert env pc) [] :=
    rfl
  have wf1 : TableWF (groupResources env pc) := groupFold_wf env pc pc.Resources
  have wf2 : TableWF (groupResources env { pc with Resources := l }) := by
    rw [e2]
    exact groupFold_wf env pc l
  have hlook : ∀ g v n, tableLookup (groupResources env pc) g v n =
      tableLookup (groupResources env { pc with Resources := l }) g v n := by
    intro g v n
    apply Option.ext
    intro r
    rw [e2]
    simp only [Option.mem_def]
    rw [tableLookup_groupFold env pc l hkeys2]
    unfold groupResources
    rw [tableLookup_groupFold env pc pc.Resources hkeys, hperm.mem_iff]
  refine ⟨hlook, ?_, ?_, ?_⟩
  · intro g
    rw [mem_group_keys _ wf1, mem_group_keys _ wf2]
    simp only [hlook]
  · intro g v
    rw [mem_version_keys _ wf1, mem_version_keys _ wf2]
    simp only [hlook]
  · intro g v
    apply sortStrings_eq_of_perm
    apply (List.perm_ext_iff_of_nodup (bucket_keys_nodup _ wf1 g v)
      (bucket_keys_nodup _ wf2 g v)).2
    intro n
    rw [mem_bucket_keys, mem_bucket_keys]
    simp only [hlook]

/-- C15, at the sample resources visited in reverse order. -/
theorem C15_grouping_deterministic_witness :
    (mapKeys sampleProvider.Resources).Nodup ∧
    sampleProvider.Resources.Perm sampleResources.reverse ∧
    sortedResources (mapIndex (mapIndex
      (groupResources sampleEnv { sampleProvider with Resources := sampleResources.reverse })
      "ec2.aws.upbound.io") "v1beta1") = ["subnet", "vpc"] ∧
    ∀ g v, sortedResources (mapIndex (mapIndex (groupResources sampleEnv sampleProvider) g) v) =
      sortedResources (mapIndex (mapIndex
        (groupResources sampleEnv { sampleProvider with Resources := sampleResources.reverse })
        g) v) :=
  ⟨by decide, (List.reverse_perm sampleResources).symm, by decide,
    (C15_grouping_deterministic sampleEnv sampleProvider sampleResources.reverse (by decide)
      (List.reverse_perm sampleResources).symm).2.2.2⟩

/-! ## The messages of panics -/

theorem beginsWith_append (s t : List Char) : beginsWith (s ++ t) s = true := by
  induction s with
  | nil => cases t <;> rfl
  | cons a r ih => simp [beginsWith, ih]

theorem occursInChars_append (p s t : List Char) : occursInChars (p ++ s ++ t) s = true := by
  induction p with
  | nil =>
    cases hs : s ++ t with
    | nil =>
      obtain ⟨h1, h2⟩ := List.append_eq_nil.1 hs
      subst h1
      subst h2
      rfl
    | cons a r =>
      simp only [List.nil_append, hs, occursInChars, Bool.or_eq_true]
      left
      rw [← hs]
      exact beginsWith_append s t
  | cons a r ih =>
    simp only [List.cons_append, occursInChars, Bool.or_eq_true]
    right
    simpa using ih

theorem stringContains_append (p s t : String) : stringContains (p ++ s ++ t) s = true := by
  unfold stringContains
  have : (p ++ s ++ t).toList = p.toList ++ s.toList ++ t.toList := by
    simp [String.toList, String.data_append]
  rw [this]
  exact occursInChars_append _ _ _

/-- The wrap messages of all calls made for a resource, a version or a group name the
resource or the group, but for version file generation, whose message is the constant
`cannot generate version files`. -/
theorem wrapContext_identifies {σ : Type} (env : Env σ)
    (hq : ∀ s, ∃ p t, env.fmtQ s = p ++ s ++ t) (c : Call) (cause : String) :
    (c.isVersionGenerate = false →
      c.identifiedBy (Panic.message ⟨c.wrapContext env, cause⟩) = true) ∧
    (c.isVersionGenerate = true →
      Panic.message ⟨c.wrapContext env, cause⟩ = "cannot generate version files: " ++ cause) := by
  have key : ∀ (a s b : String), stringContains (a ++ s ++ b) s = true := stringContains_append
  have named : ∀ (a s : String), stringContains (a ++ s ++ ": " ++ cause) s = true := by
    intro a s
    rw [String.append_assoc (a ++ s)]
    exact key a s _
  cases c with
  | crdGenerate g v n =>
    exact ⟨fun _ => named _ n, fun h => by cases h⟩
  | ctrlGenerate g v n wp fp =>
    exact ⟨fun _ => named _ n, fun h => by cases h⟩
  | exampleGenerate g v n =>
    exact ⟨fun _ => named _ n, fun h => by cases h⟩
  | tfGenerate g v l =>
    exact ⟨fun _ => named _ g, fun h => by cases h⟩
  | versionGenerate g v =>
    exact ⟨fun h => (by cases h), fun _ => rfl⟩
  | insertPreviousObjects g v =>
    refine ⟨fun _ => ?_, fun h => by cases h⟩
    obtain ⟨p, t, hpt⟩ := hq g
    simp only [Call.identifiedBy, Panic.message, Call.wrapContext, hpt]
    have := key ("cannot insert type definitions from the previous versions into the package scope for group " ++ p) g (t ++ ": " ++ cause)
    simpa [String.append_assoc] using this
  | conversionHubGenerate g =>
    refine ⟨fun _ => ?_, fun h => by cases h⟩
    obtain ⟨p, t, hpt⟩ := hq g
    simp only [Call.identifiedBy, Panic.message, Call.wrapContext, hpt]
    have := key ("cannot generate the conversion.Hub function for the resource group " ++ p) g
      (t ++ ": " ++ cause)
    simpa [String.append_assoc] using this
  | conversionSpokeGenerate g =>
    refine ⟨fun _ => ?_, fun h => by cases h⟩
    obtain ⟨p, t, hpt⟩ := hq g
    simp only [Call.identifiedBy, Panic.message, Call.wrapContext, hpt]
    have := key ("cannot generate the conversion.Convertible functions for the resource group "
      ++ p) g (t ++ ": " ++ cause)
    simpa [String.append_assoc] using this
  | _ => exact ⟨fun _ => rfl, fun h => by cases h⟩

/-- The panic of a run wraps the error of its last call with the message of that call;
so it names the resource or the group that was being processed unless the call is a
version file generation (or one of the calls outside the loop over the groups). -/
theorem Run_panic_identified {σ : Type} (env : Env σ) (pc : Provider) (rootDir : String) (w : σ)
    (hq : ∀ s, ∃ p t, env.fmtQ s = p ++ s ++ t) (e : Panic × RunState σ)
    (hrun : Run env pc rootDir w = .error e) :
    ∃ c, e.2.log.getLast? = some ⟨c, .error e.1.cause⟩ ∧
      (c.isGoimports = false → e.1.context = c.wrapContext env) ∧
      (c.isGoimports = false → c.isVersionGenerate = false →
        c.identifiedBy e.1.message = true) ∧
      (c.isVersionGenerate = true →
        e.1.message = "cannot generate version files: " ++ e.1.cause) := by
  have main : ∃ c, e.2.log.getLast? = some ⟨c, .error e.1.cause⟩ ∧
      (c.isGoimports = true ∨ e.1.context = c.wrapContext env) := by
    rcases Run_steps env pc rootDir w with ⟨e', he, -, hlog, hctx, -⟩ | ⟨w1, -, hsat⟩
    · rw [hrun] at he
      cases he
      exact ⟨.setReferenceTypes, by rw [hlog]; rfl, Or.inr hctx⟩
    · rw [hrun] at hsat
      obtain ⟨oks, c, hE, -, -, hc⟩ := hsat
      refine ⟨c, ?_, hc⟩
      rw [hE.log, ← List.append_assoc]
      simp
  obtain ⟨c, hlast, hc⟩ := main
  have hmsg : c.isGoimports = false → e.1.message = Panic.message ⟨c.wrapContext env, e.1.cause⟩ := by
    intro hg
    rcases hc with h | h
    · rw [hg] at h
      cases h
    · simp only [Panic.message, h]
  refine ⟨c, hlast, ?_, ?_, ?_⟩
  · intro hg
    rcases hc with h | h
    · rw [hg] at h
      cases h
    · exact h
  · intro hg hv
    rw [hmsg hg]
    exact (wrapContext_identifies env hq c e.1.cause).1 hv
  · intro hv
    have hg : c.isGoimports = false := by
      cases c <;> first | rfl | cases hv
    rw [hmsg hg]
    exact (wrapContext_identifies env hq c e.1.cause).2 hv

/-- C16, at a run whose version file generation fails: the last call is the version
file generation of group `ec2.aws.upbound.io` and version `v1beta1`, after the
resources `subnet` and `vpc`, and the message of the panic is
`cannot generate version files: disk full`, which holds neither the group, nor the
version, nor a resource name; the messages of the sibling wraps hold the resource
name or the group. -/
theorem C16_version_files_message :
    ((Run versionFailEnv sampleProvider "/out" ()).state.log.getLast?.map fun e =>
      (e.call, e.failed)) = some (.versionGenerate "ec2.aws.upbound.io" "v1beta1", true) ∧
    (Run versionFailEnv sampleProvider "/out" ()).panic?.map Panic.message
      = some "cannot generate version files: disk full" ∧
    stringContains "cannot generate version files: disk full" "ec2.aws.upbound.io" = false ∧
    stringContains "cannot generate version files: disk full" "ec2" = false ∧
    stringContains "cannot generate version files: disk full" "v1beta1" = false ∧
    stringContains "cannot generate version files: disk full" "subnet" = false ∧
    stringContains "cannot generate version files: disk full" "vpc" = false ∧
    (Run failingEnv sampleProvider "/out" ()).panic?.map Panic.message
      = some "cannot generate controller for resource vpc: no controller template" ∧
    stringContains "cannot generate controller for resource vpc: no controller template" "vpc"
      = true := by
  decide

/-! ## Duplicates in the API version package list -/

/-- C18: in the end-to-end scenario of the specification, with the node maps of the
scenario (hub `v1beta1` for `ec2.VPC` and `ec2.Subnet`, spoke `v1beta2` for `ec2.VPC`),
the list handed to registration generation is the base package, the packages of the
two versions, and then the spoke and hub locations of `vpc`, `subnet` and `vpc2`, one
resource after the other; it holds the location of `v1beta1` four times and that of
`v1beta2` three times. -/
theorem C18_api_list_duplicates :
    ((Run sampleEnv sampleProvider "/out" ()).state.log.any fun e =>
      e.call == .registerGenerate
        ["github.com/upbound/provider-aws/apis/v1beta1",
         "github.com/upbound/provider-aws/apis/ec2/v1beta1",
         "github.com/upbound/provider-aws/apis/ec2/v1beta2",
         "github.com/upbound/provider-aws/apis/ec2/v1beta2",
         "github.com/upbound/provider-aws/apis/ec2/v1beta1",
         "github.com/upbound/provider-aws/apis/ec2/v1beta1",
         "github.com/upbound/provider-aws/apis/ec2/v1beta2",
         "github.com/upbound/provider-aws/apis/ec2/v1beta1"] && !e.failed) = true ∧
    (Run sampleEnv sampleProvider "/out" ()).state.apiVersionPkgList =
      baseAPIVersionPkgs sampleEnv sampleProvider ++
        [sampleEnv.versionPackagePath "/out" sampleProvider.ModulePath "ec2.aws.upbound.io"
            "v1beta1",
         sampleEnv.versionPackagePath "/out" sampleProvider.ModulePath "ec2.aws.upbound.io"
            "v1beta2"] ++
        (sampleResources.map Prod.snd).flatMap (conversionPkgsOf sampleEnv
          (sampleEnv.filepathJoin [sampleProvider.ModulePath, "apis", "ec2"])
          [("ec2.VPC", ["v1beta2"])]
          [("ec2.VPC", ["v1beta1"]), ("ec2.Subnet", ["v1beta1"])]) ∧
    (Run sampleEnv sampleProvider "/out" ()).state.apiVersionPkgList.count
      "github.com/upbound/provider-aws/apis/ec2/v1beta1" = 4 ∧
    (Run sampleEnv sampleProvider "/out" ()).state.apiVersionPkgList.count
      "github.com/upbound/provider-aws/apis/ec2/v1beta2" = 3 ∧
    ¬ (Run sampleEnv sampleProvider "/out" ()).state.apiVersionPkgList.Nodup ∧
    ((Run sampleEnv sampleProvider "/out" ()).state.log.filterMap fun e =>
      match e.call, e.result with
      | .conversionHubGenerate g, .ok (.nodes m) => some (g, true, m)
      | .conversionSpokeGenerate g, .ok (.nodes m) => some (g, false, m)
      | _, _ => none) =
      [("ec2.aws.upbound.io", true, [("ec2.VPC", ["v1beta1"]), ("ec2.Subnet", ["v1beta1"])]),
       ("ec2.aws.upbound.io", false, [("ec2.VPC", ["v1beta2"])])] := by
  decide

/-! ## The first label of the group as key -/

theorem toLower_eq_dot (c : Char) (h : c.toLower = '.') : c = '.' := by
  unfold Char.toLower at h
  simp only [] at h
  by_cases hc : c.toNat ≥ 65 ∧ c.toNat ≤ 90
  · rw [if_pos hc] at h
    exfalso
    obtain ⟨h1, h2⟩ := hc
    generalize c.toNat = n at h h1 h2
    interval_cases n <;> exact absurd h (by decide)
  · rw [if_neg hc] at h
    exact h

theorem sampleLower_dot (s : String) (h : '.' ∈ (sampleLower s).toList) : '.' ∈ s.toList := by
  simp only [sampleLower, String.toList, List.mem_map] at h
  obtain ⟨c, hc, hl⟩ := h
  rw [toLower_eq_dot c hl] at hc
  exact hc

theorem splitFirst_append_dot (a b : String) (ha : '.' ∉ a.toList) :
    splitFirst (a ++ "." ++ b) = a := by
  unfold splitFirst
  have h1 : (a ++ "." ++ b).toList = a.toList ++ '.' :: b.toList := by
    simp [String.toList, String.data_append]
  rw [h1]
  have h2 : ∀ (l rest : List Char), '.' ∉ l →
      (l ++ '.' :: rest).takeWhile (fun c => c != '.') = l := by
    intro l rest hl
    induction l with
    | nil => simp
    | cons x t ih =>
      have hx : x ≠ '.' := fun e => hl (by simp [e])
      have ht : '.' ∉ t := fun e => hl (by simp [e])
      simp [List.takeWhile_cons, hx, ih ht]
  rw [h2 _ _ ha]
  rfl

theorem mem_ctrlReplies_iff (log : List Event) (g p : String) :
    (g, p) ∈ ctrlReplies log ↔
      ∃ e ∈ log, ∃ v n wp fp, e.call = .ctrlGenerate g v n wp fp ∧ e.result = .ok (.path p) := by
  unfold ctrlReplies
  rw [List.mem_filterMap]
  constructor
  · rintro ⟨e, he, hr⟩
    refine ⟨e, he, ?_⟩
    obtain ⟨c, r⟩ := e
    cases c with
    | ctrlGenerate g' v n wp fp =>
      cases r with
      | error err => simp [Event.ctrlReply] at hr
      | ok a =>
        cases a with
        | path q =>
          simp only [Event.ctrlReply, Option.some.injEq, Prod.mk.injEq] at hr
          obtain ⟨h1, h2⟩ := hr
          subst h1; subst h2
          exact ⟨v, n, wp, fp, rfl, rfl⟩
        | _ => simp [Event.ctrlReply] at hr
    | _ => simp [Event.ctrlReply] at hr
  · rintro ⟨e, he, v, n, wp, fp, hc, hr⟩
    refine ⟨e, he, ?_⟩
    obtain ⟨c, r⟩ := e
    simp only at hc hr
    subst hc; subst hr
    rfl

/-- C19: the key of a group is the part of its name before the first dot: for a
resource with a non-empty short group without dot it is `lower(ShortGroup)`, and for
a resource without short group it is the first label of the root group, which is not
empty when the root group does not begin with a dot.  When `SetReferenceTypes` has
succeeded, the package returned by every successful controller generation for a group
is under the key of that group in the state a run ends in, and a package under a key
other than the monolithic key is seeded or was returned for a group with that key.
On a successful run the hub and spoke locations of a group in the API version package
list are below `<modulePath>/apis/<key of the group>`. -/
theorem C19_first_label_key {σ : Type} (env : Env σ) (pc : Provider) (rootDir : String)
    (w w1 : σ) (hset : env.setReferenceTypes w pc.Resources = .ok ((), w1))
    (hlower : ∀ s, '.' ∈ (env.toLower s).toList → '.' ∈ s.toList) :
    (∀ r : Resource, r.ShortGroup ≠ "" → '.' ∉ r.ShortGroup.toList →
      splitFirst (groupOf env pc r) = env.toLower r.ShortGroup) ∧
    (∀ r : Resource, r.ShortGroup = "" →
      splitFirst (groupOf env pc r) = splitFirst pc.RootGroup) ∧
    (∀ c rest, pc.RootGroup.toList = c :: rest → c ≠ '.' → splitFirst pc.RootGroup ≠ "") ∧
    (∀ e ∈ (Run env pc rootDir w).state.log, ∀ g v n wp fp p,
      e.call = .ctrlGenerate g v n wp fp → e.result = .ok (.path p) →
      p ∈ mapIndex (Run env pc rootDir w).state.controllerPkgMap (splitFirst g)) ∧
    (∀ k, k ≠ env.PackageNameMonolith →
      ∀ p ∈ mapIndex (Run env pc rootDir w).state.controllerPkgMap k,
        p ∈ mapIndex (seedLegacyControllers env pc (seedControllerMap env pc [])) k ∨
        ∃ e ∈ (Run env pc rootDir w).state.log, ∃ g v n wp fp,
          e.call = .ctrlGenerate g v n wp fp ∧ e.result = .ok (.path p) ∧ splitFirst g = k) ∧
    (∀ st, Run env pc rootDir w = .ok st → ∀ ev ∈ st.log, ∀ g nvm,
      (ev.call = .conversionHubGenerate g ∨ ev.call = .conversionSpokeGenerate g) →
      ev.result = .ok (.nodes nvm) →
      ∀ r ∈ tableResources (groupResources env pc), ∀ sv ∈ mapIndex nvm (nodeKey r),
        env.filepathJoin [env.filepathJoin [pc.ModulePath, "apis", splitFirst g], sv]
          ∈ st.apiVersionPkgList) := by
  have hp : ∀ k, mapIndex (Run env pc rootDir w).state.controllerPkgMap k =
      mapIndex (seedLegacyControllers env pc (seedControllerMap env pc [])) k ++
        genPkgs env k (Run env pc rootDir w).state.log := by
    rcases Run_pkgs env pc rootDir w with ⟨-, err, herr⟩ | ⟨w2, -, h⟩
    · rw [hset] at herr
      cases herr
    · exact h
  refine ⟨?_, ?_, ?_, ?_, ?_, ?_⟩
  · intro r hne hdot
    have : groupOf env pc r = env.toLower r.ShortGroup ++ "." ++ pc.RootGroup := by
      simp [groupOf, hne]
    rw [this]
    exact splitFirst_append_dot _ _ (fun h => hdot (hlower _ h))
  · intro r he
    simp [groupOf, he]
  · intro c rest hroot hc hsplit
    have : (splitFirst pc.RootGroup).toList = [] := by rw [hsplit]; rfl
    simp only [splitFirst, String.toList, hroot] at this
    have hroot' : pc.RootGroup.data = c :: rest := hroot
    rw [hroot'] at this
    simp [List.takeWhile_cons, hc] at this
  · intro e he g v n wp fp p hc hr
    rw [hp, genPkgs_eq_ctrlReplies]
    apply List.mem_append_right
    refine List.mem_flatMap.2 ⟨(g, p), ?_, by simp⟩
    exact (mem_ctrlReplies_iff _ g p).2 ⟨e, he, v, n, wp, fp, hc, hr⟩
  · intro k hk p hpk
    rw [hp, genPkgs_eq_ctrlReplies, flatMap_key_filter k _ (fun e => hk e.symm)] at hpk
    rcases List.mem_append.1 hpk with h | h
    · exact Or.inl h
    · right
      obtain ⟨⟨g, q⟩, hgq, rfl⟩ := List.mem_map.1 h
      obtain ⟨hmem, hkey⟩ := List.mem_filter.1 hgq
      obtain ⟨e, he, v, n, wp, fp, hc, hr⟩ := (mem_ctrlReplies_iff _ g q).1 hmem
      exact ⟨e, he, g, v, n, wp, fp, hc, hr, by simpa using hkey⟩
  · intro st hrun
    exact (Run_api env pc rootDir w st hrun).1.2.2.2

/-- C19, at the configuration with the short groups `EC2` and empty: the keys are
`ec2` and `aws`. -/
theorem C19_first_label_key_witness :
    sampleEnv.setReferenceTypes () mixedCaseProvider.Resources = .ok ((), ()) ∧
    splitFirst (groupOf sampleEnv mixedCaseProvider ⟨"EC2", "v1beta1", "VPC", "", "v1beta1"⟩)
      = "ec2" ∧
    splitFirst (groupOf sampleEnv mixedCaseProvider
      ⟨"", "v1beta1", "ProviderConfig", "", "v1beta1"⟩) = "aws" ∧
    splitFirst (groupOf sampleEnv mixedCaseProvider ⟨"EC2", "v1beta1", "VPC", "", "v1beta1"⟩)
      = sampleEnv.toLower "EC2" :=
  ⟨rfl, by decide, by decide,
    (C19_first_label_key sampleEnv mixedCaseProvider "/out" () () rfl sampleLower_dot).1
      ⟨"EC2", "v1beta1", "VPC", "", "v1beta1"⟩ (by decide) (by decide)⟩

end Pipeline
